import Mathlib

/-!
# Verification of the Pogostick ("pog_os") kernel core

Shallow embedding of the parts of the Pogostick kernel relevant to its
specification: the ATA driver's free-sector search (`src/ata.rs`), the POGO
filesystem (`src/fs.rs`) and the CMOS date/time decoding (`src/time.rs`).

Modelling conventions:
* machine bytes are `Nat` (< 256 in any state the code produces), a 512-byte
  sector is a `List Nat`, and a drive's contents is a `Disk := List Sector`
  indexed by the LBA28 sector address; `drive.sectors` is `Disk.length`;
* the kernel runs on a single mounted drive, so the `drive_index` plumbing and
  the `DRIVES`/`BUSES` locks of the source (pure synchronisation) are dropped
  and the drive's contents is threaded explicitly through each operation;
* Rust loops whose termination depends on on-disk link fields take an explicit
  `fuel` argument; a result `Res.oot` means the loop did not finish within
  `fuel` steps (with insufficient fuel, or on a cyclic chain, where the Rust
  code simply keeps looping);
* `Res.panic` marks the places where the Rust code panics (`unwrap`,
  `assert!`, out-of-range slice index / `usize` underflow);
* hardware port I/O (`Port::read/write`) is replaced by its effect on the
  modelled disk or, for the CMOS clock, by passing the raw register bytes in.
-/

set_option maxRecDepth 40000

namespace Pogostick

/-- A 512-byte disk sector: a list of bytes, each byte a `Nat` (< 256 in any
state the code produces). -/
abbrev Sector := List Nat

/-- The contents of one drive: its sectors in LBA order.
`Drive.sectors` of the source is `Disk.length` here. -/
abbrev Disk := List Sector

/-- The all-zeroes sector. -/
def zeroSector : Sector := List.replicate 512 0

/-- `Drive::read` (ata.rs): the device always fills a 512-byte buffer, so the
stored sector is normalised to length 512. -/
def diskRead (d : Disk) (a : Nat) : Sector :=
  ((d.getD a zeroSector) ++ List.replicate 512 0).take 512

/-- `Drive::write` (ata.rs): replace sector `a`. -/
def diskWrite (d : Disk) (a : Nat) (s : Sector) : Disk := d.set a s

/-- `buf.iter().all(|el| *el == 0)` (ata.rs line 249). -/
def isZeroSector (s : Sector) : Bool := s.all (· == 0)

/-- The loop of `Drive::find_available_sector` (ata.rs lines 244-253):
`current_sector` counts down and sector 0 is never examined. -/
def findAvailAux (d : Disk) : Nat → Option Nat
  | 0 => none
  | c + 1 =>
    if isZeroSector (diskRead d (c + 1)) then some (c + 1) else findAvailAux d c

/-- `Drive::find_available_sector` (ata.rs lines 243-256): scan downward from
`sectors - 1`; a sector is free iff all 512 bytes are zero. -/
def find_available_sector (d : Disk) : Option Nat :=
  findAvailAux d (d.length - 1)

/-! ## Big-endian field codecs (fs.rs)

`FileTableSector::load` / `DataSector::load` decode 32-bit fields as
`(buf[0] as u32) << 24 | (buf[1] as u32) << 16 | (buf[2] as u32) << 8 | buf[3]`
and the writers emit `get_bits(24..32)`, …, `get_bits(0..8)`. -/

/-- Decoding of a 32-bit big-endian field, as in `FileTableSector::load`
(fs.rs lines 455-456). -/
def decBE32 (b0 b1 b2 b3 : Nat) : Nat :=
  (b0 <<< 24) ||| (b1 <<< 16) ||| (b2 <<< 8) ||| b3

/-- The four bytes `n.get_bits(24..32) … n.get_bits(0..8)` written by
`FileTableSector::update_physical_drive` (fs.rs lines 548-551). -/
def be32 (n : Nat) : List Nat :=
  [n / 2 ^ 24 % 256, n / 2 ^ 16 % 256, n / 2 ^ 8 % 256, n % 256]

theorem shl_or_eq (a b k : Nat) (h : b < 2 ^ k) : (a <<< k) ||| b = a * 2 ^ k + b := by
  rw [Nat.shiftLeft_eq, mul_comm a]
  exact (Nat.mul_add_lt_is_or h a).symm

theorem decBE32_eq {b0 b1 b2 b3 : Nat} (_h0 : b0 < 256) (h1 : b1 < 256)
    (h2 : b2 < 256) (h3 : b3 < 256) :
    decBE32 b0 b1 b2 b3 = ((b0 * 256 + b1) * 256 + b2) * 256 + b3 := by
  have e1 : b2 <<< 8 ||| b3 = b2 * 2 ^ 8 + b3 :=
    shl_or_eq _ _ _ (by norm_num; omega)
  have e2 : b1 <<< 16 ||| (b2 * 2 ^ 8 + b3) = b1 * 2 ^ 16 + (b2 * 2 ^ 8 + b3) :=
    shl_or_eq _ _ _ (by norm_num; omega)
  have e3 : b0 <<< 24 ||| (b1 * 2 ^ 16 + (b2 * 2 ^ 8 + b3)) =
      b0 * 2 ^ 24 + (b1 * 2 ^ 16 + (b2 * 2 ^ 8 + b3)) :=
    shl_or_eq _ _ _ (by norm_num; omega)
  unfold decBE32
  rw [Nat.lor_assoc, Nat.lor_assoc, e1, e2, e3]
  norm_num
  ring

/-- Decoding the four bytes written for `n` recovers `n` (for any in-range
`u32` value). -/
theorem decBE32_be32 {n : Nat} (h : n < 2 ^ 32) :
    decBE32 (n / 2 ^ 24 % 256) (n / 2 ^ 16 % 256) (n / 2 ^ 8 % 256) (n % 256) = n := by
  rw [decBE32_eq (Nat.mod_lt _ (by norm_num)) (Nat.mod_lt _ (by norm_num))
    (Nat.mod_lt _ (by norm_num)) (Nat.mod_lt _ (by norm_num))]
  norm_num at h ⊢
  omega

theorem findAvailAux_none (d : Disk) (c : Nat) :
    findAvailAux d c = none ↔
      ∀ s, 0 < s → s ≤ c → isZeroSector (diskRead d s) = false := by
  induction c with
  | zero => simp [findAvailAux]; omega
  | succ c ih =>
    rw [findAvailAux]
    by_cases hz : isZeroSector (diskRead d (c + 1)) = true
    · simp only [hz, if_true]
      constructor
      · intro h; cases h
      · intro h
        exact absurd (h (c + 1) (Nat.succ_pos c) le_rfl) (by simp [hz])
    · simp only [Bool.not_eq_true] at hz
      simp only [hz, Bool.false_eq_true, if_false, ih]
      constructor
      · intro h s hs hle
        rcases eq_or_lt_of_le hle with h' | h'
        · rw [h']; exact hz
        · exact h s hs (Nat.lt_succ_iff.mp h')
      · intro h s hs hle
        exact h s hs (le_trans hle (Nat.le_succ c))

theorem findAvailAux_some (d : Disk) (c : Nat) (s : Nat) :
    findAvailAux d c = some s ↔
      0 < s ∧ s ≤ c ∧ isZeroSector (diskRead d s) = true ∧
        ∀ t, s < t → t ≤ c → isZeroSector (diskRead d t) = false := by
  induction c with
  | zero =>
    simp only [findAvailAux]
    constructor
    · intro h; cases h
    · rintro ⟨h1, h2, -⟩; omega
  | succ c ih =>
    rw [findAvailAux]
    by_cases hz : isZeroSector (diskRead d (c + 1)) = true
    · simp only [hz, if_true]
      constructor
      · intro h
        injection h with h
        subst h
        exact ⟨Nat.succ_pos c, le_rfl, hz, fun t ht hle => absurd (lt_of_lt_of_le ht hle) (lt_irrefl _)⟩
      · rintro ⟨h1, h2, h3, h4⟩
        rcases Nat.lt_succ_iff_lt_or_eq.mp (Nat.lt_succ_of_le h2) with h' | h'
        · exact absurd hz (by simp [h4 (c + 1) h' le_rfl])
        · rw [h']
    · simp only [Bool.not_eq_true] at hz
      simp only [hz, Bool.false_eq_true, if_false, ih]
      constructor
      · rintro ⟨h1, h2, h3, h4⟩
        refine ⟨h1, le_trans h2 (Nat.le_succ c), h3, fun t ht hle => ?_⟩
        rcases eq_or_lt_of_le hle with h' | h'
        · rw [h']; exact hz
        · exact h4 t ht (Nat.lt_succ_iff.mp h')
      · rintro ⟨h1, h2, h3, h4⟩
        have hne : s ≠ c + 1 := by
          intro h'; rw [h'] at h3; rw [h3] at hz; cases hz
        exact ⟨h1, by omega, h3, fun t ht hle => h4 t ht (le_trans hle (Nat.le_succ c))⟩

/-- **C8.** `find_available_sector` returns `some s` exactly when `s` is the
greatest sector index with `0 < s ≤ sector_count - 1` whose 512 bytes are all
zero (sector 0 is never examined), and `none` when no such sector exists. -/
theorem C8_find_available_sector_greatest_free (d : Disk) (_hd : 1 ≤ d.length) :
    (∀ s, find_available_sector d = some s ↔
      0 < s ∧ s ≤ d.length - 1 ∧ isZeroSector (diskRead d s) = true ∧
        ∀ t, s < t → t ≤ d.length - 1 → isZeroSector (diskRead d t) = false) ∧
    (find_available_sector d = none ↔
      ∀ s, 0 < s → s ≤ d.length - 1 → isZeroSector (diskRead d s) = false) :=
  ⟨fun s => findAvailAux_some d (d.length - 1) s, findAvailAux_none d (d.length - 1)⟩

/-- Witness for C8 on a concrete 3-sector drive whose sectors 1 and 2 are
free: the greatest free sector, 2, is returned. -/
theorem C8_find_available_sector_greatest_free_witness :
    find_available_sector [[1], List.replicate 512 0, List.replicate 512 0] = some 2 :=
  ((C8_find_available_sector_greatest_free
      [[1], List.replicate 512 0, List.replicate 512 0] (by decide)).1 2).mpr
    ⟨by decide, by decide, by decide, fun t ht hle => absurd (lt_of_lt_of_le ht hle) (by decide)⟩

/-! ## CMOS date/time decoding (time.rs) -/

/-- `DateTime` (time.rs lines 44-52). -/
structure DateTime where
  second : Nat
  minute : Nat
  hour : Nat
  weekday : Nat
  day : Nat
  month : Nat
  year : Nat
deriving DecidableEq

/-- `DateTime::get` (time.rs lines 56-96), as a pure function of the raw bytes
read from CMOS registers `[0x00, 0x02, 0x04, 0x06, 0x07, 0x08, 0x09, 0x0B]`
(in that order, so `raw[2]` is the hour and `raw[7]` is register B). -/
def DateTime.get (raw : List Nat) : DateTime :=
  let g := fun i => raw.getD i 0
  -- BCD mode: register B bit 2 clear (lines 72-80)
  let bcd := g 7 &&& 0x04 = 0
  let second := if bcd then (g 0 &&& 0x0F) + (g 0 / 16) * 10 else g 0
  let minute := if bcd then (g 1 &&& 0x0F) + (g 1 / 16) * 10 else g 1
  let hour0 :=
    if bcd then ((g 2 &&& 0x0F) + ((g 2 &&& 0x70) / 16) * 10) ||| (g 2 &&& 0x80) else g 2
  let day := if bcd then (g 4 &&& 0x0F) + (g 4 / 16) * 10 else g 4
  let month := if bcd then (g 5 &&& 0x0F) + (g 5 / 16) * 10 else g 5
  let year := if bcd then (g 6 &&& 0x0F) + (g 6 / 16) * 10 else g 6
  -- 12-hour to 24-hour conversion (lines 82-85): note the code requires the
  -- hour's high bit to be CLEAR (`raw_values[2] & 0x80 == 0`)
  let hour :=
    if g 7 &&& 0x02 = 0 ∧ hour0 &&& 0x80 = 0 then ((hour0 &&& 0x7F) + 12) % 24 else hour0
  { second := second, minute := minute, hour := hour, weekday := g 3,
    day := day, month := month, year := year }

/-- **C4.** The claim says: with register B bit 1 clear and the hour high bit
set, the hour is converted by `((hour & 0x7F) + 12) % 24`, so the raw hour
byte `0x80 | 0x12 = 0x92` in BCD 12-hour mode decodes to hour 0.  The code
instead applies the conversion only when the high bit is *clear*
(time.rs line 83), so this PM hour keeps its high bit: it decodes to
`0x8C = 140`, not 0. -/
theorem C4_hour_high_bit_not_converted :
    (DateTime.get [0, 0, 0x92, 0, 0, 0, 0, 0]).hour = 140 ∧ (140 : Nat) ≠ 0 :=
  ⟨by decide, by decide⟩

/-! ## POGO filesystem data model (fs.rs)

Filenames are kept as their on-disk byte lists.  The source stores them as
Rust `String`s (pushing `char::from_u32(byte)` until the first NUL and
re-encoding with `name.bytes()` on writes); for the ASCII names of the
filesystem the two representations correspond exactly, and name comparison is
byte-list equality. -/

/-- Outcome of a modelled operation: `ok` is the Rust result; `panic` marks a
Rust panic (`unwrap`, `assert!`, slice-index underflow); `oot` ("out of
time") means a chain-following loop did not finish within the given fuel. -/
inductive Res (α : Type) where
  | ok (a : α)
  | panic
  | oot
deriving DecidableEq

/-- `ExitCode` (lib.rs lines 49-57). -/
inductive ExitCode where
  | Success
  | Error
  | ParseError
  | NotFoundError
  | NotMountedError
  | NotEmptyError
  | InvalidCommandError
deriving DecidableEq

/-- `File` (fs.rs lines 384-388); `drive_index` is dropped (single drive). -/
structure File where
  name : List Nat
  entry_addr : Nat
deriving DecidableEq

/-- `Dir` (fs.rs lines 420-424). -/
structure Dir where
  name : List Nat
  entry_addr : Nat
deriving DecidableEq

/-- `FileType` (fs.rs lines 428-431). -/
inductive FileType where
  | file (f : File)
  | dir (d : Dir)
deriving DecidableEq

/-- `FileTableSector` (fs.rs lines 435-442), without `drive_index`. -/
structure FileTableSector where
  addr : Nat
  directory_name : Option (List Nat)
  continuation_addr : Option Nat
  files : List FileType
  is_deleted : Bool
deriving DecidableEq

/-- `DataSector` (fs.rs lines 669-675), without `drive_index`. -/
structure DataSector where
  addr : Nat
  continuation_addr : Option Nat
  size : Nat
  data : List Nat
deriving DecidableEq

/-- The `"POGO"` magic signature. -/
def MAGIC : List Nat := [80, 79, 71, 79]

/-- Writing a run of bytes into a buffer one byte at a time
(`buf[index + current_index] = byte`). -/
def listWrite (l : List Nat) (i : Nat) : List Nat → List Nat
  | [] => l
  | b :: bs => listWrite (l.set i b) (i + 1) bs

/-- Name parsing in `FileTableSector::load` (fs.rs lines 478-485): bytes up to
the first NUL. -/
def parseName (bs : List Nat) : List Nat := bs.takeWhile (· ≠ 0)

/-- Parsing slot `i` of the 504 data bytes (fs.rs lines 467-499): the slot is
live iff its address field is nonzero; type byte 0 is a file, else a
directory. -/
def parseSlot (db : List Nat) (i : Nat) : Option FileType :=
  let fb := (db.drop (i * 63)).take 63
  let file_addr := decBE32 (fb.getD 59 0) (fb.getD 60 0) (fb.getD 61 0) (fb.getD 62 0)
  if file_addr ≠ 0 then
    let nm := parseName (fb.take 58)
    if fb.getD 58 0 = 0 then some (.file ⟨nm, file_addr⟩) else some (.dir ⟨nm, file_addr⟩)
  else none

/-- `FileTableSector::load` (fs.rs lines 446-510). -/
def FileTableSector.load (d : Disk) (addr : Nat) (directory_name : Option (List Nat)) :
    FileTableSector :=
  let buf := diskRead d addr
  let continuation_addr := decBE32 (buf.getD 0 0) (buf.getD 1 0) (buf.getD 2 0) (buf.getD 3 0)
  let continuation_option := if continuation_addr ≠ 0 then some continuation_addr else none
  let data_bytes := (buf.drop 4).take 504
  { addr := addr
    directory_name := directory_name
    continuation_addr := continuation_option
    files := (List.range 8).filterMap (parseSlot data_bytes)
    is_deleted := false }

/-- One directory slot as written by `FileTableSector::update_physical_drive`
(fs.rs lines 560-586): the name bytes, for a directory the type byte `0x01`
at offset 58, and the big-endian address at offsets 59-62. -/
def writeSlot (buf : List Nat) (index : Nat) : FileType → List Nat
  | .file f => listWrite (listWrite buf index f.name) (index + 59) (be32 f.entry_addr)
  | .dir dd =>
    listWrite ((listWrite buf index dd.name).set (index + 58) 0x01) (index + 59)
      (be32 dd.entry_addr)

/-- The 512-byte buffer built by `FileTableSector::update_physical_drive`
(fs.rs lines 543-595): continuation, the slots at stride 63 from offset 4, and
the magic at 508 unless the sector is deleted. -/
def FileTableSector.serialize (t : FileTableSector) : Sector :=
  let buf := listWrite zeroSector 0
    (match t.continuation_addr with
     | some c => be32 c
     | none => [0, 0, 0, 0])
  let buf := (t.files.foldl (fun (acc : List Nat × Nat) ft =>
    (writeSlot acc.1 acc.2 ft, acc.2 + 63)) (buf, 4)).1
  if t.is_deleted then buf else listWrite buf 508 MAGIC

/-- `FileTableSector::update_physical_drive` (fs.rs lines 543-596). -/
def FileTableSector.update_physical_drive (t : FileTableSector) (d : Disk) : Disk :=
  diskWrite d t.addr t.serialize

/-- `FileTableSector::new` (fs.rs lines 513-532): write magic + zeros to the
fresh sector and return the empty in-memory table. -/
def FileTableSector.new (d : Disk) (new_addr : Nat) (directory_name : Option (List Nat)) :
    FileTableSector × Disk :=
  (⟨new_addr, directory_name, none, [], false⟩,
    diskWrite d new_addr (listWrite zeroSector 508 MAGIC))

/-- `FileTableSector::remove` (fs.rs lines 535-540). -/
def FileTableSector.remove (t : FileTableSector) (d : Disk) : FileTableSector × Disk :=
  let t1 : FileTableSector :=
    { t with continuation_addr := none, files := [], is_deleted := true }
  (t1, t1.update_physical_drive d)

/-- `FileTableSector::set_continuation` (fs.rs lines 599-602). -/
def FileTableSector.set_continuation (t : FileTableSector) (d : Disk) (sector : Nat) :
    FileTableSector × Disk :=
  let t1 : FileTableSector := { t with continuation_addr := some sector }
  (t1, t1.update_physical_drive d)

/-- `FileTableSector::add_file` (fs.rs lines 607-615); the `assert!` is a
panic. -/
def FileTableSector.add_file (t : FileTableSector) (d : Disk) (name : List Nat) (addr : Nat) :
    Res (FileTableSector × Disk) :=
  if t.files.length < 8 then
    let t1 : FileTableSector := { t with files := t.files ++ [.file ⟨name, addr⟩] }
    .ok (t1, t1.update_physical_drive d)
  else .panic

/-- `FileTableSector::add_dir` (fs.rs lines 620-628). -/
def FileTableSector.add_dir (t : FileTableSector) (d : Disk) (name : List Nat) (addr : Nat) :
    Res (FileTableSector × Disk) :=
  if t.files.length < 8 then
    let t1 : FileTableSector := { t with files := t.files ++ [.dir ⟨name, addr⟩] }
    .ok (t1, t1.update_physical_drive d)
  else .panic

/-- `FileTableSector::get_file` (fs.rs lines 632-640). -/
def FileTableSector.get_file (t : FileTableSector) (name : List Nat) : Option File :=
  match t.files.find? (fun el => match el with | .file f => f.name == name | _ => false) with
  | some (.file f) => some f
  | _ => none

/-- `FileTableSector::get_dir` (fs.rs lines 644-652). -/
def FileTableSector.get_dir (t : FileTableSector) (name : List Nat) : Option Dir :=
  match t.files.find? (fun el => match el with | .dir dd => dd.name == name | _ => false) with
  | some (.dir dd) => some dd
  | _ => none

/-- `FileTableSector::contains_object` (fs.rs lines 656-664). -/
def FileTableSector.contains_object (t : FileTableSector) (name : List Nat) : Bool :=
  (t.files.find? (fun el => match el with
    | .file f => f.name == name
    | .dir dd => dd.name == name)).isSome

/-- `DataSector::load` (fs.rs lines 679-703). -/
def DataSector.load (d : Disk) (addr : Nat) : DataSector :=
  let buf := diskRead d addr
  let continuation_addr := decBE32 (buf.getD 0 0) (buf.getD 1 0) (buf.getD 2 0) (buf.getD 3 0)
  { addr := addr
    continuation_addr := if continuation_addr ≠ 0 then some continuation_addr else none
    size := (buf.getD 4 0) <<< 8 ||| buf.getD 5 0
    data := (buf.drop 6).take 506 }

/-- The buffer written by `DataSector::new` (fs.rs lines 707-715): the size
(`bytes.len() as u16`, big-endian at offsets 4-5) and the payload from offset
6 in a zeroed buffer. -/
def newDataBuf (bytes : List Nat) : Sector :=
  let size := bytes.length % 65536
  listWrite ((zeroSector.set 4 (size / 2 ^ 8 % 256)).set 5 (size % 256)) 6 bytes

/-- `DataSector::new` (fs.rs lines 706-719): write size and payload, then
reload the sector. -/
def DataSector.new (d : Disk) (addr : Nat) (bytes : List Nat) : DataSector × Disk :=
  let d1 := diskWrite d addr (newDataBuf bytes)
  (DataSector.load d1 addr, d1)

/-- The buffer written by `DataSector::update_physical_drive`
(fs.rs lines 730-754).  The source first reads the old sector into `buf` and
then overwrites every one of its 512 bytes, so the read is dropped. -/
def DataSector.serialize (s : DataSector) : Sector :=
  let buf := listWrite zeroSector 0
    (match s.continuation_addr with
     | some c => be32 c
     | none => [0, 0, 0, 0])
  let buf := (buf.set 4 (s.size / 2 ^ 8 % 256)).set 5 (s.size % 256)
  listWrite buf 6 (s.data.take 506)

/-- `DataSector::update_physical_drive` (fs.rs lines 730-754). -/
def DataSector.update_physical_drive (s : DataSector) (d : Disk) : Disk :=
  diskWrite d s.addr s.serialize

/-- `DataSector::remove` (fs.rs lines 722-727). -/
def DataSector.remove (s : DataSector) (d : Disk) : DataSector × Disk :=
  let s1 : DataSector :=
    { s with continuation_addr := none, data := List.replicate 506 0, size := 0 }
  (s1, s1.update_physical_drive d)

/-! ## FileSystem operations (fs.rs)

`FileSystem` holds the mount state (`entry_sector`, the in-memory copy
`entry_table` of the root table).  In `write_file` / `create_dir` the Rust
code holds `&mut self.entry_table` until the cursor is reassigned to a loaded
copy; this aliasing is modelled by an explicit `isEntry` flag: while it is
`true`, a mutation of the cursor also updates `fs.entry_table`. -/

/-- `FileSystem` (fs.rs lines 15-19), without `drive_index`. -/
structure FileSystem where
  entry_sector : Nat
  entry_table : FileTableSector
deriving DecidableEq

/-- The inner `while !current_table.contains_object(obj)` loop of
`get_table_with_object` (fs.rs lines 48-58): follow continuation links until a
table contains `obj`; `ok none` is the Rust `return None`. -/
def walkUntilContains (d : Disk) (obj : List Nat) (current_dir : Option (List Nat)) :
    Nat → FileTableSector → Res (Option FileTableSector)
  | 0, _ => .oot
  | fuel + 1, t =>
    if t.contains_object obj then .ok (some t)
    else
      match t.continuation_addr with
      | some new_addr =>
        walkUntilContains d obj current_dir fuel (FileTableSector.load d new_addr current_dir)
      | none => .ok none

/-- The body of `FileSystem::get_table_with_object` (fs.rs lines 41-78),
recursing over the remaining path components.  For a non-final component that
is found but is not a directory, the source returns the current table
(fs.rs line 70). -/
def gtwoAux (d : Disk) (fuel : Nat) :
    List (List Nat) → FileTableSector → Option (List Nat) → Res (Option FileTableSector)
  | [], _, _ => .ok none
  | obj :: rest, t, current_dir =>
    match walkUntilContains d obj current_dir fuel t with
    | .ok (some t') =>
      if rest.isEmpty then .ok (some t')
      else
        match t'.get_dir obj with
        | some new_dir =>
          gtwoAux d fuel rest (FileTableSector.load d new_dir.entry_addr (some obj)) (some obj)
        | none => .ok (some t')
    | .ok none => .ok none
    | .panic => .panic
    | .oot => .oot

/-- `FileSystem::get_table_with_object` (fs.rs lines 41-78). -/
def FileSystem.get_table_with_object (fs : FileSystem) (d : Disk) (fuel : Nat)
    (path : List (List Nat)) : Res (Option FileTableSector) :=
  gtwoAux d fuel path fs.entry_table none

/-- `FileSystem::get_file` (fs.rs lines 23-29). -/
def FileSystem.get_file (fs : FileSystem) (d : Disk) (fuel : Nat)
    (path : List (List Nat)) : Res (Option File) :=
  match fs.get_table_with_object d fuel path with
  | .ok (some table) => .ok (table.get_file (path.getLastD []))
  | .ok none => .ok none
  | .panic => .panic
  | .oot => .oot

/-- `FileSystem::get_dir` (fs.rs lines 32-38). -/
def FileSystem.get_dir (fs : FileSystem) (d : Disk) (fuel : Nat)
    (path : List (List Nat)) : Res (Option Dir) :=
  match fs.get_table_with_object d fuel path with
  | .ok (some table) => .ok (table.get_dir (path.getLastD []))
  | .ok none => .ok none
  | .panic => .panic
  | .oot => .oot

/-- The inner `while table.get_dir(dir).is_none()` loop of the parent
resolution in `write_file` / `create_dir` (fs.rs lines 87-98 and 173-184);
`ok none` is the `return ExitCode::NotFoundError`. -/
def walkUntilDir (d : Disk) (dir : List Nat) :
    Nat → FileTableSector → Res (Option FileTableSector)
  | 0, _ => .oot
  | fuel + 1, t =>
    if (t.get_dir dir).isSome then .ok (some t)
    else
      match t.continuation_addr with
      | some new_addr =>
        walkUntilDir d dir fuel (FileTableSector.load d new_addr t.directory_name)
      | none => .ok none

/-- The `for dir in &path[..path.len() - 1]` parent-resolution loop of
`write_file` / `create_dir` (fs.rs lines 85-107 and 171-193). -/
def resolveParent (d : Disk) (fuel : Nat) :
    List (List Nat) → FileTableSector → Res (Option FileTableSector)
  | [], t => .ok (some t)
  | dir :: rest, t =>
    match walkUntilDir d dir fuel t with
    | .ok (some t') =>
      match t'.get_dir dir with
      | some dd =>
        resolveParent d fuel rest (FileTableSector.load d dd.entry_addr (some dd.name))
      | none => .ok none
    | .ok none => .ok none
    | .panic => .panic
    | .oot => .oot

/-- The `while table.files.len() == 8` chain-growing loop of `write_file` /
`create_dir` (fs.rs lines 111-133 and 197-219): walk to a table with a free
slot, appending a fresh table to the chain if it ends while full.  The
returned flag says whether the cursor still aliases `fs.entry_table`. -/
def growToFree (d : Disk) (main_dir_name : Option (List Nat)) :
    Nat → FileTableSector → Bool → FileSystem →
    Res (FileTableSector × Bool × FileSystem × Disk)
  | 0, _, _, _ => .oot
  | fuel + 1, t, isEntry, fs =>
    if t.files.length = 8 then
      match t.continuation_addr with
      | some new_addr =>
        growToFree d main_dir_name fuel
          (FileTableSector.load d new_addr main_dir_name) false fs
      | none =>
        match find_available_sector d with
        | none => .panic
        | some new_sector =>
          let p := t.set_continuation d new_sector
          let fs1 := if isEntry then { fs with entry_table := p.1 } else fs
          let q := FileTableSector.new p.2 new_sector main_dir_name
          growToFree d main_dir_name fuel q.1 false fs1
    else .ok (t, isEntry, fs, d)

/-- The data-writing loop of `write_file` (fs.rs lines 152-161), with `rest`
the not-yet-written suffix of `bytes` and `cur` the in-memory copy of the
last written data sector.  The Rust loop terminates because each iteration
writes at least one byte; fuel makes that recursion structural. -/
def writeDataLoop : Nat → DataSector → Disk → List Nat → Res Disk
  | 0, _, _, _ => .oot
  | _ + 1, _, d, [] => .ok d
  | fuel + 1, cur, d, r :: rs =>
    let bytes_to_write := (r :: rs).take 506
    match find_available_sector d with
    | none => .panic
    | some extension_file_sector =>
      let cur1 : DataSector := { cur with continuation_addr := some extension_file_sector }
      let d1 := cur1.update_physical_drive d
      let p := DataSector.new d1 extension_file_sector bytes_to_write
      writeDataLoop fuel p.1 p.2 ((r :: rs).drop 506)

/-- `FileSystem::write_file` (fs.rs lines 81-164).  On the empty path the
slice bound `path.len() - 1` underflows, a panic. -/
def FileSystem.write_file (fs : FileSystem) (d : Disk) (fuel : Nat)
    (path : List (List Nat)) (bytes : List Nat) : Res (ExitCode × FileSystem × Disk) :=
  match path.getLast? with
  | none => .panic
  | some fname =>
    match resolveParent d fuel path.dropLast fs.entry_table with
    | .ok none => .ok (.NotFoundError, fs, d)
    | .panic => .panic
    | .oot => .oot
    | .ok (some t) =>
      -- the cursor still aliases `entry_table` iff the parent loop never ran
      let isEntry := path.dropLast.isEmpty
      match growToFree d t.directory_name fuel t isEntry fs with
      | .panic => .panic
      | .oot => .oot
      | .ok (t1, isEntry1, fs1, d1) =>
        match find_available_sector d1 with
        | none => .panic
        | some new_file_sector =>
          match t1.add_file d1 fname new_file_sector with
          | .panic => .panic
          | .oot => .oot
          | .ok (t2, d2) =>
            let fs2 := if isEntry1 then { fs1 with entry_table := t2 } else fs1
            let bytes_to_write := bytes.take 506
            let p := DataSector.new d2 new_file_sector bytes_to_write
            match writeDataLoop fuel p.1 p.2 (bytes.drop bytes_to_write.length) with
            | .ok d4 => .ok (.Success, fs2, d4)
            | .panic => .panic
            | .oot => .oot

/-- `FileSystem::create_dir` (fs.rs lines 167-232). -/
def FileSystem.create_dir (fs : FileSystem) (d : Disk) (fuel : Nat)
    (path : List (List Nat)) : Res (ExitCode × FileSystem × Disk) :=
  match path.getLast? with
  | none => .panic
  | some dname =>
    match resolveParent d fuel path.dropLast fs.entry_table with
    | .ok none => .ok (.NotFoundError, fs, d)
    | .panic => .panic
    | .oot => .oot
    | .ok (some t) =>
      let isEntry := path.dropLast.isEmpty
      match growToFree d t.directory_name fuel t isEntry fs with
      | .panic => .panic
      | .oot => .oot
      | .ok (t1, isEntry1, fs1, d1) =>
        match find_available_sector d1 with
        | none => .panic
        | some new_file_sector =>
          match t1.add_dir d1 dname new_file_sector with
          | .panic => .panic
          | .oot => .oot
          | .ok (t2, d2) =>
            let fs2 := if isEntry1 then { fs1 with entry_table := t2 } else fs1
            let q := FileTableSector.new d2 new_file_sector none
            .ok (.Success, fs2, q.2)

/-- The chain-following loop of `File::read` (fs.rs lines 392-415).  Reading
`data[0..size]` with `size > 506` would be a slice
out-of-range panic. -/
def readAux (d : Disk) : Nat → Nat → Res (List Nat)
  | 0, _ => .oot
  | fuel + 1, addr =>
    let s := DataSector.load d addr
    if 506 < s.size then .panic
    else
      match s.continuation_addr with
      | none => .ok (s.data.take s.size)
      | some next_sector =>
        match readAux d fuel next_sector with
        | .ok rest => .ok (s.data.take s.size ++ rest)
        | .panic => .panic
        | .oot => .oot

/-- `File::read` (fs.rs lines 392-415). -/
def File.read (f : File) (d : Disk) (fuel : Nat) : Res (List Nat) :=
  readAux d fuel f.entry_addr

/-- The chain-collection loop of `delete_file` (fs.rs lines 297-304). -/
def collectDataChain (d : Disk) : Nat → DataSector → Res (List DataSector)
  | 0, _ => .oot
  | fuel + 1, s =>
    match s.continuation_addr with
    | none => .ok [s]
    | some new_addr =>
      match collectDataChain d fuel (DataSector.load d new_addr) with
      | .ok l => .ok (s :: l)
      | .panic => .panic
      | .oot => .oot

/-- `FileSystem::delete_file` (fs.rs lines 290-332). -/
def FileSystem.delete_file (fs : FileSystem) (d : Disk) (fuel : Nat)
    (path : List (List Nat)) : Res (ExitCode × FileSystem × Disk) :=
  match fs.get_file d fuel path with
  | .ok (some file) =>
    match collectDataChain d fuel (DataSector.load d file.entry_addr) with
    | .panic => .panic
    | .oot => .oot
    | .ok sectors_to_remove =>
      let d1 := sectors_to_remove.foldl (fun dd s => (s.remove dd).2) d
      match fs.get_table_with_object d1 fuel path with
      | .ok (some fts) =>
        match fts.files.findIdx? (fun ft => match ft with
          | .file f => f.entry_addr == file.entry_addr
          | .dir _ => false) with
        | some remove_index =>
          let fts1 : FileTableSector := { fts with files := fts.files.eraseIdx remove_index }
          let d2 := fts1.update_physical_drive d1
          let fs1 : FileSystem :=
            { fs with entry_table := FileTableSector.load d2 fs.entry_sector none }
          .ok (.Success, fs1, d2)
        | none => .panic
      | .ok none => .panic
      | .panic => .panic
      | .oot => .oot
  | .ok none => .ok (.NotFoundError, fs, d)
  | .panic => .panic
  | .oot => .oot

/-- The chain-collection loop of `delete_dir` (fs.rs lines 345-353). -/
def collectTableChain (d : Disk) : Nat → FileTableSector → Res (List FileTableSector)
  | 0, _ => .oot
  | fuel + 1, t =>
    match t.continuation_addr with
    | none => .ok [t]
    | some new_addr =>
      match collectTableChain d fuel (FileTableSector.load d new_addr none) with
      | .ok l => .ok (t :: l)
      | .panic => .panic
      | .oot => .oot

/-- `FileSystem::delete_dir` (fs.rs lines 335-379).  Only the head table of
the chain is checked for emptiness (fs.rs lines 341-343). -/
def FileSystem.delete_dir (fs : FileSystem) (d : Disk) (fuel : Nat)
    (path : List (List Nat)) : Res (ExitCode × FileSystem × Disk) :=
  match fs.get_dir d fuel path with
  | .ok (some dir) =>
    let current_sector := FileTableSector.load d dir.entry_addr none
    if current_sector.files.length ≠ 0 then .ok (.NotEmptyError, fs, d)
    else
      match collectTableChain d fuel current_sector with
      | .panic => .panic
      | .oot => .oot
      | .ok sectors_to_remove =>
        let d1 := sectors_to_remove.foldl (fun dd t => (t.remove dd).2) d
        match fs.get_table_with_object d1 fuel path with
        | .ok (some fts) =>
          match fts.files.findIdx? (fun ft => match ft with
            | .dir dd => dd.entry_addr == dir.entry_addr
            | .file _ => false) with
          | some remove_index =>
            let fts1 : FileTableSector := { fts with files := fts.files.eraseIdx remove_index }
            let d2 := fts1.update_physical_drive d1
            let fs1 : FileSystem :=
              { fs with entry_table := FileTableSector.load d2 fs.entry_sector none }
            .ok (.Success, fs1, d2)
          | none => .panic
        | .ok none => .panic
        | .panic => .panic
        | .oot => .oot
  | .ok none => .ok (.NotFoundError, fs, d)
  | .panic => .panic
  | .oot => .oot

/-- The sequence of payload chunks `write_file` cuts `bytes` into: the head
chunk `bytes.truncate(506)` (fs.rs lines 147-150) and then one 506-byte-capped
chunk per iteration of the data loop (fs.rs lines 152-161). -/
def dataChunksRest : List Nat → List (List Nat)
  | [] => []
  | r :: rs => (r :: rs).take 506 :: dataChunksRest ((r :: rs).drop 506)
  termination_by rest => rest.length
  decreasing_by simp [List.length_drop]; omega

def dataChunks (bytes : List Nat) : List (List Nat) :=
  bytes.take 506 :: dataChunksRest (bytes.drop 506)

/-! ## Buffer lemmas -/

theorem getD_set_ne (l : List Nat) (i j b : Nat) (h : i ≠ j) :
    (l.set i b).getD j 0 = l.getD j 0 := by
  simp [List.getD_eq_getElem?_getD, List.getElem?_set_ne h]

theorem getD_set_self (l : List Nat) (i b : Nat) (h : i < l.length) :
    (l.set i b).getD i 0 = b := by
  simp [List.getD_eq_getElem?_getD, List.getElem?_set_self, h]

theorem listWrite_length (v : List Nat) (l : List Nat) (i : Nat) :
    (listWrite l i v).length = l.length := by
  induction v generalizing l i with
  | nil => rfl
  | cons b bs ih => rw [listWrite, ih, List.length_set]

theorem listWrite_getD_lt (v : List Nat) (l : List Nat) (i j : Nat) (h : j < i) :
    (listWrite l i v).getD j 0 = l.getD j 0 := by
  induction v generalizing l i with
  | nil => rfl
  | cons b bs ih =>
    rw [listWrite, ih _ _ (by omega), getD_set_ne _ _ _ _ (by omega)]

theorem listWrite_getD_ge (v : List Nat) (l : List Nat) (i j : Nat) (h : i + v.length ≤ j) :
    (listWrite l i v).getD j 0 = l.getD j 0 := by
  induction v generalizing l i with
  | nil => rfl
  | cons b bs ih =>
    rw [listWrite, ih _ _ (by simp at h ⊢; omega), getD_set_ne _ _ _ _ (by simp at h; omega)]

theorem listWrite_getD_at (v : List Nat) (l : List Nat) (i k : Nat)
    (hk : k < v.length) (hl : i + k < l.length) :
    (listWrite l i v).getD (i + k) 0 = v.getD k 0 := by
  induction v generalizing l i k with
  | nil => simp at hk
  | cons b bs ih =>
    rw [listWrite]
    match k with
    | 0 =>
      rw [listWrite_getD_lt _ _ _ _ (by omega)]
      simpa using getD_set_self l i b (by omega)
    | k + 1 =>
      have : i + (k + 1) = (i + 1) + k := by omega
      rw [this, ih _ (i + 1) k (by simpa using hk) (by simp; omega)]
      rfl

theorem writeSlot_getD_lt (buf : List Nat) (index j : Nat) (ft : FileType) (h : j < index) :
    (writeSlot buf index ft).getD j 0 = buf.getD j 0 := by
  cases ft with
  | file f =>
    rw [writeSlot, listWrite_getD_lt _ _ _ _ (by omega), listWrite_getD_lt _ _ _ _ h]
  | dir dd =>
    rw [writeSlot, listWrite_getD_lt _ _ _ _ (by omega), getD_set_ne _ _ _ _ (by omega),
      listWrite_getD_lt _ _ _ _ h]

theorem slotsFold_getD_lt (fts : List FileType) (buf : List Nat) (idx j : Nat) (h : j < idx) :
    ((fts.foldl (fun (acc : List Nat × Nat) ft =>
      (writeSlot acc.1 acc.2 ft, acc.2 + 63)) (buf, idx)).1).getD j 0 = buf.getD j 0 := by
  induction fts generalizing buf idx with
  | nil => rfl
  | cons ft fts ih =>
    rw [List.foldl_cons, ih _ _ (by omega), writeSlot_getD_lt _ _ _ _ h]

theorem zeroSector_length : zeroSector.length = 512 := by simp [zeroSector]

theorem writeSlot_length (buf : List Nat) (index : Nat) (ft : FileType) :
    (writeSlot buf index ft).length = buf.length := by
  cases ft with
  | file f => rw [writeSlot, listWrite_length, listWrite_length]
  | dir dd => rw [writeSlot, listWrite_length, List.length_set, listWrite_length]

theorem slotsFold_length (fts : List FileType) (buf : List Nat) (idx : Nat) :
    ((fts.foldl (fun (acc : List Nat × Nat) ft =>
      (writeSlot acc.1 acc.2 ft, acc.2 + 63)) (buf, idx)).1).length = buf.length := by
  induction fts generalizing buf idx with
  | nil => rfl
  | cons ft fts ih => rw [List.foldl_cons, ih, writeSlot_length]

theorem serialize_length (t : FileTableSector) : t.serialize.length = 512 := by
  rw [FileTableSector.serialize]
  by_cases hd : t.is_deleted <;>
    simp [hd, listWrite_length, slotsFold_length, zeroSector_length]

/-- The first four bytes of a serialized table sector are the big-endian
continuation field. -/
theorem serialize_getD_cont (t : FileTableSector) (c : Nat) (j : Nat)
    (hc : t.continuation_addr = some c) (hj : j < 4) :
    t.serialize.getD j 0 = (be32 c).getD j 0 := by
  rw [FileTableSector.serialize, hc]
  have step1 : ∀ j', j' < 4 →
      (listWrite zeroSector 0 (be32 c)).getD j' 0 = (be32 c).getD j' 0 := by
    intro j' hj'
    have := listWrite_getD_at (be32 c) zeroSector 0 j' (by simp [be32]; omega)
      (by rw [zeroSector_length]; omega)
    simpa using this
  by_cases hd : t.is_deleted
  · simp only [hd, if_true]
    rw [slotsFold_getD_lt _ _ _ _ hj, step1 j hj]
  · simp only [Bool.not_eq_true] at hd
    simp only [hd, Bool.false_eq_true, if_false]
    rw [listWrite_getD_lt MAGIC _ 508 j (by omega), slotsFold_getD_lt _ _ _ _ hj, step1 j hj]

theorem diskRead_diskWrite_self (d : Disk) (a : Nat) (s : Sector)
    (ha : a < d.length) (hs : s.length = 512) :
    diskRead (diskWrite d a s) a = s := by
  rw [diskRead, diskWrite, List.getD_eq_getElem?_getD, List.getElem?_set_self (by simpa using ha)]
  simp [List.take_left' hs]

theorem diskRead_diskWrite_ne (d : Disk) (a b : Nat) (s : Sector) (h : a ≠ b) :
    diskRead (diskWrite d a s) b = diskRead d b := by
  rw [diskRead, diskRead, diskWrite, List.getD_eq_getElem?_getD,
    List.getD_eq_getElem?_getD, List.getElem?_set_ne h]

theorem be32_getD_lt (n j : Nat) (hj : j < 4) : (be32 n).getD j 0 < 256 := by
  interval_cases j <;> simp [be32] <;> exact Nat.mod_lt _ (by norm_num)

/-- Reloading a table sector written by `update_physical_drive` decodes the
continuation field it was given. -/
theorem load_update_continuation (d : Disk) (t : FileTableSector) (a : Nat)
    (dn : Option (List Nat)) (ha0 : 0 < a) (ha : a < 2 ^ 32) (haddr : t.addr < d.length)
    (hcont : t.continuation_addr = some a) :
    (FileTableSector.load (t.update_physical_drive d) t.addr dn).continuation_addr = some a := by
  rw [FileTableSector.load, FileTableSector.update_physical_drive,
    diskRead_diskWrite_self d t.addr t.serialize haddr (serialize_length t)]
  simp only
  rw [serialize_getD_cont t a 0 hcont (by omega), serialize_getD_cont t a 1 hcont (by omega),
    serialize_getD_cont t a 2 hcont (by omega), serialize_getD_cont t a 3 hcont (by omega)]
  have : decBE32 ((be32 a).getD 0 0) ((be32 a).getD 1 0) ((be32 a).getD 2 0)
      ((be32 a).getD 3 0) = a := by
    simp only [be32, List.getD]
    simpa using decBE32_be32 ha
  rw [this, if_pos (by omega)]

/-- **C9.** Storing a 32-bit sector address as a continuation field through
`FileTableSector::update_physical_drive` and reloading the sector through
`FileTableSector::load` yields the same address: the on-disk encode and decode
agree on big-endian byte order. -/
theorem C9_endianness_round_trip (d : Disk) (t : FileTableSector) (a : Nat)
    (ha0 : 0 < a) (ha : a < 2 ^ 32) (haddr : t.addr < d.length)
    (hcont : t.continuation_addr = some a) :
    (FileTableSector.load (t.update_physical_drive d) t.addr t.directory_name).continuation_addr
      = some a :=
  load_update_continuation d t a t.directory_name ha0 ha haddr hcont

/-- Witness for C9 at the spec's example address `0x01020304`, on a one-sector
drive. -/
theorem C9_endianness_round_trip_witness :
    (FileTableSector.load
      (FileTableSector.update_physical_drive ⟨0, none, some 0x01020304, [], false⟩ [zeroSector])
      0 none).continuation_addr = some 0x01020304 :=
  C9_endianness_round_trip [zeroSector] ⟨0, none, some 0x01020304, [], false⟩ 0x01020304
    (by decide) (by decide) (by decide) rfl

/-- **C10.** On the empty path (which the spec says denotes root) no
operation treats it as the root object: `get_file` and `get_dir` return
`None`, while `write_file` and `create_dir` hit the `path.len() - 1`
slice-index underflow and panic instead of returning an exit code. -/
theorem C10_empty_path (fs : FileSystem) (d : Disk) (fuel : Nat) (bytes : List Nat) :
    fs.get_file d fuel [] = .ok none ∧ fs.get_dir d fuel [] = .ok none ∧
    fs.write_file d fuel [] bytes = .panic ∧ fs.create_dir d fuel [] = .panic :=
  ⟨rfl, rfl, rfl, rfl⟩

/-! ## C5: behaviour when no free sector exists -/

/-- Result projections used to state concrete scenarios. -/
def exitOf : Res (ExitCode × FileSystem × Disk) → Option ExitCode
  | .ok (c, _, _) => some c
  | _ => none

def stateOf : Res (ExitCode × FileSystem × Disk) → Option (FileSystem × Disk)
  | .ok (_, fs, d) => some (fs, d)
  | _ => none

/-- While the allocator finds nothing, the chain-growing loop either panics,
runs out of fuel, or stops without having touched the filesystem or disk. -/
theorem growToFree_no_free (d : Disk) (mdn : Option (List Nat))
    (halloc : find_available_sector d = none) :
    ∀ (fuel : Nat) (t : FileTableSector) (isEntry : Bool) (fs : FileSystem),
      growToFree d mdn fuel t isEntry fs = .panic ∨
      growToFree d mdn fuel t isEntry fs = .oot ∨
      ∃ t' isEntry', growToFree d mdn fuel t isEntry fs = .ok (t', isEntry', fs, d) := by
  intro fuel
  induction fuel with
  | zero => intro t isEntry fs; right; left; rfl
  | succ fuel ih =>
    intro t isEntry fs
    rw [growToFree]
    by_cases h8 : t.files.length = 8
    · rw [if_pos h8]
      rcases hc : t.continuation_addr with _ | a
      · rw [halloc]; left; rfl
      · exact ih _ false fs
    · rw [if_neg h8]
      right; right; exact ⟨t, isEntry, rfl⟩

/-- **C5 (amended).** When the drive has no free all-zero sector, `write_file`
and `create_dir` do not return any exit code: the `unwrap` of
`find_available_sector`'s `None` panics (there is no `AllocFailure` variant
and nothing maps allocation failure to `ExitCode::Error`). -/
theorem C5_alloc_failure_panics (fs : FileSystem) (d : Disk) (fuel : Nat)
    (path : List (List Nat)) (bytes : List Nat) (t : FileTableSector)
    (hr : resolveParent d fuel path.dropLast fs.entry_table = .ok (some t))
    (halloc : find_available_sector d = none)
    (hgrow : growToFree d t.directory_name fuel t path.dropLast.isEmpty fs ≠ .oot) :
    fs.write_file d fuel path bytes = .panic ∧ fs.create_dir d fuel path = .panic := by
  match hlast : path.getLast? with
  | none =>
    rw [FileSystem.write_file, FileSystem.create_dir, hlast]
    exact ⟨rfl, rfl⟩
  | some fname =>
    rw [FileSystem.write_file, FileSystem.create_dir, hlast, hr]
    simp only
    rcases growToFree_no_free d t.directory_name halloc fuel t path.dropLast.isEmpty fs with
      hg | hg | ⟨t', isEntry', hg⟩
    · rw [hg]; exact ⟨rfl, rfl⟩
    · exact absurd hg hgrow
    · rw [hg]
      simp [halloc]

/-- A full 8-sector drive: every non-root sector holds a nonzero byte, the
root table is at sector 7. -/
def diskFull : Disk := List.replicate 7 [255] ++ [listWrite zeroSector 508 MAGIC]

def fsFull : FileSystem := ⟨7, FileTableSector.load diskFull 7 none⟩

/-- Counterexample to C5 as stated: on a drive without free sectors,
`write_file` and `create_dir` panic; neither returns
`ExitCode::Error` (nor any other exit code). -/
theorem C5_counterexample :
    fsFull.write_file diskFull 9 [[120]] [1] = .panic ∧
    fsFull.create_dir diskFull 9 [[120]] = .panic ∧
    exitOf (fsFull.write_file diskFull 9 [[120]] [1]) ≠ some .Error ∧
    exitOf (fsFull.create_dir diskFull 9 [[120]]) ≠ some .Error := by
  refine ⟨by decide, by decide, by decide, by decide⟩

/-- Witness for the amended C5 theorem on the full drive. -/
theorem C5_alloc_failure_panics_witness :
    fsFull.write_file diskFull 9 [[121]] [2] = .panic ∧
    fsFull.create_dir diskFull 9 [[121]] = .panic :=
  C5_alloc_failure_panics fsFull diskFull 9 [[121]] [2] fsFull.entry_table rfl
    (by decide) (by decide)

/-! ## C2: delete_dir -/

theorem diskWrite_length (d : Disk) (a : Nat) (s : Sector) :
    (diskWrite d a s).length = d.length := by
  simp [diskWrite]

/-- A removed (`is_deleted`) table sector serializes to all zeroes: no
continuation, no slots, no magic. -/
theorem remove_writes_zero (t : FileTableSector) (d : Disk) :
    (t.remove d).2 = diskWrite d t.addr zeroSector := by
  have h : FileTableSector.serialize
      { t with continuation_addr := none, files := [], is_deleted := true } =
      listWrite zeroSector 0 [0, 0, 0, 0] := rfl
  have h2 : listWrite zeroSector 0 [0, 0, 0, 0] = zeroSector := by decide
  show diskWrite d _ _ = _
  rw [h, h2]

/-- The `for mut sector in sectors_to_remove { sector.remove(...) }` loop of
`delete_dir` (fs.rs lines 355-357) / `delete_file` (fs.rs lines 306-308),
specialised to table sectors. -/
def removeFold (secs : List FileTableSector) (d : Disk) : Disk :=
  secs.foldl (fun dd t => (t.remove dd).2) d

theorem removeFold_def (secs : List FileTableSector) (d : Disk) :
    removeFold secs d = secs.foldl (fun dd t => (t.remove dd).2) d := rfl

/-- `file_table_sector.files.remove(remove_index)` on an in-memory table
(fs.rs lines 322 and 369). -/
def eraseSlot (fts : FileTableSector) (idx : Nat) : FileTableSector :=
  { fts with files := fts.files.eraseIdx idx }

theorem removeFold_length (secs : List FileTableSector) (d : Disk) :
    (removeFold secs d).length = d.length := by
  induction secs generalizing d with
  | nil => rfl
  | cons t rest ih => rw [removeFold, List.foldl_cons, ← removeFold, ih,
      remove_writes_zero, diskWrite_length]

theorem removeFold_unchanged (secs : List FileTableSector) (d : Disk) (a : Nat)
    (h : a ∉ secs.map (·.addr)) :
    diskRead (removeFold secs d) a = diskRead d a := by
  induction secs generalizing d with
  | nil => rfl
  | cons t rest ih =>
    simp only [List.map_cons, List.mem_cons] at h
    push_neg at h
    rw [removeFold, List.foldl_cons, ← removeFold, ih _ h.2, remove_writes_zero,
      diskRead_diskWrite_ne _ _ _ _ (fun he => h.1 he.symm)]

theorem removeFold_zeroes (secs : List FileTableSector) (d : Disk) (a : Nat)
    (hmem : a ∈ secs.map (·.addr)) (hlen : a < d.length) :
    diskRead (removeFold secs d) a = zeroSector := by
  induction secs generalizing d with
  | nil => simp at hmem
  | cons t rest ih =>
    rw [removeFold, List.foldl_cons, ← removeFold]
    by_cases hr : a ∈ rest.map (·.addr)
    · exact ih _ hr (by rw [remove_writes_zero, diskWrite_length]; exact hlen)
    · simp only [List.map_cons, List.mem_cons] at hmem
      rcases hmem with he | he
      · rw [removeFold_unchanged _ _ _ hr, remove_writes_zero, ← he,
          diskRead_diskWrite_self _ _ _ hlen (by simp [zeroSector])]
      · exact absurd he hr

/-- **C2 (amended).** `delete_dir` checks only the *head* table of the
directory's chain for emptiness: if the head table has a live slot it returns
`NotEmpty` and writes nothing, but whenever the head table is empty it zeroes
every table sector of the chain (erasing the POGO magic) — even if a
continuation table still holds live slots — and clears the parent slot,
returning `Success`. -/
theorem C2_delete_dir_checks_head_only (fs : FileSystem) (d : Disk) (fuel : Nat)
    (path : List (List Nat)) (dir : Dir) (secs : List FileTableSector)
    (fts : FileTableSector) (idx : Nat)
    (hdir : fs.get_dir d fuel path = .ok (some dir)) :
    ((FileTableSector.load d dir.entry_addr none).files ≠ [] →
      fs.delete_dir d fuel path = .ok (.NotEmptyError, fs, d)) ∧
    ((FileTableSector.load d dir.entry_addr none).files = [] →
      collectTableChain d fuel (FileTableSector.load d dir.entry_addr none) = .ok secs →
      (∀ t ∈ secs, t.addr < d.length) →
      fs.get_table_with_object (removeFold secs d) fuel path = .ok (some fts) →
      fts.files.findIdx? (fun ft => match ft with
        | .dir dd => dd.entry_addr == dir.entry_addr
        | .file _ => false) = some idx →
      fts.addr ∉ secs.map (·.addr) →
      (fs.delete_dir d fuel path =
        .ok (.Success,
          { fs with entry_table := (FileTableSector.load
              ((eraseSlot fts idx).update_physical_drive (removeFold secs d))
              fs.entry_sector none) },
          (eraseSlot fts idx).update_physical_drive (removeFold secs d)) ∧
       ∀ t ∈ secs,
         diskRead ((eraseSlot fts idx).update_physical_drive (removeFold secs d)) t.addr
           = zeroSector)) := by
  constructor
  · intro hne
    rw [FileSystem.delete_dir, hdir]
    simp only
    rw [if_pos (by simpa [List.length_eq_zero] using hne)]
  · intro hempty hchain hlen hfts hidx hsep
    constructor
    · rw [FileSystem.delete_dir, hdir]
      simp only
      rw [if_neg (by simp [hempty]), hchain]
      simp only [← removeFold_def, hfts, hidx]
      rfl
    · intro t ht
      rw [FileTableSector.update_physical_drive,
        diskRead_diskWrite_ne _ _ _ _
          (fun he => hsep (by rw [show fts.addr = t.addr from he]
                              exact List.mem_map_of_mem _ ht)),
        removeFold_zeroes secs d t.addr (List.mem_map_of_mem _ ht) (hlen t ht)]

/-- A directory `"d"` whose head table (sector 3) is empty but chains to a
second table (sector 2) that still holds a live file slot `"f"` → sector 1;
the root table is sector 5. -/
def dC2 : Disk :=
  [zeroSector,
   DataSector.serialize ⟨1, none, 1, [5]⟩,
   FileTableSector.serialize ⟨2, none, none, [.file ⟨[102], 1⟩], false⟩,
   FileTableSector.serialize ⟨3, none, some 2, [], false⟩,
   zeroSector,
   FileTableSector.serialize ⟨5, none, none, [.dir ⟨[100], 3⟩], false⟩]

def fsC2 : FileSystem := ⟨5, FileTableSector.load dC2 5 none⟩

/-- Counterexample to C2 as stated: table 2 of the directory's chain holds a
live slot, yet `delete_dir` returns `Success` (not `NotEmpty`) and writes
sectors — the whole chain, live slot included, is destroyed. -/
theorem C2_counterexample :
    (FileTableSector.load dC2 3 none).files = [] ∧
    (FileTableSector.load dC2 3 none).continuation_addr = some 2 ∧
    (FileTableSector.load dC2 2 none).files ≠ [] ∧
    exitOf (fsC2.delete_dir dC2 9 [[100]]) = some .Success ∧
    (stateOf (fsC2.delete_dir dC2 9 [[100]])).map (fun p => diskRead p.2 2) = some zeroSector ∧
    diskRead dC2 2 ≠ zeroSector := by
  exact ⟨by decide, by decide, by decide, by decide, by decide, by decide⟩

def secsC2 : List FileTableSector :=
  [FileTableSector.load dC2 3 none, FileTableSector.load dC2 2 none]

/-- Witness for the amended C2 theorem: on `dC2` the empty-head directory is
deleted with `Success` and both chain sectors (3 and 2) are zeroed. -/
theorem C2_delete_dir_checks_head_only_witness :
    fsC2.delete_dir dC2 9 [[100]] =
      .ok (.Success,
        { fsC2 with entry_table := (FileTableSector.load
            ((eraseSlot (FileTableSector.load dC2 5 none) 0).update_physical_drive
              (removeFold secsC2 dC2)) 5 none) },
        (eraseSlot (FileTableSector.load dC2 5 none) 0).update_physical_drive
          (removeFold secsC2 dC2)) ∧
    diskRead ((eraseSlot (FileTableSector.load dC2 5 none) 0).update_physical_drive
      (removeFold secsC2 dC2)) 3 = zeroSector ∧
    diskRead ((eraseSlot (FileTableSector.load dC2 5 none) 0).update_physical_drive
      (removeFold secsC2 dC2)) 2 = zeroSector := by
  have H := (C2_delete_dir_checks_head_only fsC2 dC2 9 [[100]] ⟨[100], 3⟩ secsC2
      (FileTableSector.load dC2 5 none) 0 (by decide)).2
    (by decide) (by decide) (by decide) (by decide) (by decide) (by decide)
  exact ⟨H.1, H.2 (FileTableSector.load dC2 3 none) (by decide),
    H.2 (FileTableSector.load dC2 2 none) (by decide)⟩

/-! ## Data-sector buffer characterisations -/

theorem getD_eq_get (l : List Nat) (i : Nat) (h : i < l.length) :
    l.getD i 0 = l.get ⟨i, h⟩ := by
  simp [List.getD_eq_getElem?_getD, List.getElem?_eq_getElem h]

/-- Two byte buffers of the same length with the same bytes are equal. -/
theorem sector_ext (s1 s2 : Sector) (hlen : s1.length = s2.length)
    (h : ∀ j, j < s1.length → s1.getD j 0 = s2.getD j 0) : s1 = s2 := by
  apply List.ext_get hlen
  intro n h1 h2
  rw [← getD_eq_get s1 n h1, ← getD_eq_get s2 n h2]
  exact h n h1

theorem zeroSector_getD (j : Nat) : zeroSector.getD j 0 = 0 := by
  by_cases h : j < 512
  · rw [zeroSector, List.getD_eq_getElem?_getD, List.getElem?_replicate]
    simp [h]
  · rw [List.getD_eq_getElem?_getD, List.getElem?_eq_none (by simp [zeroSector]; omega)]
    rfl

theorem getD_drop (l : List Nat) (n k : Nat) : (l.drop n).getD k 0 = l.getD (n + k) 0 := by
  simp [List.getD_eq_getElem?_getD, List.getElem?_drop]

theorem getD_take (l : List Nat) (n k : Nat) (h : k < n) :
    (l.take n).getD k 0 = l.getD k 0 := by
  simp [List.getD_eq_getElem?_getD, List.getElem?_take, h]

theorem getD_append_left (l m : List Nat) (j : Nat) (h : j < l.length) :
    (l ++ m).getD j 0 = l.getD j 0 :=
  List.getD_append l m 0 j h

theorem getD_append_right (l m : List Nat) (k : Nat) :
    (l ++ m).getD (l.length + k) 0 = m.getD k 0 := by
  simp [List.getD_eq_getElem?_getD, List.getElem?_append_right (by omega : l.length ≤ l.length + k)]

theorem newDataBuf_length (bytes : List Nat) : (newDataBuf bytes).length = 512 := by
  rw [newDataBuf]
  simp [listWrite_length, zeroSector]

theorem newDataBuf_getD_lt4 (c : List Nat) (j : Nat) (hj : j < 4) :
    (newDataBuf c).getD j 0 = 0 := by
  simp only [newDataBuf]
  rw [listWrite_getD_lt _ _ _ _ (by omega), getD_set_ne _ _ _ _ (by omega),
    getD_set_ne _ _ _ _ (by omega), zeroSector_getD]

theorem newDataBuf_getD_4 (c : List Nat) :
    (newDataBuf c).getD 4 0 = c.length % 65536 / 2 ^ 8 % 256 := by
  simp only [newDataBuf]
  rw [listWrite_getD_lt _ _ _ _ (by omega), getD_set_ne _ _ _ _ (by omega),
    getD_set_self _ _ _ (by simp [zeroSector])]

theorem newDataBuf_getD_5 (c : List Nat) :
    (newDataBuf c).getD 5 0 = c.length % 65536 % 256 := by
  simp only [newDataBuf]
  rw [listWrite_getD_lt _ _ _ _ (by omega), getD_set_self _ _ _ (by simp [zeroSector])]

theorem newDataBuf_getD_data (c : List Nat) (k : Nat) (hc : c.length ≤ 506) :
    (newDataBuf c).getD (6 + k) 0 = (c ++ List.replicate (506 - c.length) 0).getD k 0 := by
  simp only [newDataBuf]
  by_cases hk : k < c.length
  · rw [listWrite_getD_at _ _ _ _ hk (by simp [zeroSector]; omega),
      getD_append_left _ _ _ hk]
  · rw [listWrite_getD_ge _ _ _ _ (by omega), getD_set_ne _ _ _ _ (by omega),
      getD_set_ne _ _ _ _ (by omega), zeroSector_getD]
    by_cases hk2 : k < 506
    · rw [show k = c.length + (k - c.length) by omega, getD_append_right,
        List.getD_eq_getElem?_getD, List.getElem?_replicate, if_pos (by omega)]
      rfl
    · rw [List.getD_eq_getElem?_getD, List.getElem?_eq_none (by simp; omega)]
      rfl

theorem size_recompose (n : Nat) (h : n < 65536) :
    (n / 2 ^ 8 % 256) <<< 8 ||| n % 256 = n := by
  have := shl_or_eq (n / 2 ^ 8 % 256) (n % 256) 8 (by norm_num; omega)
  rw [this]
  norm_num
  omega

/-- Loading a freshly written data sector (`DataSector::new` then
`DataSector::load`). -/
theorem load_newDataBuf (d : Disk) (a : Nat) (c : List Nat)
    (ha : a < d.length) (hc : c.length ≤ 506) :
    DataSector.load (diskWrite d a (newDataBuf c)) a =
      ⟨a, none, c.length, c ++ List.replicate (506 - c.length) 0⟩ := by
  have hm : c.length % 65536 = c.length := Nat.mod_eq_of_lt (by omega)
  rw [DataSector.load, diskRead_diskWrite_self d a _ ha (newDataBuf_length c)]
  simp only [newDataBuf_getD_lt4 c 0 (by omega), newDataBuf_getD_lt4 c 1 (by omega),
    newDataBuf_getD_lt4 c 2 (by omega), newDataBuf_getD_lt4 c 3 (by omega),
    newDataBuf_getD_4, newDataBuf_getD_5, hm]
  have hdec : decBE32 0 0 0 0 = 0 := by decide
  rw [hdec]
  simp only [ne_eq, not_true_eq_false, if_false]
  have hdata : ((newDataBuf c).drop 6).take 506 = c ++ List.replicate (506 - c.length) 0 := by
    apply sector_ext
    · simp [newDataBuf_length]
      omega
    · intro j hj
      have hj506 : j < 506 := by
        simpa [newDataBuf_length] using hj
      rw [getD_take _ _ _ hj506, getD_drop, newDataBuf_getD_data c j hc]
  rw [hdata, size_recompose c.length (by omega)]

/-! ## Zero-status of written buffers and free-sector counting -/

theorem isZero_getD (s : Sector) (h : isZeroSector s = true) (j : Nat) : s.getD j 0 = 0 := by
  rw [isZeroSector, List.all_eq_true] at h
  by_cases hj : j < s.length
  · have := h (s.get ⟨j, hj⟩) (List.get_mem s j hj)
    rw [getD_eq_get s j hj]
    simpa using this
  · rw [List.getD_eq_getElem?_getD, List.getElem?_eq_none (by omega)]
    rfl

theorem isZero_false_of_getD (s : Sector) (i : Nat) (_hi : i < s.length)
    (h : s.getD i 0 ≠ 0) : isZeroSector s = false := by
  by_cases hz : isZeroSector s = true
  · exact absurd (isZero_getD s hz i) h
  · simpa using hz

theorem newDataBuf_nonzero (c : List Nat) (hc : c ≠ []) (hc5 : c.length ≤ 506) :
    isZeroSector (newDataBuf c) = false := by
  have hlen : 0 < c.length := List.length_pos.mpr hc
  have hm : c.length % 65536 = c.length := Nat.mod_eq_of_lt (by omega)
  by_cases h256 : c.length < 256
  · exact isZero_false_of_getD (newDataBuf c) 5 (by rw [newDataBuf_length]; omega)
      (by rw [newDataBuf_getD_5, hm]; omega)
  · exact isZero_false_of_getD (newDataBuf c) 4 (by rw [newDataBuf_length]; omega)
      (by rw [newDataBuf_getD_4, hm]; norm_num; omega)

theorem dataSerialize_length (s : DataSector) : s.serialize.length = 512 := by
  rw [DataSector.serialize]
  simp [listWrite_length, zeroSector]

theorem dataSerialize_getD_lt4 (s : DataSector) (c : Nat) (j : Nat)
    (hcont : s.continuation_addr = some c) (hj : j < 4) :
    s.serialize.getD j 0 = (be32 c).getD j 0 := by
  simp only [DataSector.serialize, hcont]
  rw [listWrite_getD_lt _ _ _ _ (by omega), getD_set_ne _ _ _ _ (by omega),
    getD_set_ne _ _ _ _ (by omega)]
  have := listWrite_getD_at (be32 c) zeroSector 0 j (by simp [be32]; omega)
    (by rw [zeroSector_length]; omega)
  simpa using this

theorem dataSerialize_getD_4 (s : DataSector) :
    s.serialize.getD 4 0 = s.size / 2 ^ 8 % 256 := by
  simp only [DataSector.serialize]
  rw [listWrite_getD_lt _ _ _ _ (by omega), getD_set_ne _ _ _ _ (by omega),
    getD_set_self _ _ _ (by rw [listWrite_length, zeroSector_length]; omega)]

theorem dataSerialize_getD_5 (s : DataSector) : s.serialize.getD 5 0 = s.size % 256 := by
  simp only [DataSector.serialize]
  rw [listWrite_getD_lt _ _ _ _ (by omega),
    getD_set_self _ _ _ (by rw [List.length_set, listWrite_length, zeroSector_length]; omega)]

theorem dataSerialize_getD_data (s : DataSector) (k : Nat) (hdata : s.data.length = 506)
    (hk : k < 506) : s.serialize.getD (6 + k) 0 = s.data.getD k 0 := by
  simp only [DataSector.serialize]
  have htake : s.data.take 506 = s.data := List.take_of_length_le (by omega)
  rw [htake, listWrite_getD_at _ _ _ _ (by omega)
    (by rw [List.length_set, List.length_set, listWrite_length, zeroSector_length]; omega)]

theorem be32_eq_zero (c : Nat) (hc32 : c < 2 ^ 32)
    (h0 : c / 2 ^ 24 % 256 = 0) (h1 : c / 2 ^ 16 % 256 = 0)
    (h2 : c / 2 ^ 8 % 256 = 0) (h3 : c % 256 = 0) : c = 0 := by
  norm_num at h0 h1 h2 hc32 ⊢
  omega

theorem dataSerialize_nonzero (s : DataSector) (c : Nat)
    (hcont : s.continuation_addr = some c) (hc0 : 0 < c) (hc32 : c < 2 ^ 32) :
    isZeroSector s.serialize = false := by
  by_cases hz : isZeroSector s.serialize = true
  · have h := fun j hj => (dataSerialize_getD_lt4 s c j hcont hj).symm.trans
      (isZero_getD _ hz j)
    have h0 : c / 2 ^ 24 % 256 = 0 := h 0 (by omega)
    have h1 : c / 2 ^ 16 % 256 = 0 := h 1 (by omega)
    have h2 : c / 2 ^ 8 % 256 = 0 := h 2 (by omega)
    have h3 : c % 256 = 0 := h 3 (by omega)
    have := be32_eq_zero c hc32 h0 h1 h2 h3
    omega
  · simpa using hz

/-- Reloading a data sector written by `DataSector::update_physical_drive`. -/
theorem load_dataSerialize (d : Disk) (a : Nat) (s : DataSector) (c : Nat)
    (ha : a < d.length) (hcont : s.continuation_addr = some c) (hc0 : 0 < c)
    (hc32 : c < 2 ^ 32) (hsize : s.size < 65536) (hdata : s.data.length = 506) :
    DataSector.load (diskWrite d a s.serialize) a = ⟨a, some c, s.size, s.data⟩ := by
  rw [DataSector.load, diskRead_diskWrite_self d a _ ha (dataSerialize_length s)]
  simp only [dataSerialize_getD_lt4 s c 0 hcont (by omega),
    dataSerialize_getD_lt4 s c 1 hcont (by omega), dataSerialize_getD_lt4 s c 2 hcont (by omega),
    dataSerialize_getD_lt4 s c 3 hcont (by omega), dataSerialize_getD_4, dataSerialize_getD_5]
  have hdec : decBE32 ((be32 c).getD 0 0) ((be32 c).getD 1 0) ((be32 c).getD 2 0)
      ((be32 c).getD 3 0) = c := decBE32_be32 hc32
  rw [hdec, if_pos (by omega), size_recompose s.size hsize]
  have hdata' : (s.serialize.drop 6).take 506 = s.data := by
    apply sector_ext
    · simp [dataSerialize_length]
      omega
    · intro j hj
      have hj506 : j < 506 := by
        simpa [dataSerialize_length] using hj
      rw [getD_take _ _ _ hj506, getD_drop, dataSerialize_getD_data s j hdata hj506]
  rw [hdata']

/-- The number of allocatable (all-zero, nonzero-index) sectors. -/
def freeCount (d : Disk) : Nat :=
  ((List.range d.length).filter (fun s => decide (0 < s) && isZeroSector (diskRead d s))).length

theorem find_available_of_freeCount (d : Disk) (h : freeCount d ≠ 0) :
    ∃ s, find_available_sector d = some s := by
  rcases hfind : find_available_sector d with _ | s
  · exfalso
    apply h
    rw [freeCount, List.filter_eq_nil_iff.mpr, List.length_nil]
    intro x hx
    simp only [List.mem_range] at hx
    simp only [Bool.and_eq_true, decide_eq_true_eq, not_and]
    intro hx0
    rw [(findAvailAux_none d (d.length - 1)).mp hfind x hx0 (by omega)]
    simp
  · exact ⟨s, rfl⟩

theorem freeCount_congr (d d' : Disk) (hlen : d'.length = d.length)
    (h : ∀ s, 0 < s → s < d.length → isZeroSector (diskRead d' s) = isZeroSector (diskRead d s)) :
    freeCount d' = freeCount d := by
  rw [freeCount, freeCount, hlen]
  congr 1
  apply List.filter_congr
  intro x hx
  simp only [List.mem_range] at hx
  by_cases hx0 : 0 < x
  · rw [h x hx0 hx]
  · simp [hx0]

theorem filter_length_le_add_count (l : List Nat) (p q : Nat → Bool) (a : Nat)
    (hagree : ∀ x ∈ l, x ≠ a → p x = q x) :
    (l.filter p).length ≤ (l.filter q).length + l.count a := by
  induction l with
  | nil => simp
  | cons x xs ih =>
    have ih' := ih (fun y hy => hagree y (List.mem_cons_of_mem x hy))
    by_cases hxa : x = a
    · subst hxa
      rw [List.count_cons_self]
      by_cases hp : p x <;> by_cases hq : q x <;>
        simp [List.filter_cons, hp, hq] <;> omega
    · have hpq := hagree x (List.mem_cons_self x xs) hxa
      rw [List.count_cons_of_ne (fun he => hxa he.symm)]
      by_cases hp : p x
      · simp [List.filter_cons, hp, ← hpq, ih']
        omega
      · simp [List.filter_cons, hp, ← hpq]
        omega

theorem freeCount_write_ge (d : Disk) (a : Nat) (buf : Sector) :
    freeCount d ≤ freeCount (diskWrite d a buf) + 1 := by
  rw [freeCount, freeCount, diskWrite_length]
  calc ((List.range d.length).filter
      (fun s => decide (0 < s) && isZeroSector (diskRead d s))).length
      ≤ ((List.range d.length).filter
          (fun s => decide (0 < s) && isZeroSector (diskRead (diskWrite d a buf) s))).length +
          (List.range d.length).count a := by
        apply filter_length_le_add_count
        intro x _ hxa
        rw [diskRead_diskWrite_ne d a x buf (fun he => hxa he.symm)]
    _ ≤ _ + 1 := by
        have := List.nodup_iff_count_le_one.mp (List.nodup_range d.length) a
        omega

/-! ## The data-writing loop -/

theorem DataSector.load_congr (d1 d2 : Disk) (a : Nat) (h : diskRead d1 a = diskRead d2 a) :
    DataSector.load d1 a = DataSector.load d2 a := by
  rw [DataSector.load, DataSector.load, h]

theorem readAux_succ_none (d : Disk) (fuel addr : Nat) (s : DataSector)
    (hl : DataSector.load d addr = s) (hs : s.size ≤ 506)
    (hc : s.continuation_addr = none) :
    readAux d (fuel + 1) addr = .ok (s.data.take s.size) := by
  rw [readAux, hl, if_neg (by omega), hc]

theorem readAux_succ_some (d : Disk) (fuel addr : Nat) (s : DataSector)
    (hl : DataSector.load d addr = s) (hs : s.size ≤ 506) (nxt : Nat)
    (hc : s.continuation_addr = some nxt) (res : List Nat)
    (hrec : readAux d fuel nxt = .ok res) :
    readAux d (fuel + 1) addr = .ok (s.data.take s.size ++ res) := by
  rw [readAux, hl, if_neg (by omega), hc]
  simp only [hrec]

theorem collect_succ_none (d : Disk) (fuel : Nat) (s : DataSector)
    (hc : s.continuation_addr = none) :
    collectDataChain d (fuel + 1) s = .ok [s] := by
  rw [collectDataChain, hc]

theorem collect_succ_some (d : Disk) (fuel : Nat) (s : DataSector) (nxt : Nat)
    (hc : s.continuation_addr = some nxt) (l : List DataSector)
    (hrec : collectDataChain d fuel (DataSector.load d nxt) = .ok l) :
    collectDataChain d (fuel + 1) s = .ok (s :: l) := by
  rw [collectDataChain, hc]
  simp only [hrec]

/-- The main induction over the data-writing loop of `write_file`: starting
from an in-sync, freshly written head sector, the loop succeeds whenever
enough free sectors remain, it touches no other live sector, and afterwards
reading the chain returns the head payload followed by `rest`, the chain
having one sector per written chunk. -/
theorem writeDataLoop_spec :
    ∀ (rest : List Nat) (d : Disk) (cur : DataSector) (fuel : Nat),
      cur = DataSector.load d cur.addr →
      cur.continuation_addr = none →
      cur.size ≤ 506 →
      cur.data.length = 506 →
      cur.addr < d.length →
      d.length ≤ 2 ^ 32 →
      (rest ≠ [] → isZeroSector (diskRead d cur.addr) = false) →
      (dataChunksRest rest).length ≤ freeCount d →
      (dataChunksRest rest).length + 1 ≤ fuel →
      ∃ d', writeDataLoop fuel cur d rest = .ok d' ∧
        d'.length = d.length ∧
        (∀ a, a < d.length → a ≠ cur.addr → isZeroSector (diskRead d a) = false →
          diskRead d' a = diskRead d a) ∧
        (∀ fuel, (dataChunksRest rest).length + 1 ≤ fuel →
          readAux d' fuel cur.addr = .ok (cur.data.take cur.size ++ rest)) ∧
        (∀ fuel, (dataChunksRest rest).length + 1 ≤ fuel →
          ∃ chain, collectDataChain d' fuel (DataSector.load d' cur.addr) = .ok chain ∧
            chain.length = (dataChunksRest rest).length + 1) := by
  intro rest
  induction rest using dataChunksRest.induct with
  | case1 =>
    intro d cur fuel hsync hcont hsize hdata haddr h32 _hnz _hfree hfuelw
    match fuel, hfuelw with
    | fuel + 1, _ =>
    refine ⟨d, by rw [writeDataLoop], rfl, fun a _ _ _ => rfl, ?_, ?_⟩
    · intro fuel hfuel
      match fuel, hfuel with
      | fuel + 1, _ =>
        rw [readAux_succ_none d fuel cur.addr cur hsync.symm hsize hcont, List.append_nil]
    · intro fuel hfuel
      match fuel, hfuel with
      | fuel + 1, _ =>
        refine ⟨[cur], ?_, by simp [dataChunksRest]⟩
        rw [← hsync]
        exact collect_succ_none d fuel cur hcont
  | case2 r rs ih =>
    intro d cur fuel hsync hcont hsize hdata haddr h32 hnz' hfree hfuelw
    have hnz : isZeroSector (diskRead d cur.addr) = false := hnz' (by simp)
    have hchunkcount : (dataChunksRest (r :: rs)).length =
        (dataChunksRest ((r :: rs).drop 506)).length + 1 := by
      rw [dataChunksRest]
      simp
    match fuel, hfuelw with
    | fuelm + 1, hfuelw =>
    -- the allocation succeeds
    obtain ⟨ext, hfind⟩ := find_available_of_freeCount d (by omega)
    obtain ⟨hext0, hextle, hextzero, -⟩ := (findAvailAux_some d (d.length - 1) ext).mp hfind
    have hextlt : ext < d.length := by omega
    have hext32 : ext < 2 ^ 32 := by omega
    have hextne : ext ≠ cur.addr := fun he => by
      rw [he] at hextzero
      rw [hextzero] at hnz
      cases hnz
    -- the two writes of this iteration
    set chunk := (r :: rs).take 506 with hchunk
    have hchunklen : chunk.length ≤ 506 := by simp [hchunk]
    have hchunkne : chunk ≠ [] := by simp [hchunk]
    set cur1 : DataSector := { cur with continuation_addr := some ext } with hcur1
    have hser_nonzero : isZeroSector cur1.serialize = false :=
      dataSerialize_nonzero cur1 ext rfl hext0 hext32
    set da : Disk := cur1.update_physical_drive d with hda
    have hda_eq : da = diskWrite d cur.addr cur1.serialize := rfl
    have hda_len : da.length = d.length := by rw [hda_eq, diskWrite_length]
    have hda_cur : diskRead da cur.addr = cur1.serialize := by
      rw [hda_eq]
      exact diskRead_diskWrite_self _ _ _ haddr (dataSerialize_length cur1)
    have hda_other : ∀ a, a ≠ cur.addr → diskRead da a = diskRead d a := by
      intro a ha
      rw [hda_eq, diskRead_diskWrite_ne _ _ _ _ (fun he => ha he.symm)]
    set db : Disk := diskWrite da ext (newDataBuf chunk) with hdb
    have hdb_len : db.length = d.length := by rw [hdb, diskWrite_length, hda_len]
    have hdb_ext : diskRead db ext = newDataBuf chunk := by
      rw [hdb]
      exact diskRead_diskWrite_self _ _ _ (by omega) (newDataBuf_length chunk)
    have hdb_other : ∀ a, a ≠ ext → diskRead db a = diskRead da a := by
      intro a ha
      rw [hdb, diskRead_diskWrite_ne _ _ _ _ (fun he => ha he.symm)]
    have hdb_cur : diskRead db cur.addr = cur1.serialize := by
      rw [hdb_other _ (fun he => hextne he.symm), hda_cur]
    set curX : DataSector :=
      ⟨ext, none, chunk.length, chunk ++ List.replicate (506 - chunk.length) 0⟩ with hcurX
    have hload : DataSector.load db ext = curX := by
      rw [hdb]
      exact load_newDataBuf da ext chunk (by omega) hchunklen
    -- free-sector accounting
    have hfc_da : freeCount da = freeCount d := by
      apply freeCount_congr _ _ hda_len
      intro s hs0 hslt
      by_cases hsc : s = cur.addr
      · rw [hsc, hda_cur, hser_nonzero, hnz]
      · rw [hda_other s hsc]
    have hfc_db : freeCount da ≤ freeCount db + 1 := by
      rw [hdb]
      exact freeCount_write_ge da ext (newDataBuf chunk)
    -- apply the induction hypothesis to the fresh cursor
    have hXaddr : curX.addr = ext := rfl
    obtain ⟨d', hloop, hlen', hframe', hread', hchain'⟩ :=
      ih db curX fuelm (by rw [hXaddr, hload]) rfl (by rw [hcurX]; simpa using hchunklen)
        (by rw [hcurX]; simp; omega)
        (by rw [hXaddr]; omega)
        (by omega)
        (fun _ => by rw [hXaddr, hdb_ext]; exact newDataBuf_nonzero chunk hchunkne hchunklen)
        (by omega) (by omega)
    -- one unfolding of the loop
    have hp2 : (DataSector.new da ext chunk).2 = db := rfl
    have hp1 : (DataSector.new da ext chunk).1 = curX := by
      rw [show (DataSector.new da ext chunk).1 = DataSector.load db ext from rfl, hload]
    have hloop_eq : writeDataLoop (fuelm + 1) cur d (r :: rs) =
        writeDataLoop fuelm curX db ((r :: rs).drop 506) := by
      have h0 : writeDataLoop (fuelm + 1) cur d (r :: rs) =
          writeDataLoop fuelm (DataSector.new da ext chunk).1 (DataSector.new da ext chunk).2
            ((r :: rs).drop 506) := by
        rw [writeDataLoop, hfind]
      rw [h0, hp1, hp2]
    -- the head sector on the final disk
    have hframe_cur : diskRead d' cur.addr = cur1.serialize := by
      rw [hframe' cur.addr (by omega) (by rw [hXaddr]; exact fun he => hextne he.symm)
        (by rw [hdb_cur]; exact hser_nonzero), hdb_cur]
    have hload_cur : DataSector.load d' cur.addr = ⟨cur.addr, some ext, cur.size, cur.data⟩ := by
      have h1 : DataSector.load d' cur.addr = DataSector.load da cur.addr :=
        DataSector.load_congr _ _ _ (by rw [hframe_cur, hda_cur])
      rw [h1, hda_eq]
      exact load_dataSerialize d cur.addr cur1 ext haddr rfl hext0 hext32
        (show cur.size < 65536 by omega) hdata
    refine ⟨d', by rw [hloop_eq]; exact hloop, by rw [hlen', hdb_len], ?_, ?_, ?_⟩
    · intro a halt hane hazero
      have hane2 : a ≠ ext := fun he => by
        rw [he, hextzero] at hazero
        cases hazero
      rw [hframe' a (by omega) (by rw [hXaddr]; exact hane2)
        (by rw [hdb_other a hane2, hda_other a hane, hazero]),
        hdb_other a hane2, hda_other a hane]
    · intro fuel hfuel
      match fuel, hfuel with
      | fuel + 1, hfuel =>
        have htake : List.take curX.size curX.data = chunk := by
          show List.take chunk.length (chunk ++ List.replicate (506 - chunk.length) 0) = chunk
          rw [List.take_append_of_le_length (le_refl _), List.take_length]
        have hr2 : readAux d' fuel ext = Res.ok (chunk ++ (r :: rs).drop 506) := by
          have h := hread' fuel (by omega)
          rw [htake] at h
          exact h
        have hstep : readAux d' (fuel + 1) cur.addr =
            Res.ok (List.take cur.size cur.data ++ (chunk ++ (r :: rs).drop 506)) :=
          readAux_succ_some d' fuel cur.addr ⟨cur.addr, some ext, cur.size, cur.data⟩
            hload_cur hsize ext rfl (chunk ++ (r :: rs).drop 506) hr2
        rw [hstep, hchunk, List.take_append_drop]
    · intro fuel hfuel
      match fuel, hfuel with
      | fuel + 1, hfuel =>
        obtain ⟨chain, hchain, hchainlen⟩ := hchain' fuel (by omega)
        have hchain2 : collectDataChain d' fuel (DataSector.load d' ext) = Res.ok chain :=
          hchain
        refine ⟨(⟨cur.addr, some ext, cur.size, cur.data⟩ : DataSector) :: chain, ?_,
          by rw [List.length_cons, hchainlen, hchunkcount]⟩
        rw [hload_cur]
        exact collect_succ_some d' fuel ⟨cur.addr, some ext, cur.size, cur.data⟩ ext rfl
          chain hchain2

/-! ## write_file assembled -/

/-- The in-memory table after `add_file` pushes a new file slot. -/
def pushFile (t : FileTableSector) (name : List Nat) (addr : Nat) : FileTableSector :=
  { t with files := t.files ++ [.file ⟨name, addr⟩] }

theorem add_file_ok (t : FileTableSector) (d : Disk) (name : List Nat) (addr : Nat)
    (h : t.files.length < 8) :
    t.add_file d name addr =
      .ok (pushFile t name addr, (pushFile t name addr).update_physical_drive d) := by
  rw [FileTableSector.add_file, if_pos h]
  rfl

theorem serialize_getD_508 (t : FileTableSector) (hdel : t.is_deleted = false) :
    t.serialize.getD 508 0 = 80 := by
  rw [FileTableSector.serialize]
  simp only [hdel, Bool.false_eq_true, if_false]
  have := listWrite_getD_at MAGIC
    ((t.files.foldl (fun (acc : List Nat × Nat) ft =>
      (writeSlot acc.1 acc.2 ft, acc.2 + 63)) (listWrite zeroSector 0
        (match t.continuation_addr with
         | some c => be32 c
         | none => [0, 0, 0, 0]), 4)).1) 508 0 (by simp [MAGIC])
    (by rw [slotsFold_length, listWrite_length, zeroSector_length]; omega)
  simpa using this

theorem serialize_nonzero (t : FileTableSector) (hdel : t.is_deleted = false) :
    isZeroSector t.serialize = false :=
  isZero_false_of_getD _ 508 (by rw [serialize_length]; omega)
    (by rw [serialize_getD_508 t hdel]; omega)

theorem drop_take_length (bytes : List Nat) :
    bytes.drop (bytes.take 506).length = bytes.drop 506 := by
  rw [List.length_take]
  rcases Nat.le_total bytes.length 506 with h | h
  · rw [min_eq_right h, List.drop_of_length_le (le_refl _), List.drop_of_length_le h]
  · rw [min_eq_left (by omega)]

/-- The assembled specification of a successful `write_file`: given a
resolved parent cursor, a grown table with a free slot, a successful head
allocation and enough free sectors, `write_file` succeeds; the parent slot
points at the head sector, every other live sector is untouched, and reading
back the new chain yields exactly `bytes`, the chain holding one sector per
506-byte chunk. -/
theorem write_file_spec (fs : FileSystem) (d : Disk) (fuel : Nat)
    (path : List (List Nat)) (bytes : List Nat) (fname : List Nat) (t t1 : FileTableSector)
    (ie1 : Bool) (fs1 : FileSystem) (d1 : Disk) (s0 : Nat)
    (hlast : path.getLast? = some fname)
    (hr : resolveParent d fuel path.dropLast fs.entry_table = .ok (some t))
    (hgrow : growToFree d t.directory_name fuel t path.dropLast.isEmpty fs
      = .ok (t1, ie1, fs1, d1))
    (hfind : find_available_sector d1 = some s0)
    (ht1len : t1.files.length < 8)
    (ht1addr : t1.addr < d1.length)
    (ht1del : t1.is_deleted = false)
    (ht1nz : isZeroSector (diskRead d1 t1.addr) = false)
    (h32 : d1.length ≤ 2 ^ 32)
    (hfree : (dataChunks bytes).length ≤ freeCount d1)
    (hfuelw : (dataChunks bytes).length ≤ fuel) :
    ∃ d', fs.write_file d fuel path bytes =
        .ok (.Success,
          if ie1 = true then { fs1 with entry_table := pushFile t1 fname s0 } else fs1, d') ∧
      d'.length = d1.length ∧
      (∀ a, a < d1.length → a ≠ t1.addr → isZeroSector (diskRead d1 a) = false →
        diskRead d' a = diskRead d1 a) ∧
      diskRead d' t1.addr = (pushFile t1 fname s0).serialize ∧
      (∀ fr, (dataChunks bytes).length + 1 ≤ fr → readAux d' fr s0 = .ok bytes) ∧
      (∀ fr, (dataChunks bytes).length + 1 ≤ fr →
        ∃ chain, collectDataChain d' fr (DataSector.load d' s0) = .ok chain ∧
          chain.length = (dataChunks bytes).length) := by
  -- facts about the allocated head sector
  obtain ⟨hs00, hs0le, hs0zero, -⟩ := (findAvailAux_some d1 (d1.length - 1) s0).mp hfind
  have hs0lt : s0 < d1.length := by omega
  have hs0ne : s0 ≠ t1.addr := fun he => by
    rw [he] at hs0zero
    rw [hs0zero] at ht1nz
    cases ht1nz
  -- the add_file write
  set t2 : FileTableSector := pushFile t1 fname s0 with ht2
  have ht2del : t2.is_deleted = false := ht1del
  have ht2nz : isZeroSector t2.serialize = false := serialize_nonzero t2 ht2del
  set d2 : Disk := t2.update_physical_drive d1 with hd2
  have hd2_eq : d2 = diskWrite d1 t1.addr t2.serialize := rfl
  have hd2_len : d2.length = d1.length := by rw [hd2_eq, diskWrite_length]
  have hd2_t1 : diskRead d2 t1.addr = t2.serialize := by
    rw [hd2_eq]
    exact diskRead_diskWrite_self _ _ _ ht1addr (serialize_length t2)
  have hd2_other : ∀ a, a ≠ t1.addr → diskRead d2 a = diskRead d1 a := by
    intro a ha
    rw [hd2_eq, diskRead_diskWrite_ne _ _ _ _ (fun he => ha he.symm)]
  have hfc_d2 : freeCount d2 = freeCount d1 := by
    apply freeCount_congr _ _ hd2_len
    intro s hs0' hslt
    by_cases hsc : s = t1.addr
    · rw [hsc, hd2_t1, ht2nz, ht1nz]
    · rw [hd2_other s hsc]
  -- the head data-sector write
  set c0 : List Nat := bytes.take 506 with hc0
  have hc0len : c0.length ≤ 506 := by simp [hc0]
  set d3 : Disk := diskWrite d2 s0 (newDataBuf c0) with hd3
  have hd3_len : d3.length = d1.length := by rw [hd3, diskWrite_length, hd2_len]
  have hd3_s0 : diskRead d3 s0 = newDataBuf c0 := by
    rw [hd3]
    exact diskRead_diskWrite_self _ _ _ (by omega) (newDataBuf_length c0)
  have hd3_other : ∀ a, a ≠ s0 → diskRead d3 a = diskRead d2 a := by
    intro a ha
    rw [hd3, diskRead_diskWrite_ne _ _ _ _ (fun he => ha he.symm)]
  set cur0 : DataSector :=
    ⟨s0, none, c0.length, c0 ++ List.replicate (506 - c0.length) 0⟩ with hcur0
  have hload0 : DataSector.load d3 s0 = cur0 := by
    rw [hd3]
    exact load_newDataBuf d2 s0 c0 (by omega) hc0len
  have hchunks_len : (dataChunks bytes).length = (dataChunksRest (bytes.drop 506)).length + 1 := by
    rw [dataChunks]
    simp
  have hfc_d3 : (dataChunksRest (bytes.drop 506)).length ≤ freeCount d3 := by
    have h1 : freeCount d2 ≤ freeCount d3 + 1 := by
      rw [hd3]
      exact freeCount_write_ge d2 s0 (newDataBuf c0)
    omega
  -- run the data loop
  obtain ⟨d', hloop, hlen', hframe', hread', hchain'⟩ :=
    writeDataLoop_spec (bytes.drop 506) d3 cur0 fuel (by rw [hload0]) rfl
      (by rw [hcur0]; simpa using hc0len)
      (by rw [hcur0]; simp; omega)
      (show s0 < d3.length by omega) (by omega)
      (fun hne => by
        show isZeroSector (diskRead d3 s0) = false
        rw [hd3_s0]
        refine newDataBuf_nonzero c0 (fun he => hne ?_) hc0len
        rw [hc0] at he
        rcases bytes with _ | ⟨b, bs⟩
        · rfl
        · simp at he)
      hfc_d3 (by omega)
  -- assemble write_file
  have hloop2 : writeDataLoop fuel (DataSector.new d2 s0 c0).1 (DataSector.new d2 s0 c0).2
      (bytes.drop (bytes.take 506).length) = .ok d' := by
    rw [drop_take_length]
    rw [show (DataSector.new d2 s0 c0).2 = d3 from rfl,
      show (DataSector.new d2 s0 c0).1 = DataSector.load d3 s0 from rfl, hload0]
    exact hloop
  refine ⟨d', ?_, by omega, ?_, ?_, ?_, ?_⟩
  · rw [FileSystem.write_file, hlast, hr]
    simp only [hgrow, hfind, add_file_ok t1 d1 fname s0 ht1len, ← ht2, ← hd2, ← hc0, hloop2]
  · intro a halt hane hazero
    have hane0 : a ≠ s0 := fun he => by
      rw [he, hs0zero] at hazero
      cases hazero
    rw [hframe' a (by omega) (show a ≠ cur0.addr from hane0)
      (by rw [hd3_other a hane0, hd2_other a hane, hazero]), hd3_other a hane0,
      hd2_other a hane]
  · have ht1ne0 : t1.addr ≠ s0 := fun he => hs0ne he.symm
    rw [hframe' t1.addr (by omega) (show t1.addr ≠ cur0.addr from ht1ne0)
      (by rw [hd3_other _ ht1ne0, hd2_t1]; exact ht2nz), hd3_other _ ht1ne0, hd2_t1]
  · intro fr hfr
    have h := hread' fr (by omega)
    have hr2 : readAux d' fr s0 = .ok (List.take cur0.size cur0.data ++ bytes.drop 506) := h
    rw [hr2]
    have htake : List.take cur0.size cur0.data = c0 := by
      show List.take c0.length (c0 ++ List.replicate (506 - c0.length) 0) = c0
      rw [List.take_append_of_le_length (le_refl _), List.take_length]
    rw [htake, hc0, List.take_append_drop]
  · intro fr hfr
    obtain ⟨chain, hchain, hchainlen⟩ := hchain' fr (by omega)
    exact ⟨chain, hchain, by omega⟩

/-! ## C6: data-sector count -/

theorem dataChunksRest_length_eq (rest : List Nat) :
    (dataChunksRest rest).length = (rest.length + 505) / 506 := by
  induction rest using dataChunksRest.induct with
  | case1 => simp [dataChunksRest]
  | case2 r rs ih =>
    rw [dataChunksRest]
    simp only [List.length_cons]
    rw [ih]
    have hlen : ((r :: rs).drop 506).length = rs.length + 1 - 506 := by
      rw [List.length_drop]
      simp
    rw [hlen]
    omega

theorem dataChunks_length_eq (bytes : List Nat) (h : bytes ≠ []) :
    (dataChunks bytes).length = (bytes.length + 505) / 506 := by
  rw [dataChunks]
  simp only [List.length_cons, dataChunksRest_length_eq, List.length_drop]
  have hpos : 0 < bytes.length := List.length_pos.mpr h
  omega

/-- An 8-sector drive holding a freshly formatted filesystem: sectors 0-6
free, the root table (with magic) at sector 7. -/
def rootSector : Sector := listWrite zeroSector 508 MAGIC

def disk8 : Disk := List.replicate 7 zeroSector ++ [rootSector]

def fs8 : FileSystem := ⟨7, FileTableSector.load disk8 7 none⟩

/-- Counterexample to C6 as stated: a zero-byte file should occupy
`⌈0/506⌉ = 0` data sectors, but `write_file` allocates and writes one data
sector (here sector 6): the new slot's `entry_addr` is 6, the data chain from
it has length one, and its single sector carries a zero-length payload. -/
theorem C6_counterexample :
    (0 + 505) / 506 = 0 ∧
    (stateOf (fs8.write_file disk8 9 [[120]] [])).map
      (fun p => p.1.get_file p.2 9 [[120]]) = some (.ok (some ⟨[120], 6⟩)) ∧
    (stateOf (fs8.write_file disk8 9 [[120]] [])).map
      (fun p => match collectDataChain p.2 9 (DataSector.load p.2 6) with
        | .ok l => some l.length
        | _ => none) = some (some 1) :=
  ⟨by decide, by decide, by decide⟩

/-- **C6 (amended).** A file of `L ≥ 1` bytes occupies `⌈L/506⌉` data sectors
(plus one directory-slot entry); a zero-byte file still occupies one data
sector.  In particular a 1000-byte file uses exactly two data sectors
carrying 506 and 494 payload bytes. -/
theorem C6_data_chain_count (fs : FileSystem) (d : Disk) (fuel : Nat)
    (path : List (List Nat)) (bytes : List Nat) (fname : List Nat) (t t1 : FileTableSector)
    (ie1 : Bool) (fs1 : FileSystem) (d1 : Disk) (s0 fr : Nat)
    (hlast : path.getLast? = some fname)
    (hr : resolveParent d fuel path.dropLast fs.entry_table = .ok (some t))
    (hgrow : growToFree d t.directory_name fuel t path.dropLast.isEmpty fs
      = .ok (t1, ie1, fs1, d1))
    (hfind : find_available_sector d1 = some s0)
    (ht1len : t1.files.length < 8)
    (ht1addr : t1.addr < d1.length)
    (ht1del : t1.is_deleted = false)
    (ht1nz : isZeroSector (diskRead d1 t1.addr) = false)
    (h32 : d1.length ≤ 2 ^ 32)
    (hfree : (dataChunks bytes).length ≤ freeCount d1)
    (hfuelw : (dataChunks bytes).length ≤ fuel)
    (hbytes : bytes ≠ [])
    (hfr : (bytes.length + 505) / 506 + 1 ≤ fr) :
    (∃ d' chain, fs.write_file d fuel path bytes =
        .ok (.Success,
          if ie1 = true then { fs1 with entry_table := pushFile t1 fname s0 } else fs1, d') ∧
      collectDataChain d' fr (DataSector.load d' s0) = .ok chain ∧
      chain.length = (bytes.length + 505) / 506) ∧
    (stateOf (fs8.write_file disk8 9 [[120]] (List.replicate 1000 7))).map
      (fun p => ((DataSector.load p.2 6).size, (DataSector.load p.2 6).continuation_addr,
        (DataSector.load p.2 5).size, (DataSector.load p.2 5).continuation_addr))
      = some (506, some 5, 494, none) := by
  constructor
  · obtain ⟨d', hok, -, -, -, -, hchain⟩ :=
      write_file_spec fs d fuel path bytes fname t t1 ie1 fs1 d1 s0 hlast hr hgrow hfind
        ht1len ht1addr ht1del ht1nz h32 hfree hfuelw
    obtain ⟨chain, hcoll, hlen⟩ := hchain fr (by rw [dataChunks_length_eq bytes hbytes]; omega)
    exact ⟨d', chain, hok, hcoll, by rw [← dataChunks_length_eq bytes hbytes]; exact hlen⟩
  · decide

/-- Witness for the amended C6 theorem: a 1-byte file on the fresh 8-sector
drive occupies exactly `⌈1/506⌉ = 1` data sector. -/
theorem C6_data_chain_count_witness :
    ∃ d' chain, fs8.write_file disk8 9 [[121]] [1] =
        .ok (.Success, { fs8 with entry_table := pushFile fs8.entry_table [121] 6 }, d') ∧
      collectDataChain d' 2 (DataSector.load d' 6) = .ok chain ∧
      chain.length = (1 + 505) / 506 :=
  (C6_data_chain_count fs8 disk8 9 [[121]] [1] [121] fs8.entry_table fs8.entry_table
    true fs8 disk8 6 2 rfl rfl (by decide) (by decide) (by decide) (by decide) (by decide)
    (by decide) (by decide)
    (by rw [show (dataChunks [1]).length = 1 from by simp [dataChunks, dataChunksRest]]; decide)
    (by rw [show (dataChunks [1]).length = 1 from by simp [dataChunks, dataChunksRest]]; decide)
    (by decide) (by decide)).1

/-! ## Directory chains and the lookup algorithm

The walk loops of `get_table_with_object`, `write_file` and `create_dir`
traverse a directory's linked list of table sectors.  `chainOKb d l` says
that `l` lists the sector addresses of such a chain on `d` in link order;
`chain_walk_contains` / `chain_walk_dir` compute where the respective walk
loops stop. -/

/-- The name of a directory entry. -/
def entryName : FileType → List Nat
  | .file f => f.name
  | .dir dd => dd.name

/-- `l` lists the sector addresses of a table chain on `d`: each table's
continuation points at the next element and the last table has none. -/
def chainOKb (d : Disk) : List Nat → Bool
  | [] => false
  | [a] => (FileTableSector.load d a none).continuation_addr == none
  | a :: b :: rest =>
    ((FileTableSector.load d a none).continuation_addr == some b) && chainOKb d (b :: rest)

/-- The first chain table containing `obj` as any entry: where the
`while !current_table.contains_object(obj)` loop stops. -/
def chain_walk_contains (d : Disk) (obj : List Nat) : List Nat → Option Nat
  | [] => none
  | a :: rest =>
    if (FileTableSector.load d a none).contains_object obj then some a
    else chain_walk_contains d obj rest

/-- The first chain table holding `c` as a directory entry: where the
`while table.get_dir(dir).is_none()` loop stops. -/
def chain_walk_dir (d : Disk) (c : List Nat) : List Nat → Option Nat
  | [] => none
  | a :: rest =>
    if ((FileTableSector.load d a none).get_dir c).isSome then some a
    else chain_walk_dir d c rest

/-- spec-modelled: scan the chain tables in link order for a file entry
named `name` (the final step of the spec's lookup algorithm). -/
def spec_find_file (d : Disk) (name : List Nat) : List Nat → Option File
  | [] => none
  | a :: rest =>
    match (FileTableSector.load d a none).get_file name with
    | some f => some f
    | none => spec_find_file d name rest

/-- spec-modelled: scan the chain tables in link order for a directory entry
named `name`. -/
def spec_find_dir (d : Disk) (name : List Nat) : List Nat → Option Dir
  | [] => none
  | a :: rest =>
    match (FileTableSector.load d a none).get_dir name with
    | some dd => some dd
    | none => spec_find_dir d name rest

/-- The linked table chain of the directory headed at sector `a` (`none` if
it does not close within `fuel` links). -/
def tableChainAddrs (d : Disk) : Nat → Nat → Option (List Nat)
  | 0, _ => none
  | fuel + 1, a =>
    match (FileTableSector.load d a none).continuation_addr with
    | none => some [a]
    | some b => (tableChainAddrs d fuel b).map (a :: ·)

/-- spec-modelled lookup algorithm: traverse from the root directory table;
for each path component except the last, walk the linked directory-table
sectors of the current directory for a directory entry with the component's
name and follow its `entry_addr` to that subdirectory's head table; for the
final component, return the file entry found. -/
def spec_get_file (d : Disk) (fuel : Nat) : Nat → List (List Nat) → Option File
  | _, [] => none
  | a, [last] =>
    match tableChainAddrs d fuel a with
    | some addrs => spec_find_file d last addrs
    | none => none
  | a, c :: c2 :: rest =>
    match tableChainAddrs d fuel a with
    | some addrs =>
      match spec_find_dir d c addrs with
      | some dd => spec_get_file d fuel dd.entry_addr (c2 :: rest)
      | none => none
    | none => none

/-- spec-modelled lookup algorithm, returning the final component's directory
entry. -/
def spec_get_dir (d : Disk) (fuel : Nat) : Nat → List (List Nat) → Option Dir
  | _, [] => none
  | a, [last] =>
    match tableChainAddrs d fuel a with
    | some addrs => spec_find_dir d last addrs
    | none => none
  | a, c :: c2 :: rest =>
    match tableChainAddrs d fuel a with
    | some addrs =>
      match spec_find_dir d c addrs with
      | some dd => spec_get_dir d fuel dd.entry_addr (c2 :: rest)
      | none => none
    | none => none

/-- The in-memory table `t` agrees with its on-disk sector, as every cursor
table of the Rust code does. -/
def tsync (d : Disk) (t : FileTableSector) : Prop :=
  t.files = (FileTableSector.load d t.addr none).files ∧
  t.continuation_addr = (FileTableSector.load d t.addr none).continuation_addr ∧
  t.is_deleted = false

theorem load_addr (d : Disk) (a : Nat) (dn : Option (List Nat)) :
    (FileTableSector.load d a dn).addr = a := rfl

theorem tsync_load (d : Disk) (a : Nat) (dn : Option (List Nat)) :
    tsync d (FileTableSector.load d a dn) := ⟨rfl, rfl, rfl⟩

theorem get_file_congr (t u : FileTableSector) (h : t.files = u.files) (n : List Nat) :
    t.get_file n = u.get_file n := by
  rw [FileTableSector.get_file, FileTableSector.get_file, h]

theorem get_dir_congr (t u : FileTableSector) (h : t.files = u.files) (n : List Nat) :
    t.get_dir n = u.get_dir n := by
  rw [FileTableSector.get_dir, FileTableSector.get_dir, h]

theorem contains_congr (t u : FileTableSector) (h : t.files = u.files) (n : List Nat) :
    t.contains_object n = u.contains_object n := by
  rw [FileTableSector.contains_object, FileTableSector.contains_object, h]

theorem isSome_false_eq_none {α : Type} (o : Option α) (h : o.isSome = false) : o = none := by
  cases o with
  | none => rfl
  | some a => simp at h

theorem find?_none_mono {α : Type} (p q : α → Bool) (l : List α)
    (himp : ∀ x, q x = true → p x = true) (h : l.find? p = none) : l.find? q = none := by
  rw [List.find?_eq_none] at h ⊢
  intro x hx hq
  exact h x hx (himp x hq)

theorem contains_false_get_file_none (t : FileTableSector) (n : List Nat)
    (h : t.contains_object n = false) : t.get_file n = none := by
  rw [FileTableSector.contains_object] at h
  have hn := isSome_false_eq_none _ h
  rw [FileTableSector.get_file]
  rw [find?_none_mono _ _ t.files ?_ hn]
  · intro x hx
    cases x with
    | file f => exact hx
    | dir dd => cases hx

theorem contains_false_get_dir_none (t : FileTableSector) (n : List Nat)
    (h : t.contains_object n = false) : t.get_dir n = none := by
  rw [FileTableSector.contains_object] at h
  have hn := isSome_false_eq_none _ h
  rw [FileTableSector.get_dir]
  rw [find?_none_mono _ _ t.files ?_ hn]
  · intro x hx
    cases x with
    | file f => cases hx
    | dir dd => exact hx

/-- The number of entries named `n` in one table. -/
def tableNameCount (t : FileTableSector) (n : List Nat) : Nat :=
  (t.files.filter (fun ft => entryName ft == n)).length

/-- The number of entries named `n` across a chain. -/
def chainNameCount (d : Disk) (n : List Nat) (addrs : List Nat) : Nat :=
  (addrs.map (fun a => tableNameCount (FileTableSector.load d a none) n)).sum

theorem chainNameCount_cons (d : Disk) (n : List Nat) (a : Nat) (rest : List Nat) :
    chainNameCount d n (a :: rest) =
      tableNameCount (FileTableSector.load d a none) n + chainNameCount d n rest := by
  rw [chainNameCount, chainNameCount, List.map_cons, List.sum_cons]

theorem count_zero_contains_false (t : FileTableSector) (n : List Nat)
    (h : tableNameCount t n = 0) : t.contains_object n = false := by
  rw [tableNameCount, List.length_eq_zero, List.filter_eq_nil_iff] at h
  have hn : t.files.find? (fun el => match el with
      | .file f => f.name == n
      | .dir dd => dd.name == n) = none := by
    rw [List.find?_eq_none]
    intro x hx hp
    apply h x hx
    cases x with
    | file f => exact hp
    | dir dd => exact hp
  rw [FileTableSector.contains_object, hn]
  rfl

theorem contains_true_count_pos (t : FileTableSector) (n : List Nat)
    (h : t.contains_object n = true) : 1 ≤ tableNameCount t n := by
  rw [FileTableSector.contains_object, Option.isSome_iff_exists] at h
  obtain ⟨x, hx⟩ := h
  have hmem := List.mem_of_find?_eq_some hx
  have hp := List.find?_some hx
  have hpx : (entryName x == n) = true := by
    cases x with
    | file f => exact hp
    | dir dd => exact hp
  have hxin : x ∈ t.files.filter (fun ft => entryName ft == n) :=
    List.mem_filter.mpr ⟨hmem, hpx⟩
  rw [tableNameCount]
  exact List.length_pos.mpr (fun he => by rw [he] at hxin; cases hxin)

theorem count_zero_spec_find_file_none (d : Disk) (n : List Nat) :
    ∀ addrs, chainNameCount d n addrs = 0 → spec_find_file d n addrs = none := by
  intro addrs
  induction addrs with
  | nil => intro _; rfl
  | cons a rest ih =>
    intro h
    rw [chainNameCount_cons] at h
    rw [spec_find_file,
      contains_false_get_file_none _ _ (count_zero_contains_false _ _ (by omega))]
    exact ih (by omega)

theorem count_zero_spec_find_dir_none (d : Disk) (n : List Nat) :
    ∀ addrs, chainNameCount d n addrs = 0 → spec_find_dir d n addrs = none := by
  intro addrs
  induction addrs with
  | nil => intro _; rfl
  | cons a rest ih =>
    intro h
    rw [chainNameCount_cons] at h
    rw [spec_find_dir,
      contains_false_get_dir_none _ _ (count_zero_contains_false _ _ (by omega))]
    exact ih (by omega)

theorem walk_none_spec_find_file_none (d : Disk) (n : List Nat) :
    ∀ addrs, chain_walk_contains d n addrs = none → spec_find_file d n addrs = none := by
  intro addrs
  induction addrs with
  | nil => intro _; rfl
  | cons a rest ih =>
    intro h
    rw [chain_walk_contains] at h
    cases hc : (FileTableSector.load d a none).contains_object n with
    | true => rw [hc] at h; simp at h
    | false =>
      rw [hc] at h
      simp only [Bool.false_eq_true, if_false] at h
      rw [spec_find_file, contains_false_get_file_none _ _ hc]
      exact ih h

theorem walk_none_chain_walk_dir_none (d : Disk) (n : List Nat) :
    ∀ addrs, chain_walk_contains d n addrs = none → chain_walk_dir d n addrs = none := by
  intro addrs
  induction addrs with
  | nil => intro _; rfl
  | cons a rest ih =>
    intro h
    rw [chain_walk_contains] at h
    cases hc : (FileTableSector.load d a none).contains_object n with
    | true => rw [hc] at h; simp at h
    | false =>
      rw [hc] at h
      simp only [Bool.false_eq_true, if_false] at h
      rw [chain_walk_dir, contains_false_get_dir_none _ _ hc]
      simp only [Option.isSome_none, Bool.false_eq_true, if_false]
      exact ih h

theorem walk_none_spec_find_dir_none (d : Disk) (n : List Nat) :
    ∀ addrs, chain_walk_contains d n addrs = none → spec_find_dir d n addrs = none := by
  intro addrs
  induction addrs with
  | nil => intro _; rfl
  | cons a rest ih =>
    intro h
    rw [chain_walk_contains] at h
    cases hc : (FileTableSector.load d a none).contains_object n with
    | true => rw [hc] at h; simp at h
    | false =>
      rw [hc] at h
      simp only [Bool.false_eq_true, if_false] at h
      rw [spec_find_dir, contains_false_get_dir_none _ _ hc]
      exact ih h

theorem chain_walk_contains_mem (d : Disk) (n : List Nat) :
    ∀ addrs b, chain_walk_contains d n addrs = some b → b ∈ addrs := by
  intro addrs
  induction addrs with
  | nil => intro b h; cases h
  | cons a rest ih =>
    intro b h
    rw [chain_walk_contains] at h
    cases hc : (FileTableSector.load d a none).contains_object n with
    | true =>
      rw [hc] at h
      simp only [if_true] at h
      cases h
      exact List.mem_cons_self a rest
    | false =>
      rw [hc] at h
      simp only [Bool.false_eq_true, if_false] at h
      exact List.mem_cons_of_mem a (ih b h)

theorem chain_walk_dir_mem (d : Disk) (n : List Nat) :
    ∀ addrs b, chain_walk_dir d n addrs = some b → b ∈ addrs := by
  intro addrs
  induction addrs with
  | nil => intro b h; cases h
  | cons a rest ih =>
    intro b h
    rw [chain_walk_dir] at h
    cases hc : ((FileTableSector.load d a none).get_dir n).isSome with
    | true =>
      rw [hc] at h
      simp only [if_true] at h
      cases h
      exact List.mem_cons_self a rest
    | false =>
      rw [hc] at h
      simp only [Bool.false_eq_true, if_false] at h
      exact List.mem_cons_of_mem a (ih b h)

/-- Under chain-wide name uniqueness, the first table containing `n` at all
determines the file lookup over the whole chain. -/
theorem spec_find_file_of_first (d : Disk) (n : List Nat) :
    ∀ addrs b, chain_walk_contains d n addrs = some b →
      chainNameCount d n addrs ≤ 1 →
      spec_find_file d n addrs = (FileTableSector.load d b none).get_file n := by
  intro addrs
  induction addrs with
  | nil => intro b h; cases h
  | cons a rest ih =>
    intro b hcw hcount
    rw [chain_walk_contains] at hcw
    rw [chainNameCount_cons] at hcount
    rw [spec_find_file]
    cases hc : (FileTableSector.load d a none).contains_object n with
    | true =>
      rw [hc] at hcw
      simp only [if_true] at hcw
      cases hcw
      have hpos := contains_true_count_pos _ _ hc
      cases hgf : (FileTableSector.load d a none).get_file n with
      | some f => rfl
      | none => exact count_zero_spec_find_file_none d n rest (by omega)
    | false =>
      rw [hc] at hcw
      simp only [Bool.false_eq_true, if_false] at hcw
      rw [contains_false_get_file_none _ _ hc]
      exact ih b hcw (by omega)

/-- Under chain-wide name uniqueness, the first table containing `n` at all
determines the directory lookup over the whole chain. -/
theorem spec_find_dir_of_first (d : Disk) (n : List Nat) :
    ∀ addrs b, chain_walk_contains d n addrs = some b →
      chainNameCount d n addrs ≤ 1 →
      spec_find_dir d n addrs = (FileTableSector.load d b none).get_dir n := by
  intro addrs
  induction addrs with
  | nil => intro b h; cases h
  | cons a rest ih =>
    intro b hcw hcount
    rw [chain_walk_contains] at hcw
    rw [chainNameCount_cons] at hcount
    rw [spec_find_dir]
    cases hc : (FileTableSector.load d a none).contains_object n with
    | true =>
      rw [hc] at hcw
      simp only [if_true] at hcw
      cases hcw
      have hpos := contains_true_count_pos _ _ hc
      cases hgd : (FileTableSector.load d a none).get_dir n with
      | some dd => rfl
      | none => exact count_zero_spec_find_dir_none d n rest (by omega)
    | false =>
      rw [hc] at hcw
      simp only [Bool.false_eq_true, if_false] at hcw
      rw [contains_false_get_dir_none _ _ hc]
      exact ih b hcw (by omega)

theorem tca_of_chainOKb (d : Disk) :
    ∀ (l : List Nat) (a fuel : Nat), chainOKb d (a :: l) = true → l.length < fuel →
      tableChainAddrs d fuel a = some (a :: l) := by
  intro l
  induction l with
  | nil =>
    intro a fuel hok hlen
    match fuel, hlen with
    | fuel + 1, _ =>
      rw [chainOKb] at hok
      rw [tableChainAddrs, eq_of_beq hok]
  | cons b l' ih =>
    intro a fuel hok hlen
    match fuel, hlen with
    | fuel + 1, hlen =>
      rw [chainOKb, Bool.and_eq_true] at hok
      rw [tableChainAddrs, eq_of_beq hok.1]
      show Option.map (fun x => a :: x) (tableChainAddrs d fuel b) = some (a :: b :: l')
      rw [ih b fuel hok.2 (by simp at hlen ⊢; omega)]
      rfl

/-- Characterization of the `while !contains_object` loop over a chain: it
returns `None` exactly when no chain table contains `obj`, and otherwise an
in-sync copy of the first chain table that does. -/
theorem walkUntilContains_eq (d : Disk) (obj : List Nat) (dn : Option (List Nat)) :
    ∀ (l : List Nat) (t : FileTableSector) (fw : Nat),
      tsync d t → chainOKb d (t.addr :: l) = true → l.length < fw →
      (chain_walk_contains d obj (t.addr :: l) = none →
        walkUntilContains d obj dn fw t = .ok none) ∧
      (∀ x, chain_walk_contains d obj (t.addr :: l) = some x →
        ∃ t', walkUntilContains d obj dn fw t = .ok (some t') ∧ tsync d t' ∧ t'.addr = x) := by
  intro l
  induction l with
  | nil =>
    intro t fw hsync hchain hfw
    match fw, hfw with
    | fw + 1, _ =>
    rw [chainOKb] at hchain
    have hcont : t.contains_object obj
        = (FileTableSector.load d t.addr none).contains_object obj :=
      contains_congr _ _ hsync.1 obj
    constructor
    · intro hcw
      rw [chain_walk_contains] at hcw
      cases hc : (FileTableSector.load d t.addr none).contains_object obj with
      | true => rw [hc] at hcw; simp at hcw
      | false =>
        rw [walkUntilContains, hcont, hc]
        simp only [Bool.false_eq_true, if_false]
        rw [hsync.2.1, eq_of_beq hchain]
    · intro x hcw
      rw [chain_walk_contains] at hcw
      cases hc : (FileTableSector.load d t.addr none).contains_object obj with
      | true =>
        rw [hc] at hcw
        simp only [if_true, Option.some.injEq] at hcw
        refine ⟨t, ?_, hsync, hcw⟩
        rw [walkUntilContains, hcont, hc]
        simp
      | false =>
        rw [hc] at hcw
        simp [chain_walk_contains] at hcw
  | cons b l' ih =>
    intro t fw hsync hchain hfw
    match fw, hfw with
    | fw + 1, hfw =>
    rw [chainOKb, Bool.and_eq_true] at hchain
    have hcont : t.contains_object obj
        = (FileTableSector.load d t.addr none).contains_object obj :=
      contains_congr _ _ hsync.1 obj
    have hrec := ih (FileTableSector.load d b dn) fw (tsync_load d b dn) hchain.2
      (by simp at hfw ⊢; omega)
    constructor
    · intro hcw
      rw [chain_walk_contains] at hcw
      cases hc : (FileTableSector.load d t.addr none).contains_object obj with
      | true => rw [hc] at hcw; simp at hcw
      | false =>
        rw [hc] at hcw
        simp only [Bool.false_eq_true, if_false] at hcw
        rw [walkUntilContains, hcont, hc]
        simp only [Bool.false_eq_true, if_false]
        rw [hsync.2.1, eq_of_beq hchain.1]
        exact hrec.1 hcw
    · intro x hcw
      rw [chain_walk_contains] at hcw
      cases hc : (FileTableSector.load d t.addr none).contains_object obj with
      | true =>
        rw [hc] at hcw
        simp only [if_true, Option.some.injEq] at hcw
        refine ⟨t, ?_, hsync, hcw⟩
        rw [walkUntilContains, hcont, hc]
        simp
      | false =>
        rw [hc] at hcw
        simp only [Bool.false_eq_true, if_false] at hcw
        obtain ⟨t', hwalk, hs', ha'⟩ := hrec.2 x hcw
        refine ⟨t', ?_, hs', ha'⟩
        rw [walkUntilContains, hcont, hc]
        simp only [Bool.false_eq_true, if_false]
        rw [hsync.2.1, eq_of_beq hchain.1]
        exact hwalk

/-- Characterization of the `while get_dir(dir).is_none()` loop over a
chain. -/
theorem walkUntilDir_eq (d : Disk) (c : List Nat) :
    ∀ (l : List Nat) (t : FileTableSector) (fw : Nat),
      tsync d t → chainOKb d (t.addr :: l) = true → l.length < fw →
      (chain_walk_dir d c (t.addr :: l) = none →
        walkUntilDir d c fw t = .ok none) ∧
      (∀ x, chain_walk_dir d c (t.addr :: l) = some x →
        ∃ t', walkUntilDir d c fw t = .ok (some t') ∧ tsync d t' ∧ t'.addr = x) := by
  intro l
  induction l with
  | nil =>
    intro t fw hsync hchain hfw
    match fw, hfw with
    | fw + 1, _ =>
    rw [chainOKb] at hchain
    have hgd : t.get_dir c = (FileTableSector.load d t.addr none).get_dir c :=
      get_dir_congr _ _ hsync.1 c
    constructor
    · intro hcw
      rw [chain_walk_dir] at hcw
      cases hc : ((FileTableSector.load d t.addr none).get_dir c).isSome with
      | true => rw [hc] at hcw; simp at hcw
      | false =>
        rw [walkUntilDir, hgd, hc]
        simp only [Bool.false_eq_true, if_false]
        rw [hsync.2.1, eq_of_beq hchain]
    · intro x hcw
      rw [chain_walk_dir] at hcw
      cases hc : ((FileTableSector.load d t.addr none).get_dir c).isSome with
      | true =>
        rw [hc] at hcw
        simp only [if_true, Option.some.injEq] at hcw
        refine ⟨t, ?_, hsync, hcw⟩
        rw [walkUntilDir, hgd, hc]
        simp
      | false =>
        rw [hc] at hcw
        simp [chain_walk_dir] at hcw
  | cons b l' ih =>
    intro t fw hsync hchain hfw
    match fw, hfw with
    | fw + 1, hfw =>
    rw [chainOKb, Bool.and_eq_true] at hchain
    have hgd : t.get_dir c = (FileTableSector.load d t.addr none).get_dir c :=
      get_dir_congr _ _ hsync.1 c
    have hrec := ih (FileTableSector.load d b t.directory_name) fw
      (tsync_load d b t.directory_name) hchain.2 (by simp at hfw ⊢; omega)
    constructor
    · intro hcw
      rw [chain_walk_dir] at hcw
      cases hc : ((FileTableSector.load d t.addr none).get_dir c).isSome with
      | true => rw [hc] at hcw; simp at hcw
      | false =>
        rw [hc] at hcw
        simp only [Bool.false_eq_true, if_false] at hcw
        rw [walkUntilDir, hgd, hc]
        simp only [Bool.false_eq_true, if_false]
        rw [hsync.2.1, eq_of_beq hchain.1]
        exact hrec.1 hcw
    · intro x hcw
      rw [chain_walk_dir] at hcw
      cases hc : ((FileTableSector.load d t.addr none).get_dir c).isSome with
      | true =>
        rw [hc] at hcw
        simp only [if_true, Option.some.injEq] at hcw
        refine ⟨t, ?_, hsync, hcw⟩
        rw [walkUntilDir, hgd, hc]
        simp
      | false =>
        rw [hc] at hcw
        simp only [Bool.false_eq_true, if_false] at hcw
        obtain ⟨t', hwalk, hs', ha'⟩ := hrec.2 x hcw
        refine ⟨t', ?_, hs', ha'⟩
        rw [walkUntilDir, hgd, hc]
        simp only [Bool.false_eq_true, if_false]
        rw [hsync.2.1, eq_of_beq hchain.1]
        exact hwalk

theorem spec_find_dir_of_walk (d : Disk) (c : List Nat) :
    ∀ addrs b, chain_walk_dir d c addrs = some b →
      spec_find_dir d c addrs = (FileTableSector.load d b none).get_dir c := by
  intro addrs
  induction addrs with
  | nil => intro b h; cases h
  | cons a rest ih =>
    intro b hcw
    rw [chain_walk_dir] at hcw
    rw [spec_find_dir]
    cases hc : ((FileTableSector.load d a none).get_dir c).isSome with
    | true =>
      rw [hc] at hcw
      simp only [if_true, Option.some.injEq] at hcw
      cases hcw
      obtain ⟨dd, hdd⟩ := Option.isSome_iff_exists.mp hc
      rw [hdd]
    | false =>
      rw [hc] at hcw
      simp only [Bool.false_eq_true, if_false] at hcw
      rw [isSome_false_eq_none _ hc]
      exact ih b hcw

theorem getLastD_cons_of_ne {α : Type} (a : α) (l : List α) (d1 d2 : α) (h : l ≠ []) :
    (a :: l).getLastD d1 = l.getLastD d2 := by
  obtain ⟨b, m, rfl⟩ := List.exists_cons_of_ne_nil h
  rw [List.getLastD_eq_getLast? d1, List.getLastD_eq_getLast? d2, List.getLast?_cons_cons,
    List.getLast?_eq_getLast (b :: m) (by simp)]
  rfl

/-- Projecting `get_table_with_object`'s result through a final
`get_file(path.last)`, as `FileSystem::get_file` does. -/
def fileOf (last : List Nat) : Res (Option FileTableSector) → Res (Option File)
  | .ok (some tb) => .ok (tb.get_file last)
  | .ok none => .ok none
  | .panic => .panic
  | .oot => .oot

/-- Projecting through a final `get_dir(path.last)`, as `FileSystem::get_dir`
does. -/
def dirOf (last : List Nat) : Res (Option FileTableSector) → Res (Option Dir)
  | .ok (some tb) => .ok (tb.get_dir last)
  | .ok none => .ok none
  | .panic => .panic
  | .oot => .oot

theorem get_file_eq_fileOf (fs : FileSystem) (d : Disk) (fuel : Nat)
    (path : List (List Nat)) :
    fs.get_file d fuel path
      = fileOf (path.getLastD []) (fs.get_table_with_object d fuel path) := by
  rw [FileSystem.get_file]
  cases fs.get_table_with_object d fuel path with
  | ok o => cases o <;> rfl
  | panic => rfl
  | oot => rfl

theorem get_dir_eq_dirOf (fs : FileSystem) (d : Disk) (fuel : Nat)
    (path : List (List Nat)) :
    fs.get_dir d fuel path
      = dirOf (path.getLastD []) (fs.get_table_with_object d fuel path) := by
  rw [FileSystem.get_dir]
  cases fs.get_table_with_object d fuel path with
  | ok o => cases o <;> rfl
  | panic => rfl
  | oot => rfl

theorem gtwoAux_cons_found (d : Disk) (fuel : Nat) (obj : List Nat)
    (rest : List (List Nat)) (t : FileTableSector) (dn : Option (List Nat))
    (t' : FileTableSector)
    (hwalk : walkUntilContains d obj dn fuel t = .ok (some t')) :
    gtwoAux d fuel (obj :: rest) t dn =
      if rest.isEmpty then .ok (some t')
      else
        match t'.get_dir obj with
        | some new_dir =>
          gtwoAux d fuel rest (FileTableSector.load d new_dir.entry_addr (some obj)) (some obj)
        | none => .ok (some t') := by
  rw [gtwoAux, hwalk]

theorem gtwoAux_cons_none (d : Disk) (fuel : Nat) (obj : List Nat)
    (rest : List (List Nat)) (t : FileTableSector) (dn : Option (List Nat))
    (hwalk : walkUntilContains d obj dn fuel t = .ok none) :
    gtwoAux d fuel (obj :: rest) t dn = .ok none := by
  rw [gtwoAux, hwalk]

/-- A clean lookup: every chain visited while resolving `path` from head
sector `a` closes within `fuel` links; every non-final component that is
present at all first appears as a directory entry; the final component's
name occurs at most once across its directory's chain. -/
inductive CleanLookup (d : Disk) (fuel : Nat) : Nat → List (List Nat) → Prop where
  | final (a : Nat) (last : List Nat) (l : List Nat)
      (hc : chainOKb d (a :: l) = true)
      (hlen : l.length < fuel)
      (huniq : chainNameCount d last (a :: l) ≤ 1) :
      CleanLookup d fuel a [last]
  | stop (a : Nat) (c : List Nat) (rest : List (List Nat)) (l : List Nat)
      (hrest : rest ≠ [])
      (hc : chainOKb d (a :: l) = true)
      (hlen : l.length < fuel)
      (habsent : chain_walk_contains d c (a :: l) = none) :
      CleanLookup d fuel a (c :: rest)
  | step (a : Nat) (c : List Nat) (rest : List (List Nat)) (l : List Nat) (b : Nat) (dd : Dir)
      (hrest : rest ≠ [])
      (hc : chainOKb d (a :: l) = true)
      (hlen : l.length < fuel)
      (hclean : chain_walk_contains d c (a :: l) = chain_walk_dir d c (a :: l))
      (hfound : chain_walk_contains d c (a :: l) = some b)
      (hdd : (FileTableSector.load d b none).get_dir c = some dd)
      (htail : CleanLookup d fuel dd.entry_addr rest) :
      CleanLookup d fuel a (c :: rest)

/-- On a clean lookup, `get_table_with_object` composed with the final
projection agrees with the spec's lookup algorithm, both for files and for
directories. -/
theorem gtwoAux_spec (d : Disk) (fuel : Nat) :
    ∀ (path : List (List Nat)) (a : Nat), CleanLookup d fuel a path →
      ∀ (t : FileTableSector) (dn : Option (List Nat)), tsync d t → t.addr = a →
      fileOf (path.getLastD []) (gtwoAux d fuel path t dn)
          = .ok (spec_get_file d fuel a path) ∧
      dirOf (path.getLastD []) (gtwoAux d fuel path t dn)
          = .ok (spec_get_dir d fuel a path) := by
  intro path a h
  induction h with
  | final a last l hc hlen huniq =>
    intro t dn hsync haddr
    subst haddr
    have hwalk := walkUntilContains_eq d last dn l t fuel hsync hc hlen
    have htca := tca_of_chainOKb d l t.addr fuel hc hlen
    cases hcw : chain_walk_contains d last (t.addr :: l) with
    | none =>
      rw [gtwoAux_cons_none d fuel last [] t dn (hwalk.1 hcw)]
      constructor
      · show Res.ok none = .ok (spec_get_file d fuel t.addr [last])
        rw [spec_get_file, htca]
        show Res.ok none = .ok (spec_find_file d last (t.addr :: l))
        rw [walk_none_spec_find_file_none d last _ hcw]
      · show Res.ok none = .ok (spec_get_dir d fuel t.addr [last])
        rw [spec_get_dir, htca]
        show Res.ok none = .ok (spec_find_dir d last (t.addr :: l))
        rw [walk_none_spec_find_dir_none d last _ hcw]
    | some b =>
      obtain ⟨t', hw, hs', ha'⟩ := hwalk.2 b hcw
      rw [gtwoAux_cons_found d fuel last [] t dn t' hw]
      simp only [List.isEmpty_nil, if_true]
      constructor
      · show Res.ok (t'.get_file last) = .ok (spec_get_file d fuel t.addr [last])
        rw [spec_get_file, htca]
        show Res.ok (t'.get_file last) = .ok (spec_find_file d last (t.addr :: l))
        rw [spec_find_file_of_first d last _ b hcw huniq,
          get_file_congr t' (FileTableSector.load d b none) (by rw [hs'.1, ha']) last]
      · show Res.ok (t'.get_dir last) = .ok (spec_get_dir d fuel t.addr [last])
        rw [spec_get_dir, htca]
        show Res.ok (t'.get_dir last) = .ok (spec_find_dir d last (t.addr :: l))
        rw [spec_find_dir_of_first d last _ b hcw huniq,
          get_dir_congr t' (FileTableSector.load d b none) (by rw [hs'.1, ha']) last]
  | stop a c rest l hrest hc hlen habsent =>
    intro t dn hsync haddr
    subst haddr
    have hwalk := walkUntilContains_eq d c dn l t fuel hsync hc hlen
    have htca := tca_of_chainOKb d l t.addr fuel hc hlen
    obtain ⟨c2, rest', rfl⟩ := List.exists_cons_of_ne_nil hrest
    rw [gtwoAux_cons_none d fuel c (c2 :: rest') t dn (hwalk.1 habsent)]
    have hfd : spec_find_dir d c (t.addr :: l) = none :=
      walk_none_spec_find_dir_none d c _ habsent
    constructor
    · show Res.ok none = .ok (spec_get_file d fuel t.addr (c :: c2 :: rest'))
      rw [spec_get_file, htca]
      show Res.ok none = .ok (match spec_find_dir d c (t.addr :: l) with
        | some dd => spec_get_file d fuel dd.entry_addr (c2 :: rest')
        | none => none)
      rw [hfd]
    · show Res.ok none = .ok (spec_get_dir d fuel t.addr (c :: c2 :: rest'))
      rw [spec_get_dir, htca]
      show Res.ok none = .ok (match spec_find_dir d c (t.addr :: l) with
        | some dd => spec_get_dir d fuel dd.entry_addr (c2 :: rest')
        | none => none)
      rw [hfd]
  | step a c rest l b dd hrest hc hlen hclean hfound hdd htail ih =>
    intro t dn hsync haddr
    subst haddr
    have hwalk := walkUntilContains_eq d c dn l t fuel hsync hc hlen
    have htca := tca_of_chainOKb d l t.addr fuel hc hlen
    obtain ⟨t', hw, hs', ha'⟩ := hwalk.2 b hfound
    rw [gtwoAux_cons_found d fuel c rest t dn t' hw,
      List.isEmpty_eq_false.mpr hrest]
    simp only [Bool.false_eq_true, if_false]
    have hgd : t'.get_dir c = some dd := by
      rw [get_dir_congr t' (FileTableSector.load d b none) (by rw [hs'.1, ha']) c, hdd]
    rw [hgd]
    have hfd : spec_find_dir d c (t.addr :: l) = some dd := by
      rw [spec_find_dir_of_walk d c _ b (hclean ▸ hfound), hdd]
    have hih := ih (FileTableSector.load d dd.entry_addr (some c)) (some c)
      (tsync_load d dd.entry_addr (some c)) (load_addr d dd.entry_addr (some c))
    obtain ⟨c2, rest', rfl⟩ := List.exists_cons_of_ne_nil hrest
    have hlast : (c :: c2 :: rest').getLastD ([] : List Nat)
        = (c2 :: rest').getLastD ([] : List Nat) :=
      getLastD_cons_of_ne c (c2 :: rest') [] [] (by simp)
    constructor
    · show fileOf ((c :: c2 :: rest').getLastD [])
          (gtwoAux d fuel (c2 :: rest')
            (FileTableSector.load d dd.entry_addr (some c)) (some c))
        = .ok (spec_get_file d fuel t.addr (c :: c2 :: rest'))
      rw [hlast, hih.1]
      show Res.ok (spec_get_file d fuel dd.entry_addr (c2 :: rest'))
        = .ok (spec_get_file d fuel t.addr (c :: c2 :: rest'))
      rw [spec_get_file, htca]
      show Res.ok (spec_get_file d fuel dd.entry_addr (c2 :: rest'))
        = .ok (match spec_find_dir d c (t.addr :: l) with
          | some dd => spec_get_file d fuel dd.entry_addr (c2 :: rest')
          | none => none)
      rw [hfd]
    · show dirOf ((c :: c2 :: rest').getLastD [])
          (gtwoAux d fuel (c2 :: rest')
            (FileTableSector.load d dd.entry_addr (some c)) (some c))
        = .ok (spec_get_dir d fuel t.addr (c :: c2 :: rest'))
      rw [hlast, hih.2]
      show Res.ok (spec_get_dir d fuel dd.entry_addr (c2 :: rest'))
        = .ok (spec_get_dir d fuel t.addr (c :: c2 :: rest'))
      rw [spec_get_dir, htca]
      show Res.ok (spec_get_dir d fuel dd.entry_addr (c2 :: rest'))
        = .ok (match spec_find_dir d c (t.addr :: l) with
          | some dd => spec_get_dir d fuel dd.entry_addr (c2 :: rest')
          | none => none)
      rw [hfd]

/-! ## C3: the lookup algorithm -/

/-- A mounted root whose first directory table holds two plain files `a`
(entry 6) and `b` (entry 5). -/
def dC3 : Disk :=
  List.replicate 7 zeroSector ++
    [(⟨7, none, none, [.file ⟨[97], 6⟩, .file ⟨[98], 5⟩], false⟩ : FileTableSector).serialize]

def fsC3 : FileSystem := ⟨7, FileTableSector.load dC3 7 none⟩

/-- Counterexample to C3 as stated: in `get_file(["a", "b"])` the non-final
component `a` names a file, not a directory, so the claimed algorithm returns
`NotFound` — the spec-modelled lookup indeed gives `none` — but
`get_table_with_object` returns the *current* table when a found non-final
component is no directory (fs.rs line 70), so the code resolves `b` in the
root table and returns the file `b`. -/
theorem C3_counterexample :
    fsC3.get_file dC3 9 [[97], [98]] = .ok (some ⟨[98], 5⟩) ∧
    spec_get_file dC3 9 7 [[97], [98]] = none ∧
    Res.ok (some (⟨[98], 5⟩ : File)) ≠ .ok (none : Option File) :=
  ⟨by decide, by decide, by decide⟩

/-- **C3 (amended).** `get_file` and `get_dir` implement the spec's lookup
algorithm — resolve every component but the last as a directory entry in the
current directory's linked table chain, follow its `entry_addr`, and return
the final component's file / directory entry or `None` — *provided* the
lookup is clean: every visited chain closes, any non-final component that is
present first appears as a directory entry, and the final component's name
occurs at most once in its directory's chain.  (Without cleanliness the code
diverges from the algorithm: a non-final component naming a file makes the
code continue in the current table, see `C3_counterexample`.) -/
theorem C3_lookup_follows_spec (fs : FileSystem) (d : Disk) (fuel : Nat)
    (path : List (List Nat))
    (hsync : tsync d fs.entry_table)
    (hclean : CleanLookup d fuel fs.entry_table.addr path) :
    fs.get_file d fuel path = .ok (spec_get_file d fuel fs.entry_table.addr path) ∧
    fs.get_dir d fuel path = .ok (spec_get_dir d fuel fs.entry_table.addr path) := by
  have h := gtwoAux_spec d fuel path fs.entry_table.addr hclean fs.entry_table none hsync rfl
  rw [get_file_eq_fileOf, get_dir_eq_dirOf]
  exact h

/-- A two-level layout: the root table (sector 7) holds directory `d`
(head table 6), which holds file `f` (entry 5). -/
def dW3 : Disk :=
  List.replicate 6 zeroSector ++
    [(⟨6, none, none, [.file ⟨[102], 5⟩], false⟩ : FileTableSector).serialize,
     (⟨7, none, none, [.dir ⟨[100], 6⟩], false⟩ : FileTableSector).serialize]

def fsW3 : FileSystem := ⟨7, FileTableSector.load dW3 7 none⟩

theorem C3_lookup_follows_spec_witness :
    fsW3.get_file dW3 9 [[100], [102]]
        = .ok (spec_get_file dW3 9 fsW3.entry_table.addr [[100], [102]]) ∧
    fsW3.get_dir dW3 9 [[100], [102]]
        = .ok (spec_get_dir dW3 9 fsW3.entry_table.addr [[100], [102]]) :=
  C3_lookup_follows_spec fsW3 dW3 9 [[100], [102]] ⟨rfl, rfl, rfl⟩
    (CleanLookup.step 7 [100] [[102]] [] 7 ⟨[100], 6⟩ (by decide) (by decide) (by decide)
      (by decide) (by decide) (by decide)
      (CleanLookup.final 6 [102] [] (by decide) (by decide) (by decide)))

/-! ## Serialize/load round trip for table sectors -/

/-- The target sector address of a directory entry. -/
def entryAddrOf : FileType → Nat
  | .file f => f.entry_addr
  | .dir dd => dd.entry_addr

/-- Byte `k` (`k < 63`) of a directory slot as `update_physical_drive` writes
it: the NUL-padded name, the type byte at offset 58, the big-endian entry
address at offsets 59-62. -/
def slotByte (ft : FileType) (k : Nat) : Nat :=
  if k < 58 then (entryName ft).getD k 0
  else if k = 58 then (match ft with | .file _ => 0 | .dir _ => 1)
  else (be32 (entryAddrOf ft)).getD (k - 59) 0

/-- A directory entry the on-disk slot format represents faithfully. -/
def wfEntry (ft : FileType) : Prop :=
  entryName ft ≠ [] ∧ (entryName ft).length ≤ 58 ∧
  (∀ b ∈ entryName ft, b ≠ 0 ∧ b < 256) ∧
  entryAddrOf ft ≠ 0 ∧ entryAddrOf ft < 2 ^ 32

/-- A continuation field whose 32-bit big-endian encoding round-trips. -/
def contOK : Option Nat → Prop
  | none => True
  | some c => 0 < c ∧ c < 2 ^ 32

instance wfEntry_decidable (ft : FileType) : Decidable (wfEntry ft) := by
  unfold wfEntry
  infer_instance

instance contOK_decidable (o : Option Nat) : Decidable (contOK o) := by
  unfold contOK
  cases o <;> infer_instance

theorem getD_eq_zero_of_le (l : List Nat) (i : Nat) (h : l.length ≤ i) : l.getD i 0 = 0 := by
  rw [List.getD_eq_getElem?_getD, List.getElem?_eq_none h]
  rfl

theorem writeSlot_getD_at (buf : List Nat) (index k : Nat) (ft : FileType)
    (hlen : buf.length = 512) (hk : k < 63) (hbound : index + 63 ≤ 512)
    (hwf : (entryName ft).length ≤ 58)
    (hbg : ∀ m, index ≤ m → buf.getD m 0 = 0) :
    (writeSlot buf index ft).getD (index + k) 0 = slotByte ft k := by
  cases ft with
  | file f =>
    have hw : f.name.length ≤ 58 := hwf
    rw [writeSlot]
    by_cases h59 : k < 59
    · rw [listWrite_getD_lt _ _ _ _ (by omega)]
      by_cases hnm : k < f.name.length
      · rw [listWrite_getD_at f.name buf index k hnm (by omega),
          slotByte, if_pos (by omega)]
        rfl
      · rw [listWrite_getD_ge f.name buf index _ (by omega), hbg _ (by omega), slotByte]
        by_cases h58 : k < 58
        · rw [if_pos h58]
          show (0 : Nat) = f.name.getD k 0
          rw [getD_eq_zero_of_le _ _ (by omega)]
        · rw [if_neg h58, if_pos (by omega)]
    · have harith : index + k = (index + 59) + (k - 59) := by omega
      rw [harith, listWrite_getD_at (be32 f.entry_addr) _ (index + 59) (k - 59)
        (by simp [be32]; omega) (by rw [listWrite_length, hlen]; omega),
        slotByte, if_neg (by omega), if_neg (by omega)]
      rfl
  | dir dd =>
    have hw : dd.name.length ≤ 58 := hwf
    rw [writeSlot]
    by_cases h59 : k < 59
    · rw [listWrite_getD_lt _ _ _ _ (by omega)]
      by_cases h58 : k = 58
      · subst h58
        rw [getD_set_self _ _ _ (by rw [listWrite_length, hlen]; omega),
          slotByte, if_neg (by omega), if_pos rfl]
      · rw [getD_set_ne _ _ _ _ (by omega)]
        by_cases hnm : k < dd.name.length
        · rw [listWrite_getD_at dd.name buf index k hnm (by omega),
            slotByte, if_pos (by omega)]
          rfl
        · rw [listWrite_getD_ge dd.name buf index _ (by omega), hbg _ (by omega),
            slotByte, if_pos (by omega)]
          show (0 : Nat) = dd.name.getD k 0
          rw [getD_eq_zero_of_le _ _ (by omega)]
    · have harith : index + k = (index + 59) + (k - 59) := by omega
      rw [harith, listWrite_getD_at (be32 dd.entry_addr) _ (index + 59) (k - 59)
        (by simp [be32]; omega) (by rw [List.length_set, listWrite_length, hlen]; omega),
        slotByte, if_neg (by omega), if_neg (by omega)]
      rfl

theorem writeSlot_getD_ge63 (buf : List Nat) (index : Nat) (ft : FileType)
    (hwf : (entryName ft).length ≤ 58) (m : Nat) (hm : index + 63 ≤ m) :
    (writeSlot buf index ft).getD m 0 = buf.getD m 0 := by
  cases ft with
  | file f =>
    have hw : f.name.length ≤ 58 := hwf
    rw [writeSlot, listWrite_getD_ge _ _ _ _ (by simp [be32]; omega),
      listWrite_getD_ge _ _ _ _ (by omega)]
  | dir dd =>
    have hw : dd.name.length ≤ 58 := hwf
    rw [writeSlot, listWrite_getD_ge _ _ _ _ (by simp [be32]; omega),
      getD_set_ne _ _ _ _ (by omega),
      listWrite_getD_ge _ _ _ _ (by omega)]

theorem slotsFold_getD_slot : ∀ (fts : List FileType) (buf : List Nat) (idx : Nat),
    buf.length = 512 → idx + 63 * fts.length ≤ 508 →
    (∀ m, idx ≤ m → buf.getD m 0 = 0) →
    (∀ ft ∈ fts, (entryName ft).length ≤ 58) →
    ∀ j (hj : j < fts.length), ∀ k, k < 63 →
      ((fts.foldl (fun (acc : List Nat × Nat) ft =>
        (writeSlot acc.1 acc.2 ft, acc.2 + 63)) (buf, idx)).1).getD (idx + 63 * j + k) 0
        = slotByte (fts.get ⟨j, hj⟩) k := by
  intro fts
  induction fts with
  | nil => intro buf idx _ _ _ _ j hj; exact absurd hj (Nat.not_lt_zero j)
  | cons ft fts ih =>
    intro buf idx hlen hbound hbg hwf j hj k hk
    rw [List.foldl_cons]
    simp only [List.length_cons] at hbound hj
    match j with
    | 0 =>
      rw [slotsFold_getD_lt _ _ _ _ (show idx + 63 * 0 + k < idx + 63 by omega)]
      have harith : idx + 63 * 0 + k = idx + k := by omega
      rw [harith, writeSlot_getD_at buf idx k ft hlen hk (by omega)
        (hwf ft (List.mem_cons_self ft fts)) hbg]
      rfl
    | j + 1 =>
      have harith : idx + 63 * (j + 1) + k = (idx + 63) + 63 * j + k := by omega
      rw [harith, ih (writeSlot buf idx ft) (idx + 63)
        (by rw [writeSlot_length, hlen]) (by omega)
        (fun m hm => by
          rw [writeSlot_getD_ge63 buf idx ft (hwf ft (List.mem_cons_self ft fts)) m hm]
          exact hbg m (by omega))
        (fun x hx => hwf x (List.mem_cons_of_mem ft hx))
        j (by omega) k hk]
      rfl

theorem slotsFold_getD_ge : ∀ (fts : List FileType) (buf : List Nat) (idx : Nat),
    (∀ m, idx ≤ m → buf.getD m 0 = 0) →
    (∀ ft ∈ fts, (entryName ft).length ≤ 58) →
    ∀ m, idx + 63 * fts.length ≤ m →
      ((fts.foldl (fun (acc : List Nat × Nat) ft =>
        (writeSlot acc.1 acc.2 ft, acc.2 + 63)) (buf, idx)).1).getD m 0 = 0 := by
  intro fts
  induction fts with
  | nil => intro buf idx hbg _ m hm; exact hbg m (by omega)
  | cons ft fts ih =>
    intro buf idx hbg hwf m hm
    rw [List.foldl_cons]
    simp only [List.length_cons] at hm
    exact ih (writeSlot buf idx ft) (idx + 63)
      (fun m2 hm2 => by
        rw [writeSlot_getD_ge63 buf idx ft (hwf ft (List.mem_cons_self ft fts)) m2 hm2]
        exact hbg m2 (by omega))
      (fun x hx => hwf x (List.mem_cons_of_mem ft hx))
      m (by omega)

theorem getD_replicate_zero (p q : Nat) : (List.replicate p 0).getD q 0 = 0 := by
  rw [List.getD_eq_getElem?_getD, List.getElem?_replicate]
  by_cases h : q < p <;> simp [h]

theorem parseName_padded (nm : List Nat) (pad : Nat) (h : ∀ b ∈ nm, b ≠ 0) :
    parseName (nm ++ List.replicate pad 0) = nm := by
  induction nm with
  | nil =>
    cases pad with
    | zero => rfl
    | succ p =>
      rw [parseName, List.nil_append, List.replicate_succ, List.takeWhile_cons]
      simp
  | cons b bs ih =>
    rw [parseName, List.cons_append, List.takeWhile_cons,
      if_pos (by simp [h b (List.mem_cons_self b bs)])]
    show b :: parseName (bs ++ List.replicate pad 0) = b :: bs
    rw [ih (fun x hx => h x (List.mem_cons_of_mem b hx))]

theorem parseSlot_eq_entry (db : List Nat) (i : Nat) (ft : FileType)
    (hlen : 63 * i + 63 ≤ db.length)
    (hwf : wfEntry ft)
    (hbytes : ∀ k, k < 63 → db.getD (63 * i + k) 0 = slotByte ft k) :
    parseSlot db i = some ft := by
  obtain ⟨hne, hlen58, hbs, had0, had32⟩ := hwf
  have hfb : ∀ k, k < 63 → ((db.drop (i * 63)).take 63).getD k 0 = slotByte ft k := by
    intro k hk
    rw [getD_take _ _ _ hk, getD_drop, Nat.mul_comm i 63]
    exact hbytes k hk
  have hsb : ∀ k, 59 ≤ k → k < 63 → slotByte ft k = (be32 (entryAddrOf ft)).getD (k - 59) 0 := by
    intro k h1 h2
    rw [slotByte.eq_def, if_neg (by omega), if_neg (by omega)]
  have haddr : decBE32 (((db.drop (i * 63)).take 63).getD 59 0)
      (((db.drop (i * 63)).take 63).getD 60 0)
      (((db.drop (i * 63)).take 63).getD 61 0)
      (((db.drop (i * 63)).take 63).getD 62 0) = entryAddrOf ft := by
    rw [hfb 59 (by omega), hfb 60 (by omega), hfb 61 (by omega), hfb 62 (by omega),
      hsb 59 (by omega) (by omega), hsb 60 (by omega) (by omega),
      hsb 61 (by omega) (by omega), hsb 62 (by omega) (by omega)]
    norm_num
    simp only [be32, List.getD]
    simpa using decBE32_be32 had32
  have hname : parseName (((db.drop (i * 63)).take 63).take 58) = entryName ft := by
    have hext : ((db.drop (i * 63)).take 63).take 58
        = entryName ft ++ List.replicate (58 - (entryName ft).length) 0 := by
      apply sector_ext
      · rw [List.length_take, List.length_take, List.length_drop,
          List.length_append, List.length_replicate]
        omega
      · intro j hj
        rw [List.length_take, List.length_take, List.length_drop] at hj
        rw [getD_take _ _ _ (by omega), hfb j (by omega), slotByte.eq_def, if_pos (by omega)]
        by_cases hjn : j < (entryName ft).length
        · rw [getD_append_left _ _ _ hjn]
        · rw [getD_eq_zero_of_le (entryName ft) j (by omega)]
          have harith : j = (entryName ft).length + (j - (entryName ft).length) := by omega
          rw [harith, getD_append_right, getD_replicate_zero]
    rw [hext, parseName_padded _ _ (fun b hb => (hbs b hb).1)]
  simp only [parseSlot]
  rw [haddr, if_pos had0, hname]
  cases ft with
  | file f =>
    have ht : ((db.drop (i * 63)).take 63).getD 58 0 = 0 := by
      rw [hfb 58 (by omega), slotByte, if_neg (by omega), if_pos rfl]
    rw [ht, if_pos rfl]
    rfl
  | dir dd =>
    have ht : ((db.drop (i * 63)).take 63).getD 58 0 = 1 := by
      rw [hfb 58 (by omega), slotByte, if_neg (by omega), if_pos rfl]
    rw [ht, if_neg (by omega)]
    rfl

theorem parseSlot_none_of_zero (db : List Nat) (i : Nat)
    (hbytes : ∀ k, k < 63 → db.getD (63 * i + k) 0 = 0) :
    parseSlot db i = none := by
  have hfb : ∀ k, k < 63 → ((db.drop (i * 63)).take 63).getD k 0 = 0 := by
    intro k hk
    rw [getD_take _ _ _ hk, getD_drop, Nat.mul_comm i 63]
    exact hbytes k hk
  simp only [parseSlot]
  rw [hfb 59 (by omega), hfb 60 (by omega), hfb 61 (by omega), hfb 62 (by omega),
    if_neg (show ¬decBE32 0 0 0 0 ≠ 0 by decide)]

theorem filterMap_range_aux : ∀ (n s : Nat) (fts : List FileType) (g : Nat → Option FileType),
    fts.length ≤ n →
    (∀ j (hj : j < fts.length), g (s + j) = some (fts.get ⟨j, hj⟩)) →
    (∀ j, fts.length ≤ j → j < n → g (s + j) = none) →
    (List.range' s n).filterMap g = fts := by
  intro n
  induction n with
  | zero =>
    intro s fts g hlen _ _
    have hnil : fts = [] := List.eq_nil_of_length_eq_zero (by omega)
    subst hnil
    rfl
  | succ n ih =>
    intro s fts g hlen hsome hnone
    rw [List.range'_succ, List.filterMap_cons]
    cases fts with
    | nil =>
      have h0 : g s = none := by
        have h := hnone 0 (by simp) (by omega)
        simpa using h
      rw [h0]
      apply ih (s + 1) [] g (by simp) (fun j hj => absurd hj (by simp))
      intro j _ hj
      have harith : (s + 1) + j = s + (j + 1) := by omega
      rw [harith]
      exact hnone (j + 1) (by simp) (by omega)
    | cons ft fts =>
      have h0 : g s = some ft := by
        have h := hsome 0 (by simp)
        simpa using h
      rw [h0]
      show ft :: (List.range' (s + 1) n).filterMap g = ft :: fts
      rw [ih (s + 1) fts g (by simp at hlen; omega)
        (fun j hj => by
          have harith : (s + 1) + j = s + (j + 1) := by omega
          rw [harith]
          exact hsome (j + 1) (by simp; omega))
        (fun j hj hjn => by
          have harith : (s + 1) + j = s + (j + 1) := by omega
          rw [harith]
          exact hnone (j + 1) (by simp; omega) (by omega))]

theorem filterMap_range8 (g : Nat → Option FileType) (fts : List FileType)
    (hlen : fts.length ≤ 8)
    (hsome : ∀ j (hj : j < fts.length), g j = some (fts.get ⟨j, hj⟩))
    (hnone : ∀ j, fts.length ≤ j → j < 8 → g j = none) :
    (List.range 8).filterMap g = fts := by
  rw [List.range_eq_range']
  exact filterMap_range_aux 8 0 fts g hlen
    (fun j hj => by rw [Nat.zero_add]; exact hsome j hj)
    (fun j h1 h2 => by rw [Nat.zero_add]; exact hnone j h1 h2)

theorem serialize_getD_cont_none (t : FileTableSector) (j : Nat)
    (hc : t.continuation_addr = none) (hj : j < 4) (hdel : t.is_deleted = false) :
    t.serialize.getD j 0 = 0 := by
  rw [FileTableSector.serialize, hc]
  simp only [hdel, Bool.false_eq_true, if_false]
  rw [listWrite_getD_lt MAGIC _ 508 j (by omega), slotsFold_getD_lt _ _ _ _ hj]
  have h1 := listWrite_getD_at [0, 0, 0, 0] zeroSector 0 j (by simp; omega)
    (by rw [zeroSector_length]; omega)
  rw [Nat.zero_add] at h1
  rw [h1]
  interval_cases j <;> rfl

/-- Reloading a sector freshly written from `t.serialize` recovers `t`'s
continuation and file list exactly, for representable tables. -/
theorem load_of_serialize (d : Disk) (a : Nat) (t : FileTableSector) (dn : Option (List Nat))
    (hread : diskRead d a = t.serialize)
    (hdel : t.is_deleted = false)
    (hlen8 : t.files.length ≤ 8)
    (hwf : ∀ ft ∈ t.files, wfEntry ft)
    (hcont : contOK t.continuation_addr) :
    FileTableSector.load d a dn = ⟨a, dn, t.continuation_addr, t.files, false⟩ := by
  have hser : t.serialize = listWrite ((t.files.foldl (fun (acc : List Nat × Nat) ft =>
      (writeSlot acc.1 acc.2 ft, acc.2 + 63)) (listWrite zeroSector 0
        (match t.continuation_addr with
         | some c => be32 c
         | none => [0, 0, 0, 0]), 4)).1) 508 MAGIC := by
    rw [FileTableSector.serialize]
    simp only [hdel, Bool.false_eq_true, if_false]
  set buf0 := listWrite zeroSector 0
      (match t.continuation_addr with
       | some c => be32 c
       | none => [0, 0, 0, 0]) with hbuf0
  set B := (t.files.foldl (fun (acc : List Nat × Nat) ft =>
      (writeSlot acc.1 acc.2 ft, acc.2 + 63)) (buf0, 4)).1 with hBdef
  have hbuf0_len : buf0.length = 512 := by
    rw [hbuf0, listWrite_length, zeroSector_length]
  have hbuf0_bg : ∀ m, 4 ≤ m → buf0.getD m 0 = 0 := by
    intro m hm
    rw [hbuf0]
    cases hc2 : t.continuation_addr with
    | some c => rw [listWrite_getD_ge _ _ _ _ (by simp [be32]; omega), zeroSector_getD]
    | none => rw [listWrite_getD_ge _ _ _ _ (by simp; omega), zeroSector_getD]
  have hwf58 : ∀ ft ∈ t.files, (entryName ft).length ≤ 58 := fun ft hft => (hwf ft hft).2.1
  have hrd : ∀ m, m < 508 → (diskRead d a).getD m 0 = B.getD m 0 := by
    intro m hm
    rw [hread, hser, listWrite_getD_lt MAGIC _ 508 m hm]
  have hco : (if decBE32 ((diskRead d a).getD 0 0) ((diskRead d a).getD 1 0)
      ((diskRead d a).getD 2 0) ((diskRead d a).getD 3 0) ≠ 0
      then some (decBE32 ((diskRead d a).getD 0 0) ((diskRead d a).getD 1 0)
        ((diskRead d a).getD 2 0) ((diskRead d a).getD 3 0)) else none)
      = t.continuation_addr := by
    cases hc2 : t.continuation_addr with
    | some c =>
      have hcc : 0 < c ∧ c < 2 ^ 32 := by
        rw [hc2] at hcont
        exact hcont
      rw [hread, serialize_getD_cont t c 0 hc2 (by omega), serialize_getD_cont t c 1 hc2 (by omega),
        serialize_getD_cont t c 2 hc2 (by omega), serialize_getD_cont t c 3 hc2 (by omega)]
      have hdec : decBE32 ((be32 c).getD 0 0) ((be32 c).getD 1 0) ((be32 c).getD 2 0)
          ((be32 c).getD 3 0) = c := by
        simp only [be32, List.getD]
        simpa using decBE32_be32 hcc.2
      rw [hdec, if_pos (by omega)]
    | none =>
      rw [hread, serialize_getD_cont_none t 0 hc2 (by omega) hdel,
        serialize_getD_cont_none t 1 hc2 (by omega) hdel,
        serialize_getD_cont_none t 2 hc2 (by omega) hdel,
        serialize_getD_cont_none t 3 hc2 (by omega) hdel,
        show decBE32 0 0 0 0 = 0 from by decide, if_neg (by omega)]
  set db := ((diskRead d a).drop 4).take 504 with hdb
  have hdb_len : db.length = 504 := by
    rw [hdb, List.length_take, List.length_drop, hread, serialize_length]
    omega
  have hdb_at : ∀ m, m < 504 → db.getD m 0 = B.getD (4 + m) 0 := by
    intro m hm
    rw [hdb, getD_take _ _ _ hm, getD_drop]
    exact hrd (4 + m) (by omega)
  have hslot : ∀ j (hj : j < t.files.length), ∀ k, k < 63 →
      db.getD (63 * j + k) 0 = slotByte (t.files.get ⟨j, hj⟩) k := by
    intro j hj k hk
    rw [hdb_at (63 * j + k) (by omega)]
    have harith : 4 + (63 * j + k) = 4 + 63 * j + k := by omega
    rw [harith, hBdef]
    exact slotsFold_getD_slot t.files buf0 4 hbuf0_len (by omega) hbuf0_bg hwf58 j hj k hk
  have hzero : ∀ j, t.files.length ≤ j → j < 8 → parseSlot db j = none := by
    intro j hj hj8
    apply parseSlot_none_of_zero
    intro k hk
    rw [hdb_at (63 * j + k) (by omega)]
    have harith : 4 + (63 * j + k) = 4 + 63 * j + k := by omega
    rw [harith, hBdef]
    exact slotsFold_getD_ge t.files buf0 4 hbuf0_bg hwf58 (4 + 63 * j + k) (by omega)
  have hfl : (List.range 8).filterMap (parseSlot db) = t.files :=
    filterMap_range8 (parseSlot db) t.files hlen8
      (fun j hj => parseSlot_eq_entry db j (t.files.get ⟨j, hj⟩) (by omega)
        (hwf _ (List.get_mem t.files j hj)) (hslot j hj))
      hzero
  simp only [FileTableSector.load]
  rw [← hdb, hfl, hco]

/-! ## Resolving the non-final components, and frame lemmas -/

/-- Clean resolution of the non-final components `p2` from head sector `a`
down to the parent directory's head table `pa`; every visited chain sector
satisfies `ok`. -/
inductive CleanDirs (d : Disk) (fuel : Nat) (ok : Nat → Prop) :
    Nat → List (List Nat) → Nat → Prop where
  | nil (a : Nat) : CleanDirs d fuel ok a [] a
  | cons (a : Nat) (c : List Nat) (rest : List (List Nat)) (l : List Nat) (b : Nat) (dd : Dir)
      (pa : Nat)
      (hc : chainOKb d (a :: l) = true)
      (hlen : l.length < fuel)
      (hok : ∀ x ∈ a :: l, ok x)
      (hclean : chain_walk_contains d c (a :: l) = chain_walk_dir d c (a :: l))
      (hfound : chain_walk_dir d c (a :: l) = some b)
      (hdd : (FileTableSector.load d b none).get_dir c = some dd)
      (htail : CleanDirs d fuel ok dd.entry_addr rest pa) :
      CleanDirs d fuel ok a (c :: rest) pa

/-- `get_table_with_object` on a path whose non-final components resolve
cleanly reduces to the walk over the parent's chain. -/
theorem gtwo_resolved (d : Disk) (fuel : Nat) (ok : Nat → Prop) :
    ∀ (p2 : List (List Nat)) (a pa : Nat), CleanDirs d fuel ok a p2 pa →
      ∀ (last : List Nat) (l : List Nat) (t : FileTableSector) (dn : Option (List Nat)),
      tsync d t → t.addr = a →
      chainOKb d (pa :: l) = true → l.length < fuel →
      (chain_walk_contains d last (pa :: l) = none →
        gtwoAux d fuel (p2 ++ [last]) t dn = .ok none) ∧
      (∀ x, chain_walk_contains d last (pa :: l) = some x →
        ∃ tb, gtwoAux d fuel (p2 ++ [last]) t dn = .ok (some tb) ∧ tsync d tb ∧ tb.addr = x) := by
  intro p2 a pa h
  induction h with
  | nil a =>
    intro last l t dn hsync haddr hpc hplen
    subst haddr
    have hwalk := walkUntilContains_eq d last dn l t fuel hsync hpc hplen
    constructor
    · intro hcw
      exact gtwoAux_cons_none d fuel last [] t dn (hwalk.1 hcw)
    · intro x hcw
      obtain ⟨t', hw, hs', ha'⟩ := hwalk.2 x hcw
      refine ⟨t', ?_, hs', ha'⟩
      have h1 := gtwoAux_cons_found d fuel last [] t dn t' hw
      rw [show (([] : List (List Nat)) ++ [last]) = [last] from rfl, h1]
      rfl
  | cons a c rest l b dd pa hc hlen hok hclean hfound hdd htail ih =>
    intro last l2 t dn hsync haddr hpc hplen
    subst haddr
    have hwalkc := walkUntilContains_eq d c dn l t fuel hsync hc hlen
    obtain ⟨t', hw, hs', ha'⟩ := hwalkc.2 b (by rw [hclean]; exact hfound)
    have hgd : t'.get_dir c = some dd := by
      rw [get_dir_congr t' (FileTableSector.load d b none) (by rw [hs'.1, ha']) c, hdd]
    have hstep : gtwoAux d fuel ((c :: rest) ++ [last]) t dn
        = gtwoAux d fuel (rest ++ [last])
            (FileTableSector.load d dd.entry_addr (some c)) (some c) := by
      rw [List.cons_append, gtwoAux_cons_found d fuel c (rest ++ [last]) t dn t' hw, hgd,
        List.isEmpty_eq_false.mpr (show rest ++ [last] ≠ [] by simp)]
      rfl
    rw [hstep]
    exact ih last l2 (FileTableSector.load d dd.entry_addr (some c)) (some c)
      (tsync_load d dd.entry_addr (some c)) (load_addr d dd.entry_addr (some c)) hpc hplen

theorem table_load_congr (d1 d2 : Disk) (a : Nat) (dn : Option (List Nat))
    (h : diskRead d1 a = diskRead d2 a) :
    FileTableSector.load d1 a dn = FileTableSector.load d2 a dn := by
  rw [FileTableSector.load, FileTableSector.load, h]

theorem chainOKb_congr (d1 d2 : Disk) : ∀ (l : List Nat),
    (∀ x ∈ l, diskRead d1 x = diskRead d2 x) →
    chainOKb d1 l = chainOKb d2 l := by
  intro l
  induction l with
  | nil => intro _; rfl
  | cons a rest ih =>
    intro h
    cases rest with
    | nil => rw [chainOKb, chainOKb, table_load_congr d1 d2 a none (h a (by simp))]
    | cons b rest2 =>
      rw [chainOKb, chainOKb, table_load_congr d1 d2 a none (h a (by simp)),
        ih (fun x hx => h x (by simp [hx]))]

/-- `chainOKb` only inspects continuation fields. -/
theorem chainOKb_congr_cont (d1 d2 : Disk) : ∀ (l : List Nat),
    (∀ x ∈ l, (FileTableSector.load d1 x none).continuation_addr
      = (FileTableSector.load d2 x none).continuation_addr) →
    chainOKb d1 l = chainOKb d2 l := by
  intro l
  induction l with
  | nil => intro _; rfl
  | cons a rest ih =>
    intro h
    cases rest with
    | nil => rw [chainOKb, chainOKb, h a (by simp)]
    | cons b rest2 =>
      rw [chainOKb, chainOKb, h a (by simp), ih (fun x hx => h x (by simp [hx]))]

theorem chain_walk_contains_congr (d1 d2 : Disk) (n : List Nat) : ∀ (l : List Nat),
    (∀ x ∈ l, diskRead d1 x = diskRead d2 x) →
    chain_walk_contains d1 n l = chain_walk_contains d2 n l := by
  intro l
  induction l with
  | nil => intro _; rfl
  | cons a rest ih =>
    intro h
    rw [chain_walk_contains, chain_walk_contains, table_load_congr d1 d2 a none (h a (by simp)),
      ih (fun x hx => h x (by simp [hx]))]

theorem chain_walk_dir_congr (d1 d2 : Disk) (n : List Nat) : ∀ (l : List Nat),
    (∀ x ∈ l, diskRead d1 x = diskRead d2 x) →
    chain_walk_dir d1 n l = chain_walk_dir d2 n l := by
  intro l
  induction l with
  | nil => intro _; rfl
  | cons a rest ih =>
    intro h
    rw [chain_walk_dir, chain_walk_dir, table_load_congr d1 d2 a none (h a (by simp)),
      ih (fun x hx => h x (by simp [hx]))]

theorem CleanDirs_congr (d1 d2 : Disk) (fuel : Nat) (ok : Nat → Prop)
    (hag : ∀ x, ok x → diskRead d1 x = diskRead d2 x) :
    ∀ a p2 pa, CleanDirs d1 fuel ok a p2 pa → CleanDirs d2 fuel ok a p2 pa := by
  intro a p2 pa h
  induction h with
  | nil a => exact CleanDirs.nil a
  | cons a c rest l b dd pa hc hlen hok hclean hfound hdd htail ih =>
    have hagl : ∀ x ∈ a :: l, diskRead d1 x = diskRead d2 x := fun x hx => hag x (hok x hx)
    refine CleanDirs.cons a c rest l b dd pa ?_ hlen hok ?_ ?_ ?_ ih
    · rw [← chainOKb_congr d1 d2 _ hagl]
      exact hc
    · rw [← chain_walk_contains_congr d1 d2 c _ hagl, ← chain_walk_dir_congr d1 d2 c _ hagl]
      exact hclean
    · rw [← chain_walk_dir_congr d1 d2 c _ hagl]
      exact hfound
    · have hb : b ∈ a :: l := chain_walk_dir_mem d1 c _ b hfound
      rw [← table_load_congr d1 d2 b none (hagl b hb)]
      exact hdd

theorem chain_walk_contains_none_of_all (d : Disk) (n : List Nat) : ∀ (l : List Nat),
    (∀ x ∈ l, (FileTableSector.load d x none).contains_object n = false) →
    chain_walk_contains d n l = none := by
  intro l
  induction l with
  | nil => intro _; rfl
  | cons a rest ih =>
    intro h
    rw [chain_walk_contains, h a (by simp)]
    simp only [Bool.false_eq_true, if_false]
    exact ih (fun x hx => h x (by simp [hx]))

theorem chainNameCount_zero_each (d : Disk) (n : List Nat) : ∀ (l : List Nat),
    chainNameCount d n l = 0 → ∀ x ∈ l, tableNameCount (FileTableSector.load d x none) n = 0 := by
  intro l
  induction l with
  | nil => intro _ x hx; cases hx
  | cons a rest ih =>
    intro h x hx
    rw [chainNameCount_cons] at h
    rcases List.mem_cons.mp hx with he | hm
    · subst he; omega
    · exact ih (by omega) x hm

/-- Under uniqueness, every chain table other than the walk's first hit does
not contain the name at all. -/
theorem walk_first_unique_others (d : Disk) (n : List Nat) : ∀ (l : List Nat) (b : Nat),
    chain_walk_contains d n l = some b →
    chainNameCount d n l ≤ 1 →
    ∀ x ∈ l, x ≠ b → (FileTableSector.load d x none).contains_object n = false := by
  intro l
  induction l with
  | nil => intro b h; cases h
  | cons a rest ih =>
    intro b hcw hcount x hx hne
    rw [chain_walk_contains] at hcw
    rw [chainNameCount_cons] at hcount
    cases hc : (FileTableSector.load d a none).contains_object n with
    | true =>
      rw [hc] at hcw
      simp only [if_true, Option.some.injEq] at hcw
      have hpos := contains_true_count_pos _ _ hc
      rcases List.mem_cons.mp hx with he | hm
      · subst he
        exact absurd hcw hne
      · exact count_zero_contains_false _ _
          (chainNameCount_zero_each d n rest (by omega) x hm)
    | false =>
      rw [hc] at hcw
      simp only [Bool.false_eq_true, if_false] at hcw
      rcases List.mem_cons.mp hx with he | hm
      · subst he; exact hc
      · exact ih b hcw (by omega) x hm hne

/-- Each table of a chain continues either nowhere or to a chain member. -/
theorem chainOKb_cont_mem (d : Disk) : ∀ (l : List Nat), chainOKb d l = true →
    ∀ x ∈ l, (FileTableSector.load d x none).continuation_addr = none ∨
      ∃ y ∈ l, (FileTableSector.load d x none).continuation_addr = some y := by
  intro l
  induction l with
  | nil => intro _ x hx; cases hx
  | cons a rest ih =>
    intro h x hx
    cases rest with
    | nil =>
      rw [chainOKb] at h
      rcases List.mem_cons.mp hx with he | hm
      · subst he; exact Or.inl (eq_of_beq h)
      · cases hm
    | cons b rest2 =>
      rw [chainOKb, Bool.and_eq_true] at h
      rcases List.mem_cons.mp hx with he | hm
      · subst he
        exact Or.inr ⟨b, by simp, eq_of_beq h.1⟩
      · rcases ih h.2 x hm with hn | ⟨y, hy, he2⟩
        · exact Or.inl hn
        · exact Or.inr ⟨y, by simp [hy], he2⟩

theorem load_files_le8 (d : Disk) (a : Nat) (dn : Option (List Nat)) :
    (FileTableSector.load d a dn).files.length ≤ 8 := by
  simp only [FileTableSector.load]
  calc (((List.range 8).filterMap
      (parseSlot (((diskRead d a).drop 4).take 504)))).length
      ≤ (List.range 8).length := List.length_filterMap_le _ _
    _ = 8 := by simp

theorem getLastD_concat_self {α : Type} (l : List α) (a x : α) :
    (l ++ [a]).getLastD x = a := by
  rw [List.getLastD_eq_getLast? x, List.getLast?_concat]
  rfl

/-! ## Data-chain removal -/

theorem dataSerialize_addr_irrel (s1 s2 : DataSector)
    (h1 : s1.continuation_addr = s2.continuation_addr) (h2 : s1.size = s2.size)
    (h3 : s1.data = s2.data) : s1.serialize = s2.serialize := by
  rw [DataSector.serialize, DataSector.serialize, h1, h2, h3]

theorem dataSerialize_zero :
    (⟨0, none, 0, List.replicate 506 0⟩ : DataSector).serialize = zeroSector := by decide

theorem dataRemove_zero (s : DataSector) (dd : Disk) :
    (s.remove dd).2 = diskWrite dd s.addr zeroSector := by
  rw [DataSector.remove]
  show DataSector.update_physical_drive _ dd = _
  rw [DataSector.update_physical_drive]
  have hs : (⟨s.addr, none, 0, List.replicate 506 0⟩ : DataSector).serialize = zeroSector := by
    rw [dataSerialize_addr_irrel ⟨s.addr, none, 0, List.replicate 506 0⟩
      ⟨0, none, 0, List.replicate 506 0⟩ rfl rfl rfl, dataSerialize_zero]
  rw [show ({ s with continuation_addr := none, data := List.replicate 506 0, size := 0 }
    : DataSector).serialize = (⟨s.addr, none, 0, List.replicate 506 0⟩ : DataSector).serialize
    from rfl, hs]

def dremoveFold (secs : List DataSector) (d : Disk) : Disk :=
  secs.foldl (fun dd s => (s.remove dd).2) d

theorem dremoveFold_def (secs : List DataSector) (d : Disk) :
    secs.foldl (fun dd s => (s.remove dd).2) d = dremoveFold secs d := rfl

theorem dremoveFold_length : ∀ (secs : List DataSector) (d : Disk),
    (dremoveFold secs d).length = d.length := by
  intro secs
  induction secs with
  | nil => intro d; rfl
  | cons s rest ih =>
    intro d
    show (dremoveFold rest ((s.remove d).2)).length = d.length
    rw [ih, dataRemove_zero, diskWrite_length]

theorem dremoveFold_unchanged : ∀ (secs : List DataSector) (d : Disk) (a : Nat),
    (∀ s ∈ secs, s.addr ≠ a) →
    diskRead (dremoveFold secs d) a = diskRead d a := by
  intro secs
  induction secs with
  | nil => intro d a _; rfl
  | cons s rest ih =>
    intro d a h
    show diskRead (dremoveFold rest ((s.remove d).2)) a = diskRead d a
    rw [ih _ _ (fun x hx => h x (by simp [hx])), dataRemove_zero,
      diskRead_diskWrite_ne _ _ _ _ (h s (by simp))]

/-! ## C7: idempotent delete -/

/-- **C7.** For an existing file path (resolved cleanly, its name unique in
the parent's chain, table sectors disjoint from the file's data chain), the
first `delete_file` returns `Success`, and an immediately repeated
`delete_file` of the same path on the resulting state returns `NotFound` and
returns the disk unchanged — exactly the state after the first call. -/
theorem C7_delete_file_idempotent (fs : FileSystem) (d : Disk) (fuel : Nat)
    (p2 : List (List Nat)) (last : List Nat) (pa : Nat) (l : List Nat) (b : Nat)
    (file : File) (secs : List DataSector) (idx : Nat)
    (hsync : tsync d fs.entry_table)
    (haddr : fs.entry_table.addr = fs.entry_sector)
    (hdirs : CleanDirs d fuel (fun x => x ∉ secs.map DataSector.addr ∧ x ≠ b)
      fs.entry_sector p2 pa)
    (hpc : chainOKb d (pa :: l) = true)
    (hplen : l.length < fuel)
    (hplt : ∀ x ∈ pa :: l, x < d.length)
    (h32 : ∀ x ∈ pa :: l, 0 < x ∧ x < 2 ^ 32)
    (hpdisj : ∀ x ∈ pa :: l, x ∉ secs.map DataSector.addr)
    (hrootA : fs.entry_sector ∉ secs.map DataSector.addr)
    (huniq : chainNameCount d last (pa :: l) ≤ 1)
    (hcw : chain_walk_contains d last (pa :: l) = some b)
    (hgf : (FileTableSector.load d b none).get_file last = some file)
    (hcoll : collectDataChain d fuel (DataSector.load d file.entry_addr) = .ok secs)
    (hWFb : ∀ ft ∈ (FileTableSector.load d b none).files, wfEntry ft)
    (hidx : (FileTableSector.load d b none).files.findIdx? (fun ft => match ft with
      | .file f => f.entry_addr == file.entry_addr
      | .dir _ => false) = some idx)
    (herase : ((FileTableSector.load d b none).files.eraseIdx idx).filter
      (fun ft => entryName ft == last) = []) :
    ∃ fs1 d2, fs.delete_file d fuel (p2 ++ [last]) = .ok (.Success, fs1, d2) ∧
      fs1.delete_file d2 fuel (p2 ++ [last]) = .ok (.NotFoundError, fs1, d2) := by
  have hbmem : b ∈ pa :: l := chain_walk_contains_mem d last _ b hcw
  have hblt : b < d.length := hplt b hbmem
  have hbA : b ∉ secs.map DataSector.addr := hpdisj b hbmem
  have hlastD : (p2 ++ [last]).getLastD ([] : List Nat) = last := getLastD_concat_self p2 last []
  obtain ⟨tb0, hg0, hsb0, hab0⟩ :=
    (gtwo_resolved d fuel _ p2 fs.entry_sector pa hdirs last l fs.entry_table none
      hsync haddr hpc hplen).2 b hcw
  have hgfile : fs.get_file d fuel (p2 ++ [last]) = .ok (some file) := by
    rw [get_file_eq_fileOf, hlastD]
    rw [show fs.get_table_with_object d fuel (p2 ++ [last])
      = gtwoAux d fuel (p2 ++ [last]) fs.entry_table none from rfl, hg0]
    show Res.ok (tb0.get_file last) = .ok (some file)
    rw [get_file_congr tb0 (FileTableSector.load d b none) (by rw [hsb0.1, hab0]) last, hgf]
  have hd1len : (dremoveFold secs d).length = d.length := dremoveFold_length secs d
  have hd1at : ∀ x, x ∉ secs.map DataSector.addr →
      diskRead (dremoveFold secs d) x = diskRead d x := by
    intro x hx
    exact dremoveFold_unchanged secs d x
      (fun s hs he => hx (he ▸ List.mem_map_of_mem DataSector.addr hs))
  have hchag : ∀ x ∈ pa :: l, diskRead (dremoveFold secs d) x = diskRead d x :=
    fun x hx => hd1at x (hpdisj x hx)
  have hdirs1 : CleanDirs (dremoveFold secs d) fuel
      (fun x => x ∉ secs.map DataSector.addr ∧ x ≠ b) fs.entry_sector p2 pa :=
    CleanDirs_congr d _ fuel _ (fun x hx => (hd1at x hx.1).symm) fs.entry_sector p2 pa hdirs
  have hpc1 : chainOKb (dremoveFold secs d) (pa :: l) = true := by
    rw [chainOKb_congr _ d _ hchag]
    exact hpc
  have hcw1 : chain_walk_contains (dremoveFold secs d) last (pa :: l) = some b := by
    rw [chain_walk_contains_congr _ d last _ hchag]
    exact hcw
  have hsync1 : tsync (dremoveFold secs d) fs.entry_table := by
    have he : FileTableSector.load (dremoveFold secs d) fs.entry_table.addr none
        = FileTableSector.load d fs.entry_table.addr none :=
      table_load_congr _ _ _ _ (by rw [haddr]; exact hd1at _ hrootA)
    exact ⟨by rw [he]; exact hsync.1, by rw [he]; exact hsync.2.1, hsync.2.2⟩
  obtain ⟨tb1, hg1, hsb1, hab1⟩ :=
    (gtwo_resolved (dremoveFold secs d) fuel _ p2 fs.entry_sector pa hdirs1 last l
      fs.entry_table none hsync1 haddr hpc1 hplen).2 b hcw1
  have hload1b : FileTableSector.load (dremoveFold secs d) b none
      = FileTableSector.load d b none := table_load_congr _ _ _ _ (hd1at b hbA)
  have htb1files : tb1.files = (FileTableSector.load d b none).files := by
    rw [hsb1.1, hab1, hload1b]
  have htb1cont : tb1.continuation_addr
      = (FileTableSector.load d b none).continuation_addr := by
    rw [hsb1.2.1, hab1, hload1b]
  have hidx1 : tb1.files.findIdx? (fun ft => match ft with
      | .file f => f.entry_addr == file.entry_addr
      | .dir _ => false) = some idx := by
    rw [htb1files]
    exact hidx
  set F1 : FileTableSector := { tb1 with files := tb1.files.eraseIdx idx } with hF1
  set d2 : Disk := F1.update_physical_drive (dremoveFold secs d) with hd2def
  set fs1 : FileSystem :=
    { fs with entry_table := FileTableSector.load d2 fs.entry_sector none } with hfs1def
  have hfirst : fs.delete_file d fuel (p2 ++ [last]) = .ok (.Success, fs1, d2) := by
    rw [FileSystem.delete_file, hgfile]
    simp only
    rw [hcoll]
    simp only [dremoveFold_def]
    rw [show fs.get_table_with_object (dremoveFold secs d) fuel (p2 ++ [last])
      = gtwoAux (dremoveFold secs d) fuel (p2 ++ [last]) fs.entry_table none from rfl, hg1]
    simp only [hidx1]
  have hd2eq : d2 = diskWrite (dremoveFold secs d) b F1.serialize := by
    rw [hd2def, FileTableSector.update_physical_drive,
      show F1.addr = tb1.addr from rfl, hab1]
  have hd2len : d2.length = d.length := by rw [hd2eq, diskWrite_length, hd1len]
  have hd2b : diskRead d2 b = F1.serialize := by
    rw [hd2eq]
    exact diskRead_diskWrite_self _ _ _ (by omega) (serialize_length F1)
  have hd2other : ∀ x, x ≠ b → diskRead d2 x = diskRead (dremoveFold secs d) x := by
    intro x hx
    rw [hd2eq, diskRead_diskWrite_ne _ _ _ _ (fun he => hx he.symm)]
  have hd2d : ∀ x, x ∉ secs.map DataSector.addr → x ≠ b → diskRead d2 x = diskRead d x := by
    intro x h1 h2
    rw [hd2other x h2, hd1at x h1]
  have hF1del : F1.is_deleted = false := hsb1.2.2
  have hF1cont : F1.continuation_addr = (FileTableSector.load d b none).continuation_addr :=
    htb1cont
  have hF1files : F1.files = (FileTableSector.load d b none).files.eraseIdx idx := by
    rw [show F1.files = tb1.files.eraseIdx idx from rfl, htb1files]
  have hload2b : FileTableSector.load d2 b none
      = ⟨b, none, F1.continuation_addr, F1.files, false⟩ :=
    load_of_serialize d2 b F1 none hd2b hF1del
      (by rw [hF1files]
          calc ((FileTableSector.load d b none).files.eraseIdx idx).length
              ≤ (FileTableSector.load d b none).files.length := List.length_eraseIdx_le _ _
            _ ≤ 8 := load_files_le8 d b none)
      (by rw [hF1files]
          exact fun ft hft => hWFb ft (List.mem_of_mem_eraseIdx hft))
      (by rw [hF1cont]
          rcases chainOKb_cont_mem d (pa :: l) hpc b hbmem with hn | ⟨y, hy, hsome⟩
          · rw [hn]
            trivial
          · rw [hsome]
            exact h32 y hy)
  have hpc2 : chainOKb d2 (pa :: l) = true := by
    rw [chainOKb_congr_cont d2 d (pa :: l) ?_]
    · exact hpc
    · intro x hx
      by_cases hxb : x = b
      · subst hxb
        rw [hload2b]
        show F1.continuation_addr = (FileTableSector.load d x none).continuation_addr
        exact hF1cont
      · rw [table_load_congr d2 d x none (hd2d x (hpdisj x hx) hxb)]
  have hcw2 : chain_walk_contains d2 last (pa :: l) = none := by
    apply chain_walk_contains_none_of_all
    intro x hx
    by_cases hxb : x = b
    · subst hxb
      apply count_zero_contains_false
      rw [tableNameCount, hload2b]
      show (F1.files.filter (fun ft => entryName ft == last)).length = 0
      rw [hF1files, herase]
      rfl
    · rw [table_load_congr d2 d x none (hd2d x (hpdisj x hx) hxb)]
      exact walk_first_unique_others d last (pa :: l) b hcw huniq x hx hxb
  have hdirs2 : CleanDirs d2 fuel (fun x => x ∉ secs.map DataSector.addr ∧ x ≠ b)
      fs.entry_sector p2 pa :=
    CleanDirs_congr d d2 fuel _ (fun x hx => (hd2d x hx.1 hx.2).symm) fs.entry_sector p2 pa hdirs
  have hsync2 : tsync d2 fs1.entry_table := tsync_load d2 fs.entry_sector none
  have haddr2 : fs1.entry_table.addr = fs.entry_sector := rfl
  have hgf2 : fs1.get_file d2 fuel (p2 ++ [last]) = .ok none := by
    rw [get_file_eq_fileOf, hlastD]
    rw [show fs1.get_table_with_object d2 fuel (p2 ++ [last])
      = gtwoAux d2 fuel (p2 ++ [last]) fs1.entry_table none from rfl,
      (gtwo_resolved d2 fuel _ p2 fs.entry_sector pa hdirs2 last l fs1.entry_table none
        hsync2 haddr2 hpc2 hplen).1 hcw2]
    rfl
  refine ⟨fs1, d2, hfirst, ?_⟩
  rw [FileSystem.delete_file, hgf2]

/-- A drive holding one file `g` at the root: the root table (sector 5)
holds the slot `g` → 3, and sector 3 is the file's single data sector. -/
def dW7 : Disk :=
  [zeroSector, zeroSector, zeroSector,
   DataSector.serialize ⟨3, none, 2, [7, 8]⟩,
   zeroSector,
   FileTableSector.serialize ⟨5, none, none, [.file ⟨[103], 3⟩], false⟩]

def fsW7 : FileSystem := ⟨5, FileTableSector.load dW7 5 none⟩

def secsW7 : List DataSector := [DataSector.load dW7 3]

theorem C7_delete_file_idempotent_witness :
    ∃ fs1 d2, fsW7.delete_file dW7 9 [[103]] = .ok (.Success, fs1, d2) ∧
      fs1.delete_file d2 9 [[103]] = .ok (.NotFoundError, fs1, d2) :=
  C7_delete_file_idempotent fsW7 dW7 9 [] [103] 5 [] 5 ⟨[103], 3⟩ secsW7 0
    ⟨rfl, rfl, rfl⟩ rfl (CleanDirs.nil 5)
    (by decide) (by decide) (by decide) (by decide) (by decide) (by decide)
    (by decide) (by decide) (by decide) (by decide) (by decide) (by decide) (by decide)

/-! ## C1: write/read round trip -/

theorem find?_append_of_none {α : Type} (p : α → Bool) (l1 l2 : List α)
    (h : l1.find? p = none) : (l1 ++ l2).find? p = l2.find? p := by
  rw [List.find?_append, h, Option.none_or]

theorem find?_single_file (n : List Nat) (a : Nat) :
    ([FileType.file ⟨n, a⟩] : List FileType).find? (fun el => match el with
      | .file f => f.name == n
      | .dir dd => dd.name == n) = some (.file ⟨n, a⟩) := by
  simp [List.find?]

theorem find?_single_file2 (n : List Nat) (a : Nat) :
    ([FileType.file ⟨n, a⟩] : List FileType).find? (fun el => match el with
      | .file f => f.name == n
      | _ => false) = some (.file ⟨n, a⟩) := by
  simp [List.find?]

theorem contains_of_append_file (t : FileTableSector) (fl : List FileType) (n : List Nat)
    (a : Nat) (hfl : t.files = fl ++ [.file ⟨n, a⟩]) : t.contains_object n = true := by
  rw [FileTableSector.contains_object, hfl, List.find?_append]
  cases hf : fl.find? (fun el => match el with
    | .file f => f.name == n
    | .dir dd => dd.name == n) with
  | some x => rfl
  | none =>
    rw [Option.none_or, find?_single_file n a]
    rfl

theorem get_file_of_append_file (t : FileTableSector) (fl : List FileType) (n : List Nat)
    (a : Nat) (hfl : t.files = fl ++ [.file ⟨n, a⟩])
    (hfind : fl.find? (fun el => match el with
      | .file f => f.name == n
      | .dir dd => dd.name == n) = none) :
    t.get_file n = some ⟨n, a⟩ := by
  have hfile : fl.find? (fun el => match el with
      | .file f => f.name == n
      | _ => false) = none :=
    find?_none_mono _ _ fl (fun x hx => by
      cases x with
      | file f => exact hx
      | dir dd => cases hx) hfind
  rw [FileTableSector.get_file, hfl, find?_append_of_none _ _ _ hfile, find?_single_file2 n a]

theorem chain_walk_contains_unique_hit (d : Disk) (n : List Nat) : ∀ (l : List Nat) (v : Nat),
    v ∈ l →
    (FileTableSector.load d v none).contains_object n = true →
    (∀ x ∈ l, x ≠ v → (FileTableSector.load d x none).contains_object n = false) →
    chain_walk_contains d n l = some v := by
  intro l
  induction l with
  | nil => intro v hv; cases hv
  | cons a rest ih =>
    intro v hv hc hall
    rw [chain_walk_contains]
    by_cases hav : a = v
    · subst hav
      rw [hc]
      simp
    · rw [hall a (by simp) hav]
      simp only [Bool.false_eq_true, if_false]
      refine ih v ?_ hc (fun x hx hxv => hall x (by simp [hx]) hxv)
      rcases List.mem_cons.mp hv with he | hm
      · exact absurd he.symm hav
      · exact hm

/-- **C1 (amended).** A `write_file` on a cleanly resolving path whose final
name is *fresh* in the parent directory's chain, with a free slot available,
enough free sectors and representable names, returns `Success`; a subsequent
`get_file` of the same path finds the new file at the allocated head sector,
and `File::read` on it returns exactly the written bytes.  (Freshness is
necessary: the code never replaces an existing entry of the same name, see
`C1_counterexample`.) -/
theorem C1_write_read_round_trip (fs : FileSystem) (d : Disk) (fuel : Nat)
    (p2 : List (List Nat)) (bytes : List Nat) (fname : List Nat) (t t1 : FileTableSector)
    (ie1 : Bool) (fs1 : FileSystem) (d1 : Disk) (s0 : Nat)
    (root pa : Nat) (l : List Nat)
    (hr : resolveParent d fuel p2 fs.entry_table = .ok (some t))
    (hgrow : growToFree d t.directory_name fuel t p2.isEmpty fs = .ok (t1, ie1, fs1, d1))
    (hfind : find_available_sector d1 = some s0)
    (ht1len : t1.files.length < 8)
    (ht1addr : t1.addr < d1.length)
    (ht1del : t1.is_deleted = false)
    (ht1nz : isZeroSector (diskRead d1 t1.addr) = false)
    (h32 : d1.length ≤ 2 ^ 32)
    (hfree : (dataChunks bytes).length ≤ freeCount d1)
    (hfuelw : (dataChunks bytes).length ≤ fuel)
    (hdirs : CleanDirs d1 fuel (fun x => x < d1.length ∧ x ≠ t1.addr ∧
      isZeroSector (diskRead d1 x) = false) root p2 pa)
    (hpc : chainOKb d1 (pa :: l) = true)
    (hplen : l.length < fuel)
    (hplt : ∀ x ∈ pa :: l, x < d1.length)
    (hpnz : ∀ x ∈ pa :: l, isZeroSector (diskRead d1 x) = false)
    (h32c : ∀ x ∈ pa :: l, 0 < x ∧ x < 2 ^ 32)
    (ht1mem : t1.addr ∈ pa :: l)
    (ht1sync : tsync d1 t1)
    (hfresh : ∀ x ∈ pa :: l, (FileTableSector.load d1 x none).contains_object fname = false)
    (hWFt1 : ∀ ft ∈ t1.files, wfEntry ft)
    (hfname : fname ≠ [] ∧ fname.length ≤ 58 ∧ ∀ y ∈ fname, y ≠ 0 ∧ y < 256)
    (hie1 : ie1 = true → root = t1.addr)
    (hie0 : ie1 = false → tsync d1 fs1.entry_table ∧ fs1.entry_table.addr = root ∧
      root < d1.length ∧ root ≠ t1.addr ∧ isZeroSector (diskRead d1 root) = false) :
    ∃ d', fs.write_file d fuel (p2 ++ [fname]) bytes
        = .ok (.Success,
            if ie1 = true then { fs1 with entry_table := pushFile t1 fname s0 } else fs1, d') ∧
      (if ie1 = true then { fs1 with entry_table := pushFile t1 fname s0 } else fs1).get_file
          d' fuel (p2 ++ [fname]) = .ok (some ⟨fname, s0⟩) ∧
      ∀ fr, (dataChunks bytes).length + 1 ≤ fr →
        (⟨fname, s0⟩ : File).read d' fr = .ok bytes := by
  have hlast2 : (p2 ++ [fname]).getLast? = some fname := List.getLast?_concat p2
  have hdrop : (p2 ++ [fname]).dropLast = p2 := List.dropLast_concat
  obtain ⟨d', hok, hlen', hframe, ht1read, hread, hchain⟩ :=
    write_file_spec fs d fuel (p2 ++ [fname]) bytes fname t t1 ie1 fs1 d1 s0 hlast2
      (by rw [hdrop]; exact hr) (by rw [hdrop]; exact hgrow) hfind
      ht1len ht1addr ht1del ht1nz h32 hfree hfuelw
  obtain ⟨hs00, hs0le, hs0zero, -⟩ := (findAvailAux_some d1 (d1.length - 1) s0).mp hfind
  have hs0lt : s0 < d1.length := by omega
  have hT2files : (pushFile t1 fname s0).files = t1.files ++ [.file ⟨fname, s0⟩] := rfl
  have hT2addr : (pushFile t1 fname s0).addr = t1.addr := rfl
  have hT2del : (pushFile t1 fname s0).is_deleted = false := ht1del
  have hT2cont : (pushFile t1 fname s0).continuation_addr = t1.continuation_addr := rfl
  have hWFT2 : ∀ ft ∈ (pushFile t1 fname s0).files, wfEntry ft := by
    rw [hT2files]
    intro ft hft
    rcases List.mem_append.mp hft with hm | hm
    · exact hWFt1 ft hm
    · have he : ft = .file ⟨fname, s0⟩ := by simpa using hm
      subst he
      refine ⟨hfname.1, hfname.2.1, hfname.2.2, ?_, ?_⟩
      · show s0 ≠ 0
        omega
      · show s0 < 2 ^ 32
        omega
  have hcontT2 : contOK (pushFile t1 fname s0).continuation_addr := by
    rw [hT2cont, ht1sync.2.1]
    rcases chainOKb_cont_mem d1 (pa :: l) hpc t1.addr ht1mem with hn | ⟨y, hy, hsome⟩
    · rw [hn]
      trivial
    · rw [hsome]
      exact h32c y hy
  have hload't1 : FileTableSector.load d' t1.addr none
      = ⟨t1.addr, none, (pushFile t1 fname s0).continuation_addr,
          (pushFile t1 fname s0).files, false⟩ :=
    load_of_serialize d' t1.addr (pushFile t1 fname s0) none ht1read hT2del
      (by rw [hT2files, List.length_append]; simp; omega)
      hWFT2 hcontT2
  have hstart : tsync d'
      (if ie1 = true then { fs1 with entry_table := pushFile t1 fname s0 } else fs1).entry_table
      ∧ (if ie1 = true then { fs1 with entry_table := pushFile t1 fname s0 }
          else fs1).entry_table.addr = root := by
    cases hie : ie1 with
    | true =>
      rw [if_pos rfl]
      refine ⟨⟨?_, ?_, hT2del⟩, ?_⟩
      · show (pushFile t1 fname s0).files
          = (FileTableSector.load d' (pushFile t1 fname s0).addr none).files
        rw [hT2addr, hload't1]
      · show (pushFile t1 fname s0).continuation_addr
          = (FileTableSector.load d' (pushFile t1 fname s0).addr none).continuation_addr
        rw [hT2addr, hload't1]
      · show (pushFile t1 fname s0).addr = root
        rw [hT2addr]
        exact (hie1 hie).symm
    | false =>
      rw [if_neg (by simp)]
      obtain ⟨hs1, ha1, hlt1, hne1, hnz1⟩ := hie0 hie
      have he : FileTableSector.load d' fs1.entry_table.addr none
          = FileTableSector.load d1 fs1.entry_table.addr none :=
        table_load_congr _ _ _ _ (by rw [ha1]; exact hframe root hlt1 hne1 hnz1)
      exact ⟨⟨by rw [he]; exact hs1.1, by rw [he]; exact hs1.2.1, hs1.2.2⟩, ha1⟩
  have hdirs' : CleanDirs d' fuel (fun x => x < d1.length ∧ x ≠ t1.addr ∧
      isZeroSector (diskRead d1 x) = false) root p2 pa :=
    CleanDirs_congr d1 d' fuel _ (fun x hx => (hframe x hx.1 hx.2.1 hx.2.2).symm) root p2 pa hdirs
  have hchaineq : ∀ x ∈ pa :: l, x ≠ t1.addr → diskRead d' x = diskRead d1 x :=
    fun x hx hne => hframe x (hplt x hx) hne (hpnz x hx)
  have hpc' : chainOKb d' (pa :: l) = true := by
    rw [chainOKb_congr_cont d' d1 (pa :: l) ?_]
    · exact hpc
    · intro x hx
      by_cases hxt : x = t1.addr
      · subst hxt
        rw [hload't1]
        show (pushFile t1 fname s0).continuation_addr
          = (FileTableSector.load d1 t1.addr none).continuation_addr
        rw [hT2cont, ht1sync.2.1]
      · rw [table_load_congr d' d1 x none (hchaineq x hx hxt)]
  have hcw' : chain_walk_contains d' fname (pa :: l) = some t1.addr := by
    apply chain_walk_contains_unique_hit d' fname (pa :: l) t1.addr ht1mem
    · rw [hload't1]
      exact contains_of_append_file _ t1.files fname s0 hT2files
    · intro x hx hne
      rw [table_load_congr d' d1 x none (hchaineq x hx hne)]
      exact hfresh x hx
  obtain ⟨tb, hg, hsb, hab⟩ := (gtwo_resolved d' fuel _ p2 root pa hdirs' fname l
    (if ie1 = true then { fs1 with entry_table := pushFile t1 fname s0 } else fs1).entry_table
    none hstart.1 hstart.2 hpc' hplen).2 t1.addr hcw'
  have ht1find : t1.files.find? (fun el => match el with
      | .file f => f.name == fname
      | .dir dd => dd.name == fname) = none := by
    have hc1 : t1.contains_object fname = false := by
      rw [contains_congr t1 (FileTableSector.load d1 t1.addr none) ht1sync.1 fname]
      exact hfresh t1.addr ht1mem
    rw [FileTableSector.contains_object] at hc1
    exact isSome_false_eq_none _ hc1
  have hgf' : (if ie1 = true then { fs1 with entry_table := pushFile t1 fname s0 }
      else fs1).get_file d' fuel (p2 ++ [fname]) = .ok (some ⟨fname, s0⟩) := by
    rw [get_file_eq_fileOf, getLastD_concat_self]
    rw [show (if ie1 = true then { fs1 with entry_table := pushFile t1 fname s0 }
        else fs1).get_table_with_object d' fuel (p2 ++ [fname])
      = gtwoAux d' fuel (p2 ++ [fname])
          (if ie1 = true then { fs1 with entry_table := pushFile t1 fname s0 }
            else fs1).entry_table none from rfl, hg]
    show Res.ok (tb.get_file fname) = .ok (some ⟨fname, s0⟩)
    rw [get_file_congr tb (FileTableSector.load d' t1.addr none) (by rw [hsb.1, hab]) fname,
      hload't1,
      get_file_of_append_file ⟨t1.addr, none, (pushFile t1 fname s0).continuation_addr,
        (pushFile t1 fname s0).files, false⟩ t1.files fname s0 hT2files ht1find]
  refine ⟨d', hok, hgf', ?_⟩
  intro fr hfr
  rw [File.read]
  exact hread fr hfr

/-- Counterexample to C1 as stated: writing `[2, 3]` to the already-existing
name `x` (whose parent exists and with ample free sectors) returns `Success`,
but `write_file` never replaces the existing entry — it appends a second slot
— so `get_file` still resolves the *old* entry and reading it yields the old
content `[1]`, not `[2, 3]`. -/
theorem C1_counterexample :
    (stateOf (fs8.write_file disk8 9 [[120]] [1])).map (fun p =>
      (exitOf (p.1.write_file p.2 9 [[120]] [2, 3]),
        (stateOf (p.1.write_file p.2 9 [[120]] [2, 3])).map (fun q =>
          match q.1.get_file q.2 9 [[120]] with
          | .ok (some f) =>
            match f.read q.2 9 with
            | .ok bs => some bs
            | _ => none
          | _ => none)))
      = some (some .Success, some (some [1])) ∧
    [1] ≠ [2, 3] :=
  ⟨by decide, by decide⟩

theorem C1_write_read_round_trip_witness :
    ∃ d', fs8.write_file disk8 9 [[121]] [1]
        = .ok (.Success, { fs8 with entry_table := pushFile fs8.entry_table [121] 6 }, d') ∧
      ({ fs8 with entry_table := pushFile fs8.entry_table [121] 6 } : FileSystem).get_file
          d' 9 [[121]] = .ok (some ⟨[121], 6⟩) ∧
      ∀ fr, (dataChunks [1]).length + 1 ≤ fr →
        (⟨[121], 6⟩ : File).read d' fr = .ok [1] :=
  C1_write_read_round_trip fs8 disk8 9 [] [1] [121] fs8.entry_table fs8.entry_table true fs8
    disk8 6 7 7 []
    rfl (by decide) (by decide) (by decide) (by decide) (by decide) (by decide) (by decide)
    (by rw [show (dataChunks [1]).length = 1 from by simp [dataChunks, dataChunksRest]]; decide)
    (by rw [show (dataChunks [1]).length = 1 from by simp [dataChunks, dataChunksRest]]; decide)
    (CleanDirs.nil 7) (by decide) (by decide) (by decide) (by decide) (by decide) (by decide)
    ⟨rfl, rfl, rfl⟩ (by decide) (by decide) (by decide) (by decide)
    (fun h => absurd h (by decide))

end Pogostick
